import Mathlib

/-!
Verification of the keypath-addressed document diff/patch engine of
`js-object-tools` (`src/diff.ts`) against its natural-language specification.

The JavaScript value universe is embedded as the mutual inductive `Val`
(`ValList` for array contents, `Fields` for object fields, keeping the
insertion order of keys as JS objects do).  `Option Val` stands for a value
that may be `undefined`; `Except Unit` marks computations that can raise a
JS `TypeError`.

Keypaths are embedded as segment lists (`List String`); the dot-joined
string form used by the source corresponds to them one-to-one for the
dot-free key grammar the specification documents (§6: "no escaping of
literal dots is supported").

Functions of `diff.ts` itself are translated from that source.  The helper
functions it imports (`keypath.ts`, `containers.ts`, `check.ts`) are not
part of the sources; they are modelled from the specification, as marked in
their doc comments.
-/

namespace JsDiff

mutual

inductive Val : Type where
  | vnull : Val
  | vbool : Bool → Val
  | vnum : Int → Val
  | vstr : String → Val
  | vdate : Int → Val
  | varr : ValList → Val
  | vobj : Fields → Val

inductive ValList : Type where
  | nil : ValList
  | cons : Val → ValList → ValList

inductive Fields : Type where
  | nil : Fields
  | cons : String → Val → Fields → Fields

end

mutual

def beqVal : Val → Val → Bool
  | .vnull, .vnull => true
  | .vbool a, .vbool b => a == b
  | .vnum a, .vnum b => a == b
  | .vstr a, .vstr b => a == b
  | .vdate a, .vdate b => a == b
  | .varr xs, .varr ys => beqValList xs ys
  | .vobj fs, .vobj gs => beqFields fs gs
  | _, _ => false

def beqValList : ValList → ValList → Bool
  | .nil, .nil => true
  | .cons x xs, .cons y ys => beqVal x y && beqValList xs ys
  | _, _ => false

def beqFields : Fields → Fields → Bool
  | .nil, .nil => true
  | .cons k v fs, .cons k2 w gs => k == k2 && beqVal v w && beqFields fs gs
  | _, _ => false

end

mutual

theorem beqVal_iff : ∀ a b : Val, beqVal a b = true ↔ a = b
  | a, b => by
    cases a <;> cases b <;>
      simp [beqVal, beqVal_iff, beqValList_iff, beqFields_iff, and_assoc]

theorem beqValList_iff : ∀ a b : ValList, beqValList a b = true ↔ a = b
  | a, b => by
    cases a <;> cases b <;> simp [beqValList, beqVal_iff, beqValList_iff]

theorem beqFields_iff : ∀ a b : Fields, beqFields a b = true ↔ a = b
  | a, b => by
    cases a <;> cases b <;> simp [beqFields, beqVal_iff, beqFields_iff, and_assoc]

end

instance : DecidableEq Val := fun a b => decidable_of_iff (beqVal a b = true) (beqVal_iff a b)

instance : DecidableEq ValList := fun a b => decidable_of_iff (beqValList a b = true) (beqValList_iff a b)

instance : DecidableEq Fields := fun a b => decidable_of_iff (beqFields a b = true) (beqFields_iff a b)

/-- Length of an embedded JS array. -/
def ValList.length : ValList → Nat
  | .nil => 0
  | .cons _ tl => 1 + tl.length

/-- Element of an embedded JS array at an index (`undefined` when out of range). -/
def ValList.get : ValList → Nat → Option Val
  | .nil, _ => none
  | .cons v _, 0 => some v
  | .cons _ tl, n + 1 => tl.get n

/-- Keys of an object's fields, in insertion order. -/
def Fields.keys : Fields → List String
  | .nil => []
  | .cons k _ tl => k :: tl.keys

/-- JS property read on an object (`undefined` when the key is absent). -/
def Fields.lookup : Fields → String → Option Val
  | .nil, _ => none
  | .cons k v tl, key => if k = key then some v else tl.lookup key

/-- Emptiness test for fields. -/
def Fields.isEmpty : Fields → Bool
  | .nil => true
  | .cons _ _ _ => false

/-- JS truthiness of a value. -/
def truthy : Val → Bool
  | .vnull => false
  | .vbool b => b
  | .vnum n => n != 0
  | .vstr s => s ≠ ""
  | .vdate _ => true
  | .varr _ => true
  | .vobj _ => true

/-- JS truthiness with `undefined` (`none`) being falsy. -/
def truthyOpt : Option Val → Bool
  | none => false
  | some v => truthy v

/-- Modelled from the spec: the numeric type-checking predicate `check(x, Number)`
of the external `check.ts` (sources absent), per §4.2 "type must also be
numeric, not merely value-equal". -/
def isNumV : Val → Bool
  | .vnum _ => true
  | _ => false

/-- Numeric check lifted to possibly-undefined values. -/
def isNumOpt : Option Val → Bool
  | none => false
  | some v => isNumV v

/-- JS `typeof x === 'object'`: true for `null`, dates, arrays and plain objects. -/
def typeofObject : Val → Bool
  | .vnull => true
  | .vdate _ => true
  | .varr _ => true
  | .vobj _ => true
  | _ => false

/-- The `typeof` test lifted to possibly-undefined values (`typeof undefined` is
not `'object'`). -/
def typeofObjectOpt : Option Val → Bool
  | none => false
  | some v => typeofObject v

/-- Number of entries `Object.keys` would return: object keys, array indices,
string indices, nothing for other primitives.  Only emptiness of the key list
is ever consumed by `diff.ts`, so the count suffices. -/
def jsKeyCount : Val → Nat
  | .vobj fs => fs.keys.length
  | .varr xs => xs.length
  | .vstr s => s.length
  | _ => 0

/-- Key-set inclusion between two field lists (no value comparison). -/
def keysIncluded : Fields → Fields → Bool
  | .nil, _ => true
  | .cons k _ tl, fs => (fs.lookup k).isSome && keysIncluded tl fs

mutual

/-- Modelled from the spec: the deep structural equality `isEqual` of the
external `containers.ts` (sources absent), §4.2/§8 "deeply structurally
equal" / "deep-equal".  Arrays compare element by element in order; objects
compare as finite maps (key order is irrelevant); scalars and dates compare
by value. -/
def isEqual : Val → Val → Bool
  | .varr xs, .varr ys => isEqualList xs ys
  | .vobj fs, .vobj gs => fieldsIncluded fs gs && keysIncluded gs fs
  | a, b => beqVal a b

def isEqualList : ValList → ValList → Bool
  | .nil, .nil => true
  | .cons x xs, .cons y ys => isEqual x y && isEqualList xs ys
  | _, _ => false

def fieldsIncluded : Fields → Fields → Bool
  | .nil, _ => true
  | .cons k v tl, gs =>
    (match gs.lookup k with
     | some w => isEqual v w
     | none => false) && fieldsIncluded tl gs

end

/-- Deep equality lifted to possibly-undefined values. -/
def isEqualOpt : Option Val → Option Val → Bool
  | some a, some b => isEqual a b
  | none, none => true
  | _, _ => false

instance {ε α : Type} [DecidableEq ε] [DecidableEq α] : DecidableEq (Except ε α) := fun a b =>
  match a, b with
  | .error x, .error y => if h : x = y then isTrue (by rw [h]) else isFalse (by simp [h])
  | .ok x, .ok y => if h : x = y then isTrue (by rw [h]) else isFalse (by simp [h])
  | .error _, .ok _ => isFalse (by simp)
  | .ok _, .error _ => isFalse (by simp)

/-- A keypath, as its list of dot-separated segments. -/
abbrev KeyPath : Type := List String

/-- Replace the value at an index, padding with `null` beyond the current
length (JS index assignment creates holes; holes are modelled as `null`). -/
def ValList.setIdx : Nat → Val → ValList → ValList
  | 0, v, .nil => .cons v .nil
  | 0, v, .cons _ tl => .cons v tl
  | n + 1, v, .nil => .cons .vnull (ValList.setIdx n v .nil)
  | n + 1, v, .cons w tl => .cons w (ValList.setIdx n v tl)

/-- Replace the field `k` in place, or append it (JS object assignment keeps
the insertion position of an existing key and appends a new one). -/
def setField (k : String) (v : Val) : Fields → Fields
  | .nil => .cons k v .nil
  | .cons k2 w tl => if k2 = k then .cons k v tl else .cons k2 w (setField k v tl)

/-- Remove the field `k` (JS `delete`). -/
def removeField (k : String) : Fields → Fields
  | .nil => .nil
  | .cons k2 w tl => if k2 = k then tl else .cons k2 w (removeField k tl)

/-- Containers a keypath walk descends into. -/
def isContainer : Val → Bool
  | .vobj _ => true
  | .varr _ => true
  | _ => false

/-- A segment that addresses an array index: JS treats exactly the canonical
decimal representations as array indices (`arr["01"]` is a plain property,
not element 1). -/
def jsIndex (k : String) : Option Nat :=
  match k.toNat? with
  | some i => if toString i = k then some i else none
  | none => none

/-- Modelled from the spec: one segment of the walk of `valueForKeyPath` of the
external `keypath.ts` (sources absent), §4.1: child keys of mappings, numeric
segments as sequence indices, "absent" anywhere else. -/
def getKey (k : String) : Val → Option Val
  | .vobj fs => fs.lookup k
  | .varr xs =>
    match jsIndex k with
    | some i => xs.get i
    | none => none
  | _ => none

/-- Modelled from the spec: `valueForKeyPath` of the external `keypath.ts`
(sources absent), §4.1: "walks segments; returns the sentinel absent value if
any intermediate segment is missing, rather than failing". -/
def valueForKeyPath : KeyPath → Option Val → Option Val
  | [], x => x
  | k :: rest, x =>
    match x with
    | some v => valueForKeyPath rest (getKey k v)
    | none => none

/-- A node the keypath flattening keeps descending into: a non-empty plain
object.  Arrays, dates, primitives and empty containers are leaves (§4.1:
"Traversal does not descend into arrays ... or into dates"; §3: leaves
include "empty containers"). -/
def isBranch : Val → Bool
  | .vobj fs => !fs.isEmpty
  | _ => false

mutual

/-- Modelled from the spec: `keyPaths` of the external `keypath.ts` (sources
absent), §4.1: depth-first leaf keypaths in iteration order; with
`allLevels`, intermediate branch paths are included as well. -/
def keyPathsVal (allLevels : Bool) : Val → List KeyPath
  | .vobj fs => keyPathsFields allLevels fs
  | _ => []

def keyPathsFields (allLevels : Bool) : Fields → List KeyPath
  | .nil => []
  | .cons k v tl =>
    (if isBranch v then
      (if allLevels then [[k]] else []) ++ (keyPathsVal allLevels v).map (fun p => k :: p)
     else [[k]]) ++ keyPathsFields allLevels tl

end

/-- Modelled from the spec: `_keyPathContainsPath` of the external
`keypath.ts` (sources absent).  True when `a` is a strict descendant of `b`
(§4.3 step 3 together with §8 "unset contains exactly `{"a": true}`" force
the strict reading: the pairwise loop of `diff.ts` lines 92-98 visits the
pair `(a, a)` as well, and a reflexive test would empty the table). -/
def keyPathContainsPathStrict (a b : KeyPath) : Bool :=
  decide (b.length < a.length) && decide (a.take b.length = b)

/-- Modelled from the spec: `keyPathContainsPath` of the external
`keypath.ts` (sources absent), §4.1: "true when `b` is `a` or a descendant
of `a` under the dot-segment grammar". -/
def keyPathContainsPath (a b : KeyPath) : Bool :=
  decide (a = b) || keyPathContainsPathStrict a b

/-- Modelled from the spec: `filteredKeyPaths` of the external `keypath.ts`
(sources absent), §4.1: "removes any path that is, or is a descendant of,
any path in `ignore`". -/
def filteredKeyPaths (paths ignore : List KeyPath) : List KeyPath :=
  paths.filter (fun p => !(ignore.any (fun i => keyPathContainsPath p i)))

/-- The node a keypath write continues into: an existing container is kept,
anything else (a missing child or a non-container) is replaced by a fresh
mapping. -/
def containerOr : Option Val → Val
  | some c => if isContainer c then c else .vobj .nil
  | none => .vobj .nil

/-- Modelled from the spec: `setValueForKeyPath` of the external `keypath.ts`
(sources absent), §4.1: "walks/creates intermediate mapping nodes as needed
(never creates array nodes implicitly — only mapping nodes) and assigns the
leaf".  An intermediate value that is not a container is replaced by a fresh
mapping; canonical numeric segments address array indices. -/
def setValueForKeyPath (v : Val) : KeyPath → Val → Val
  | [], d => d
  | [k], d =>
    match d with
    | .vobj fs => .vobj (setField k v fs)
    | .varr xs =>
      match jsIndex k with
      | some i => .varr (ValList.setIdx i v xs)
      | none => .varr xs
    | other => other
  | k :: k2 :: rest, d =>
    match d with
    | .vobj fs =>
      .vobj (setField k (setValueForKeyPath v (k2 :: rest) (containerOr (fs.lookup k))) fs)
    | .varr xs =>
      match jsIndex k with
      | some i =>
        .varr (ValList.setIdx i (setValueForKeyPath v (k2 :: rest) (containerOr (xs.get i))) xs)
      | none => .varr xs
    | other => other

/-- Modelled from the spec: `unsetKeyPath` of the external `keypath.ts`
(sources absent), §4.1: "removes the leaf at the path".  A missing
intermediate leaves the document unchanged; JS `delete` on an array index
leaves a hole, modelled as `null`. -/
def unsetKeyPath : KeyPath → Val → Val
  | [], d => d
  | [k], d =>
    match d with
    | .vobj fs => .vobj (removeField k fs)
    | .varr xs =>
      match jsIndex k with
      | some i => if i < xs.length then .varr (ValList.setIdx i .vnull xs) else .varr xs
      | none => .varr xs
    | other => other
  | k :: k2 :: rest, d =>
    match d with
    | .vobj fs =>
      match fs.lookup k with
      | some c => .vobj (setField k (unsetKeyPath (k2 :: rest) c) fs)
      | none => .vobj fs
    | .varr xs =>
      match jsIndex k with
      | some i =>
        match xs.get i with
        | some c => .varr (ValList.setIdx i (unsetKeyPath (k2 :: rest) c) xs)
        | none => .varr xs
      | none => .varr xs
    | other => other

/-- Modelled from the spec: the recursive empty-branch removal inside `prune`
of the external `containers.ts` (sources absent), §4.4: "prune any resulting
empty container branches"; only plain-object branches are plain objects for
the library's object check, so arrays are left as they are. -/
def pruneFields : Fields → Fields
  | .nil => .nil
  | .cons k v tl =>
    match v with
    | .vobj gs =>
      match pruneFields gs with
      | .nil => pruneFields tl
      | pg => .cons k (.vobj pg) (pruneFields tl)
    | w => .cons k w (pruneFields tl)

/-- Modelled from the spec: `prune` of the external `containers.ts` (sources
absent), §4.4. -/
def prune : Val → Val
  | .vobj fs => .vobj (pruneFields fs)
  | v => v

/-- `shouldSet` of `src/diff.ts` lines 41-53.  The branches mirror the source
in order: arrays by deep equality, dates by instant, numbers by strict
equality plus a numeric type check on `prev`, non-null objects by deep
equality, then truthy scalars by strict equality; every other value falls
off the end (JS returns `undefined`, which the caller treats as false). -/
def shouldSet (val prev : Option Val) : Bool :=
  match val with
  | some (.varr xs) => !isEqualOpt prev (some (.varr xs))
  | some (.vdate t) =>
    match prev with
    | some (.vdate t2) => decide (t ≠ t2)
    | _ => true
  | some (.vnum n) => decide (prev ≠ some (.vnum n)) || !isNumOpt prev
  | some (.vobj fs) => !isEqualOpt prev (some (.vobj fs))
  | some v => if truthy v then decide (prev ≠ some v) else false
  | none => false

/-- `shouldUnset` of `src/diff.ts` lines 55-65.  The second branch evaluates
`Object.keys(val)`, which raises a `TypeError` when `val` is `undefined`
(reachable there only when `prev` is `null`, since a truthy or numeric
`prev` is caught by the first branch); the error is modelled as `.error`. -/
def shouldUnset (val prev : Option Val) : Except Unit Bool :=
  if (truthyOpt prev || isNumOpt prev) && !(truthyOpt val || isNumOpt val) then
    .ok true
  else if decide (val ≠ some .vnull) && typeofObjectOpt prev then
    match val with
    | none => .error ()
    | some v => .ok (decide (jsKeyCount v = 0))
  else
    .ok false

/-- The `Modifier` shape of `src/diff.ts` lines 29-32: both fields optional
(`none` is a missing field, `some []` an empty mapping); `$set` maps
keypaths to values; the values stored under `$unset` keypaths are JS values
that may be `undefined` (`none`), as produced by `mapModifierToKey`. -/
structure Modifier : Type where
  set : Option (List (KeyPath × Val))
  unset : Option (List (KeyPath × Option Val))

instance : DecidableEq Modifier := fun a b =>
  decidable_of_iff (a.set = b.set ∧ a.unset = b.unset)
    (by cases a; cases b; simp)

/-- The forward pass of `diffToModifier` (`src/diff.ts` lines 74-79): record
`$set[keyPath] = val` for every enumerated path whose value satisfies
`shouldSet` against the previous document. -/
def collectSets (prev : Option Val) (doc : Val) (paths : List KeyPath) : List (KeyPath × Val) :=
  paths.filterMap (fun p =>
    match valueForKeyPath p (some doc) with
    | some v => if shouldSet (some v) (valueForKeyPath p prev) then some (p, v) else none
    | none => none)

/-- The backward pass of `diffToModifier` (`src/diff.ts` lines 84-89): record
every enumerated path whose values satisfy `shouldUnset`; the first
`TypeError` raised by `shouldUnset` aborts the whole computation. -/
def collectUnsets (prev doc : Option Val) : List KeyPath → Except Unit (List KeyPath)
  | [] => .ok []
  | p :: rest =>
    match shouldUnset (valueForKeyPath p doc) (valueForKeyPath p prev) with
    | .error e => .error e
    | .ok b =>
      match collectUnsets prev doc rest with
      | .error e => .error e
      | .ok r => .ok (if b then p :: r else r)

/-- The subsumption loop of `diffToModifier` (`src/diff.ts` lines 90-98): the
key snapshot is taken before any deletion, so a path survives exactly when
it is a strict descendant of no recorded path. -/
def subsume (us : List KeyPath) : List KeyPath :=
  us.filter (fun a => !(us.any (fun b => keyPathContainsPathStrict a b)))

/-- The keypaths the backward pass enumerates (`src/diff.ts` lines 81-83):
all-level paths of a truthy `prev`, filtered by the ignore list. -/
def backwardPaths : Option Val → List KeyPath → List KeyPath
  | some pv, ign => if truthy pv then filteredKeyPaths (keyPathsVal true pv) ign else []
  | none, _ => []

/-- The `$set` table built by the forward pass of `diffToModifier`
(`src/diff.ts` lines 71-80), empty when `doc` is falsy. -/
def forwardList : Option Val → Option Val → List KeyPath → List (KeyPath × Val)
  | prev, some d, ign =>
    if truthy d then collectSets prev d (filteredKeyPaths (keyPathsVal false d) ign) else []
  | _, none, _ => []

/-- The `$unset` key list built by the backward pass of `diffToModifier`
(`src/diff.ts` lines 81-98) including the subsumption loop, empty when
`prev` is falsy. -/
def backwardList : Option Val → Option Val → List KeyPath → Except Unit (List KeyPath)
  | some pv, doc, ign =>
    if truthy pv then
      (collectUnsets (some pv) doc (backwardPaths (some pv) ign)).map subsume
    else .ok []
  | none, _, _ => .ok []

/-- The final assembly of `diffToModifier` (`src/diff.ts` lines 100-106 and
112-113): drop empty `$set`/`$unset` fields, and return `undefined` when no
field remains. -/
def assembleModifier (setL : List (KeyPath × Val)) (unsetL : List KeyPath) : Option Modifier :=
  let setF : Option (List (KeyPath × Val)) := if setL.isEmpty then none else some setL
  let unsetF : Option (List (KeyPath × Option Val)) :=
    if unsetL.isEmpty then none
    else some (unsetL.map (fun p => (p, some (Val.vbool true))))
  if setF.isSome || unsetF.isSome then some ⟨setF, unsetF⟩ else none

/-- `diffToModifier` of `src/diff.ts` lines 67-114 without the
`pruneEmptyObjects` branch (lines 100-113 otherwise): forward pass under a
truthy `doc`, backward pass plus subsumption under a truthy `prev`, empty
fields dropped, and `undefined` (`none`) returned when nothing remains. -/
def diffCore (prev doc : Option Val) (ign : List KeyPath) : Except Unit (Option Modifier) :=
  match backwardList prev doc ign with
  | .error e => .error e
  | .ok unsetL =>
    .ok (assembleModifier (forwardList prev doc ign) unsetL)

/-- Dot-joined string form of a keypath (the key grammar has no literal dots,
§6, so the form is one-to-one). -/
def joinPath (p : KeyPath) : String := String.intercalate "." p

/-- Object fields from an association list. -/
def Fields.ofList : List (String × Val) → Fields
  | [] => .nil
  | (k, v) :: tl => .cons k v (Fields.ofList tl)

/-- The `$set` sub-object of a modifier as a plain JS object keyed by
dot-joined keypaths. -/
def setObjVal (s : List (KeyPath × Val)) : Val :=
  .vobj (Fields.ofList (s.map (fun e => (joinPath e.1, e.2))))

/-- The `$unset` sub-object of a modifier as a plain JS object; entries whose
stored value is `undefined` have no representable field value and are
dropped (they are never produced by `diffToModifier`). -/
def unsetObjVal (u : List (KeyPath × Option Val)) : Val :=
  .vobj (Fields.ofList (u.filterMap (fun e => e.2.map (fun v => (joinPath e.1, v)))))

/-- A modifier viewed as the plain JS object `{$set: ..., $unset: ...}` with
only its present fields, as passed to the recursive `diffToModifier` call. -/
def modifierToVal (m : Modifier) : Val :=
  .vobj (Fields.ofList
    ((match m.set with
      | some s => [("$set", setObjVal s)]
      | none => []) ++
     (match m.unset with
      | some u => [("$unset", unsetObjVal u)]
      | none => [])))

/-- `diffToModifier` of `src/diff.ts` lines 67-114 including the
`pruneEmptyObjects` branch: when the flag is set and a delta was produced,
the source re-diffs `prev` against the delta itself (the comma expression
`(clone(prev), delta)` evaluates to `delta`), without the flag, and falls
back to the first delta when that second diff is empty. -/
def diffToModifier (prev doc : Option Val) (ign : List KeyPath) (pruneEmptyObjects : Bool) :
    Except Unit (Option Modifier) :=
  match diffCore prev doc ign with
  | .error e => .error e
  | .ok none => .ok none
  | .ok (some delta) =>
    if pruneEmptyObjects then
      match diffCore prev (some (modifierToVal delta)) ign with
      | .error e => .error e
      | .ok nd => .ok (some (nd.getD delta))
    else
      .ok (some delta)

/-- The guard of the flat branch of `$set` (`src/diff.ts` line 157):
`check(val, Number) || val`. -/
def guardSet (v : Val) : Bool := isNumV v || truthy v

/-- The flat branch of `$set` (`src/diff.ts` lines 156-160): write every
numeric-or-truthy value at its keypath. -/
def dollarSetFlat (dest : Val) (entries : List (KeyPath × Val)) : Val :=
  entries.foldl (fun d e => if guardSet e.2 then setValueForKeyPath e.2 e.1 d else d) dest

/-- `$set` of `src/diff.ts` lines 149-161 on a modifier-shaped source: the
guarded recursion writes the flat `$set` entries, after which the `each`
over the modifier object itself writes its own `$set`/`$unset` fields (both
truthy objects) into `dest` under the literal keys `"$set"`/`"$unset"`. -/
def dollarSet (dest : Val) (m : Modifier) : Val :=
  let d1 :=
    match m.set with
    | some s => dollarSetFlat dest s
    | none => dest
  let d2 :=
    match m.set with
    | some s => setValueForKeyPath (setObjVal s) ["$set"] d1
    | none => d1
  match m.unset with
  | some u => setValueForKeyPath (unsetObjVal u) ["$unset"] d2
  | none => d2

/-- The flat branch of `$unset` (`src/diff.ts` line 180): remove every listed
keypath. -/
def dollarUnsetFlat (dest : Val) (entries : List (KeyPath × Option Val)) : Val :=
  entries.foldl (fun d e => unsetKeyPath e.1 d) dest

/-- `$unset` of `src/diff.ts` lines 173-181 on a modifier-shaped source: the
guarded recursion removes the flat `$unset` keypaths, after which the `each`
over the modifier object itself removes its own field names, i.e. the
literal keys `"$set"`/`"$unset"`, from `dest`. -/
def dollarUnset (dest : Val) (m : Modifier) : Val :=
  let d1 :=
    match m.unset with
    | some u => dollarUnsetFlat dest u
    | none => dest
  let d2 :=
    match m.set with
    | some _ => unsetKeyPath ["$set"] d1
    | none => d1
  match m.unset with
  | some _ => unsetKeyPath ["$unset"] d2
  | none => d2

/-- `apply` of `src/diff.ts` lines 134-147.  An absent source returns `dest`
untouched.  A modifier-shaped source (a present `$set` or `$unset` field —
even an empty object is truthy) runs `$set` then `$unset` and prunes.  The
only non-shaped `Modifier` value is `{}`, for which `objToModifier({})`
(line 130, a diff against an absent previous document) yields `undefined`,
so both helpers return immediately and only `prune` acts. -/
def apply (dest : Val) (source : Option Modifier) : Val :=
  match source with
  | none => dest
  | some m =>
    if m.set.isSome || m.unset.isSome then prune (dollarUnset (dollarSet dest m) m)
    else prune dest

/-- `update` of `src/diff.ts` lines 183-210, with the collaborators
abstracted: `model` is the document the resolved getter returns, `hasSet`
and `hasCollection` record which persistence options were supplied, and the
setter itself is a pure sink.  The source clones the model, applies the
diff, hands the clone to the setter, and raises "Diff: not equal after
update" when the mutated clone is not deeply equal to `model` (line 202
compares against `model`, not against `doc`). -/
def update (doc model : Val) (ign : List KeyPath) (hasSet hasCollection : Bool) :
    Except String (Option Modifier) :=
  match diffCore (some model) (some doc) ign with
  | .error _ => .error "TypeError"
  | .ok none => .ok none
  | .ok (some diff) =>
    if !hasSet && !hasCollection then .error "Diff: no setter provided"
    else if hasSet then
      if !isEqual (apply model (some diff)) model then .error "Diff: not equal after update"
      else .ok (some diff)
    else .ok (some diff)

/-- JS object lookup `modifier.$set[keyPath]` on the flat `$set` mapping, by
the dot-joined key. -/
def lookupSetEntry (s : List (KeyPath × Val)) (p : KeyPath) : Option Val :=
  (s.find? (fun e => e.1 = p)).map (fun e => e.2)

/-- `mapModifierToKey` of `src/diff.ts` lines 213-231.  Both output fields
are created lazily, so an empty input mapping leaves the field absent.  The
`$unset` loop body reads `modifier.$set[keyPath]` (line 228): when `$set` is
absent this indexes `undefined` and raises a `TypeError`; otherwise the
stored value is whatever `$set` holds at the same keypath — usually
`undefined` (`none`), not `true`. -/
def mapModifierToKey (m : Modifier) (key : String) : Except Unit Modifier :=
  let set2 : Option (List (KeyPath × Val)) :=
    match m.set with
    | some s => if s.isEmpty then none else some (s.map (fun e => (key :: e.1, e.2)))
    | none => none
  match m.unset with
  | some u =>
    if u.isEmpty then .ok ⟨set2, none⟩
    else
      match m.set with
      | none => .error ()
      | some s => .ok ⟨set2, some (u.map (fun e => (key :: e.1, lookupSetEntry s e.1)))⟩
  | none => .ok ⟨set2, none⟩

/-- Keys of a field list are pairwise distinct (JS objects cannot carry
duplicate keys; `Fields` values with duplicates represent no JS object). -/
def nodupKeys : Fields → Bool
  | .nil => true
  | .cons k _ tl => !(tl.keys.contains k) && nodupKeys tl

mutual

/-- A `Val` that represents an actual JS value: object keys are duplicate-free
at every level, inside arrays as well. -/
def wfVal : Val → Bool
  | .vobj fs => nodupKeys fs && wfFields fs
  | .varr xs => wfList xs
  | _ => true

def wfFields : Fields → Bool
  | .nil => true
  | .cons _ v tl => wfVal v && wfFields tl

def wfList : ValList → Bool
  | .nil => true
  | .cons v tl => wfVal v && wfList tl

end

/-- Entry membership in a field list. -/
inductive EntryMem (k : String) (v : Val) : Fields → Prop where
  | head (tl : Fields) : EntryMem k v (.cons k v tl)
  | tail (k2 : String) (w : Val) (tl : Fields) : EntryMem k v tl → EntryMem k v (.cons k2 w tl)

mutual

/-- Values at which both classifier predicates are quiet when old and new
agree: scalars and null always; arrays and objects when non-empty (an empty
`Object.keys` triggers `shouldUnset`'s second branch) and recursively
self-stable; never dates (`Object.keys` of a date is empty, so an unchanged
date is spuriously unset).  Duplicate-free keys are required so that deep
equality is reflexive. -/
def selfStable : Val → Bool
  | .vnull => true
  | .vbool _ => true
  | .vnum _ => true
  | .vstr _ => true
  | .vdate _ => false
  | .varr xs => !decide (xs.length = 0) && selfStableList xs
  | .vobj fs => !fs.isEmpty && (nodupKeys fs && selfStableFields fs)

def selfStableList : ValList → Bool
  | .nil => true
  | .cons v tl => selfStable v && selfStableList tl

def selfStableFields : Fields → Bool
  | .nil => true
  | .cons _ v tl => selfStable v && selfStableFields tl

end

/-- A document all of whose members are self-stable (the root object itself
may be empty: `keyPaths({})` is empty, so nothing is ever compared at it). -/
def selfStableDoc : Val → Bool
  | .vobj fs => nodupKeys fs && selfStableFields fs
  | _ => false

/-- The configuration that defeats disjointness: the old value at a keypath
has `typeof === 'object'` (object, array, date or null) while the new value
is a non-null, numeric-or-truthy value with no enumerable keys (a number,
`true`, a date, or an empty container — `shouldSet` records no other keyless
value, so only these can land in both tables). -/
def objDropped (prev doc : Option Val) (p : KeyPath) : Bool :=
  typeofObjectOpt (valueForKeyPath p prev) &&
    (match valueForKeyPath p doc with
     | some v => decide (v ≠ .vnull) && decide (jsKeyCount v = 0) && guardSet v
     | none => false)

/-- Segment-wise prefix test on keypaths (`p` a prefix of `q`, equality
included). -/
def pathIsPrefix : KeyPath → KeyPath → Bool
  | [], _ => true
  | _ :: _, [] => false
  | k :: p, k2 :: q => k == k2 && pathIsPrefix p q

/-- Two keypaths neither of which is a prefix of the other: they address
disjoint subtrees. -/
def pathUnrelated (p q : KeyPath) : Bool :=
  !pathIsPrefix p q && !pathIsPrefix q p

/-- A keypath whose walk through `d` lands cleanly for `setValueForKeyPath`:
non-empty, and every array met on the way is entered through a canonical
in-range index (out-of-range writes pad the array and writes through
non-index segments of arrays are lost). -/
def pathWritable : KeyPath → Val → Bool
  | [], _ => false
  | [k], d =>
    match d with
    | .vobj _ => true
    | .varr xs =>
      match jsIndex k with
      | some i => decide (i < xs.length)
      | none => false
    | _ => false
  | k :: k2 :: rest, d =>
    match d with
    | .vobj fs => pathWritable (k2 :: rest) (containerOr (fs.lookup k))
    | .varr xs =>
      match jsIndex k with
      | some i =>
        match xs.get i with
        | some c => pathWritable (k2 :: rest) (containerOr (some c))
        | none => false
      | none => false
    | _ => false

/-- All pairs of `$set` entry keypaths address disjoint subtrees. -/
def pairwiseUnrelated : List (KeyPath × Val) → Bool
  | [] => true
  | e :: tl => tl.all (fun e2 => pathUnrelated e.1 e2.1) && pairwiseUnrelated tl

/-! ### The round-trip-safe domain of claim C1 -/

/-- `check(v, Number) || v`: truthy or numeric, over possibly-absent values. -/
def truthyNum (o : Option Val) : Bool := truthyOpt o || isNumOpt o

/-- A plain-object value. -/
def isObjV : Val → Bool
  | .vobj _ => true
  | _ => false

/-- The read lands on an array. -/
def arrRead (o : Option Val) : Bool :=
  match o with
  | some (.varr _) => true
  | _ => false

/-- The read lands on a branch (a non-empty object). -/
def branchRead (o : Option Val) : Bool :=
  match o with
  | some v => isBranch v
  | none => false

/-- The document owns neither literal modifier key at top level. -/
def topNoDollar : Val → Bool
  | .vobj fs => (fs.lookup "$set").isNone && (fs.lookup "$unset").isNone
  | _ => false

/-- The new-document side of the round-trip-safe domain: at every enumerated
keypath of `B`, a branch (non-empty object) value must not sit over an array
in `A` (the write walk would descend into the array and lose or misplace
writes), and a leaf value must not be an empty object (`apply` would prune it
away) and must be numeric or truthy (so the classifier records a set) unless
the old value is already deeply equal (nothing writes a falsy value back). -/
def newDocOk (A B : Val) : Bool :=
  (keyPathsVal true B).all fun q =>
    match valueForKeyPath q (some B) with
    | some b =>
      if isBranch b then !arrRead (valueForKeyPath q (some A))
      else
        decide (b ≠ .vobj .nil) &&
          (isNumV b || truthy b || isEqualOpt (valueForKeyPath q (some A)) (some b))
    | none => true

/-- The old-document side of the round-trip-safe domain: at every enumerated
keypath of `A`, an old value absent from `B` must be truthy or numeric (so
its unset fires — a `null` there even crashes `shouldUnset`), a falsy
non-numeric new value must already deeply equal the old one (falsy values
are never written), and a truthy-or-numeric new value must not pair an old
`typeof 'object'` value with a keyless new one (the configuration that
records the path in both tables, making the unset destroy the fresh set). -/
def oldPathsOk (A B : Val) : Bool :=
  (keyPathsVal true A).all fun r =>
    match valueForKeyPath r (some B) with
    | none => truthyNum (valueForKeyPath r (some A))
    | some b =>
      if isNumV b || truthy b then
        !(typeofObjectOpt (valueForKeyPath r (some A)) && decide (jsKeyCount b = 0))
      else isEqualOpt (valueForKeyPath r (some A)) (some b)

/-- The round-trip-safe domain: both documents are well-formed objects, the
new one owns no literal `$set`/`$unset` top-level key, and both per-path
conditions hold. -/
def rtSafe (A B : Val) : Bool :=
  isObjV A && wfVal A && wfVal B && topNoDollar B && newDocOk A B && oldPathsOk A B

/-- Shallow observation of a possibly-absent value: its kind, with the full
payload for scalars and dates (whose deep equality is plain equality). -/
inductive Obs : Type where
  | absent : Obs
  | oobj : Obs
  | oarr : Obs
  | oscal : Val → Obs
deriving DecidableEq

/-- Observation of a read. -/
def obs : Option Val → Obs
  | none => .absent
  | some (.vobj _) => .oobj
  | some (.varr _) => .oarr
  | some v => .oscal v

/-- The walk of `unsetKeyPath` reaches the final segment through present
object nodes, so the removal deletes the addressed slot. -/
def unsetKills : KeyPath → Val → Bool
  | [], _ => false
  | [_], d => isObjV d
  | k :: k2 :: rest, d =>
    match d with
    | .vobj fs =>
      match fs.lookup k with
      | some c => unsetKills (k2 :: rest) c
      | none => false
    | _ => false

/-- Key lists are duplicate-free along the walk of a keypath — enough for a
removal at the path to leave no shadowed entry behind. -/
def parentNodup : KeyPath → Val → Bool
  | [], _ => true
  | [_], d =>
    match d with
    | .vobj fs => nodupKeys fs
    | _ => true
  | k :: k2 :: rest, d =>
    match d with
    | .vobj fs =>
      match fs.lookup k with
      | some c => parentNodup (k2 :: rest) c
      | none => true
    | .varr xs =>
      match jsIndex k with
      | some i =>
        match xs.get i with
        | some c => parentNodup (k2 :: rest) c
        | none => true
      | none => true
    | _ => true

/-- The walk of `setValueForKeyPath` stays on object nodes (fresh mappings
replace scalars and absences), so the write lands without array padding or
lost segments. -/
def objWalk : KeyPath → Val → Bool
  | [], _ => false
  | [_], d => isObjV d
  | k :: k2 :: rest, d =>
    match d with
    | .vobj fs => objWalk (k2 :: rest) (containerOr (fs.lookup k))
    | _ => false

mutual

/-- No empty object anywhere along object-field chains — the only spots the
recursive prune of §4.4 deletes; array contents are not inspected.  The node
itself may be an empty object (used at the root, which prune keeps). -/
def noEmptyChain : Val → Bool
  | .vobj fs => noEmptyChainFields fs
  | _ => true

/-- A field value: an empty object is forbidden, a non-empty object recurses. -/
def noEmptyChainVal : Val → Bool
  | .vobj fs => !fs.isEmpty && noEmptyChainFields fs
  | _ => true

def noEmptyChainFields : Fields → Bool
  | .nil => true
  | .cons _ v tl => noEmptyChainVal v && noEmptyChainFields tl

end

/-- The literal modifier keys, whose field values `$set` parks in the
destination until `$unset` deletes them again. -/
def dollarExempt (k : String) : Bool := k == "$set" || k == "$unset"

/-- All fields except the literal modifier keys hold well-formed values. -/
def allNonDollarWf : Fields → Bool
  | .nil => true
  | .cons k v tl => (dollarExempt k || wfVal v) && allNonDollarWf tl

/-- The invariant `apply` maintains on its working document: an object root
with duplicate-free keys whose non-`$`-keyed fields are well-formed. -/
def rootOk : Val → Bool
  | .vobj fs => nodupKeys fs && allNonDollarWf fs
  | _ => false

/-- A keypath whose removal walk derives its duplicate-freedom from the root
invariant: a single segment, or a head outside the literal modifier keys. -/
def pnSafe : KeyPath → Bool
  | [] => false
  | [_] => true
  | k :: _ :: _ => !dollarExempt k

/-- Pairwise disjointness of a list of keypaths. -/
def pairwiseUnrelatedK : List KeyPath → Bool
  | [] => true
  | p :: tl => tl.all (fun p2 => pathUnrelated p p2) && pairwiseUnrelatedK tl

/-- The fired backward-pass paths: enumerated keypaths of `A` absent from
`B` (what `collectUnsets` records under the round-trip-safe domain). -/
def unsetPathsOf (A B : Val) : List KeyPath :=
  (keyPathsVal true A).filter (fun r => (valueForKeyPath r (some B)).isNone)

/-- The modifier `assembleModifier` builds when at least one field survives. -/
def modOf (setL : List (KeyPath × Val)) (unsetL : List KeyPath) : Modifier :=
  ⟨if setL.isEmpty then none else some setL,
   if unsetL.isEmpty then none
   else some (unsetL.map (fun p => (p, some (Val.vbool true))))⟩

/-- The document `apply` prunes at the end of a round trip: the `$set` pass
followed by the `$unset` pass over the modifier the diff of `A` against `B`
assembles (taken as `modOf`, which also covers the empty modifier). -/
def midState (A B : Val) : Val :=
  dollarUnset
    (dollarSet A (modOf (forwardList (some A) (some B) []) (subsume (unsetPathsOf A B))))
    (modOf (forwardList (some A) (some B) []) (subsume (unsetPathsOf A B)))

/-- All prefixes of a keypath. -/
def prefixList : KeyPath → List KeyPath
  | [] => [[]]
  | k :: p => [] :: (prefixList p).map (fun r => k :: r)

/-- The flat write branch of `$set`, keyed on the presence of the field. -/
def flatSetOf (o : Option (List (KeyPath × Val))) (x : Val) : Val :=
  match o with
  | some s => dollarSetFlat x s
  | none => x

/-- The self-write of the `$set` field (`each` over the modifier object). -/
def junkSet (o : Option (List (KeyPath × Val))) (x : Val) : Val :=
  match o with
  | some s => setValueForKeyPath (setObjVal s) ["$set"] x
  | none => x

/-- The self-write of the `$unset` field. -/
def junkUnsetObj (o : Option (List (KeyPath × Option Val))) (x : Val) : Val :=
  match o with
  | some u => setValueForKeyPath (unsetObjVal u) ["$unset"] x
  | none => x

/-- The flat removal branch of `$unset`, keyed on the presence of the field. -/
def flatUnsetOf (o : Option (List (KeyPath × Option Val))) (x : Val) : Val :=
  match o with
  | some u => dollarUnsetFlat x u
  | none => x

/-- The removal of the parked `$set` field by the `$unset` pass. -/
def junkDropSet (o : Option (List (KeyPath × Val))) (x : Val) : Val :=
  match o with
  | some _ => unsetKeyPath ["$set"] x
  | none => x

/-- The removal of the parked `$unset` field by the `$unset` pass. -/
def junkDropUnset (o : Option (List (KeyPath × Option Val))) (x : Val) : Val :=
  match o with
  | some _ => unsetKeyPath ["$unset"] x
  | none => x

/-- The working document after the flat `$set` writes of a round trip. -/
def rtX1 (A B : Val) : Val := dollarSetFlat A (forwardList (some A) (some B) [])

/-- The working document after `$set` finishes: the flat writes plus the
parked `$set`/`$unset` self-writes. -/
def rtX3 (A B : Val) : Val :=
  junkUnsetObj
    (modOf (forwardList (some A) (some B) []) (subsume (unsetPathsOf A B))).unset
    (junkSet
      (modOf (forwardList (some A) (some B) []) (subsume (unsetPathsOf A B))).set
      (rtX1 A B))

/-- The working document after the flat `$unset` removals. -/
def rtX4 (A B : Val) : Val :=
  dollarUnsetFlat (rtX3 A B)
    ((subsume (unsetPathsOf A B)).map (fun p => (p, some (Val.vbool true))))

/-! ### The field-story semantics of the apply passes

A write or deletion at keypath `k :: rest` touches only the field `k` of an
object node, and its effect on that field depends only on the field's old
value.  The following step functions capture that per-field effect: an empty
remaining path replaces (for a `$set` entry, `setField`) or removes (for a
`$unset` entry, `removeField`) the field outright, and a non-empty one edits
inside it, going through `containerOr` exactly as `setValueForKeyPath`
does. -/

/-- The `$unset` paths addressing the child `k`: heads stripped. -/
def childU (k : String) (u : List KeyPath) : List KeyPath :=
  u.filterMap (fun p =>
    match p with
    | k0 :: rest => if k0 = k then some rest else none
    | [] => none)

/-- The `$unset` paths addressing the array element `i`. -/
def elemU (i : Nat) (u : List KeyPath) : List KeyPath :=
  u.filterMap (fun p =>
    match p with
    | k0 :: rest => if jsIndex k0 = some i then some rest else none
    | [] => none)

/-- Field-level prune: the value a field holds after `prune`, `none` when the
field is deleted (an object all of whose content prunes away). -/
def pruneOptC : Option Val → Option Val
  | none => none
  | some (.vobj gs) =>
    match pruneFields gs with
    | .nil => none
    | pg => some (.vobj pg)
  | some v => some v

/-- Total remaining-path weight of a pass pair, the termination measure of
the story induction: every descent into a child strips one segment from
each surviving path and drops the paths aimed elsewhere. -/
def opSize (s : List (KeyPath × Val)) (u : List KeyPath) : Nat :=
  (s.map (fun e => e.1.length + 1)).sum + (u.map (fun p => p.length + 1)).sum

/-- Well-formed written values: the `$set` payloads of a modifier are JS
values, hence duplicate-free objects at every level. -/
def modifierWf : Option Modifier → Bool
  | none => true
  | some m =>
    match m.set with
    | some s => s.all (fun e => wfVal e.2)
    | none => true

/-- The `$unset` pass on an array element: a path consumed down to nothing is
an in-range single-segment unset, which writes `null` into the slot (JS
`delete` leaves a hole); deeper paths edit the element; an absent slot
(out-of-range index) is never touched. -/
def arrUApply (us : List KeyPath) (w : Option Val) : Option Val :=
  us.foldl
    (fun w p =>
      match w with
      | none => none
      | some c =>
        match p with
        | [] => some .vnull
        | _ :: _ => some (unsetKeyPath p c))
    w

/-- Every field satisfies the predicate. -/
def fieldsAll (P : String → Val → Prop) : Fields → Prop
  | .nil => True
  | .cons k v tl => P k v ∧ fieldsAll P tl

/-- Concatenation of field lists. -/
def fAppend : Fields → Fields → Fields
  | .nil, gs => gs
  | .cons k v tl, gs => .cons k v (fAppend tl gs)

theorem diffToModifier_eq_diffCore (prev doc : Option Val) (ign : List KeyPath) :
    diffToModifier prev doc ign false = diffCore prev doc ign := by
  unfold diffToModifier
  cases h : diffCore prev doc ign with
  | error e => rfl
  | ok r => cases r <;> simp

theorem mem_subsume {p : KeyPath} {us : List KeyPath} (h : p ∈ subsume us) :
    p ∈ us ∧ ∀ q ∈ us, keyPathContainsPathStrict p q = false := by
  unfold subsume at h
  have h2 := List.mem_filter.mp h
  refine ⟨h2.1, fun q hq => ?_⟩
  have h3 := h2.2
  simp only [Bool.not_eq_true'] at h3
  have h4 := List.any_eq_false.mp h3
  simpa using h4 q hq

theorem collectUnsets_ok_mem {prev doc : Option Val} {ps r : List KeyPath}
    (h : collectUnsets prev doc ps = .ok r) :
    ∀ p ∈ r, p ∈ ps ∧
      shouldUnset (valueForKeyPath p doc) (valueForKeyPath p prev) = .ok true := by
  induction ps generalizing r with
  | nil =>
    unfold collectUnsets at h
    cases h
    intro p hp
    cases hp
  | cons q ps ih =>
    unfold collectUnsets at h
    cases hs : shouldUnset (valueForKeyPath q doc) (valueForKeyPath q prev) with
    | error e => rw [hs] at h; cases h
    | ok b =>
      rw [hs] at h
      cases hr : collectUnsets prev doc ps with
      | error e => rw [hr] at h; cases h
      | ok r2 =>
        rw [hr] at h
        cases h
        intro p hp
        cases b with
        | true =>
          rw [if_pos rfl] at hp
          rcases List.mem_cons.mp hp with h1 | h1
          · subst h1
            exact ⟨List.mem_cons_self _ _, hs⟩
          · have h5 := ih hr p h1
            exact ⟨List.mem_cons_of_mem _ h5.1, h5.2⟩
        | false =>
          rw [if_neg (by simp)] at hp
          have h5 := ih hr p hp
          exact ⟨List.mem_cons_of_mem _ h5.1, h5.2⟩

theorem backwardList_ok_mem {prev doc : Option Val} {ign : List KeyPath} {l : List KeyPath}
    (h : backwardList prev doc ign = .ok l) :
    ∀ p ∈ l, p ∈ backwardPaths prev ign ∧
      shouldUnset (valueForKeyPath p doc) (valueForKeyPath p prev) = .ok true ∧
      ∀ q ∈ l, keyPathContainsPathStrict p q = false := by
  cases prev with
  | none =>
    simp only [backwardList] at h
    cases h
    intro p hp
    cases hp
  | some pv =>
    simp only [backwardList] at h
    by_cases ht : truthy pv = true
    · rw [if_pos ht] at h
      cases hc : collectUnsets (some pv) doc (backwardPaths (some pv) ign) with
      | error e => rw [hc] at h; cases h
      | ok us =>
        rw [hc] at h
        cases h
        intro p hp
        have hsub := mem_subsume hp
        have hm := collectUnsets_ok_mem hc p hsub.1
        refine ⟨hm.1, hm.2, fun q hq => ?_⟩
        exact hsub.2 q (mem_subsume hq).1
    · rw [if_neg ht] at h
      cases h
      intro p hp
      cases hp

theorem collectSets_mem {prev : Option Val} {d : Val} {ps : List KeyPath}
    {p : KeyPath} {v : Val} (h : (p, v) ∈ collectSets prev d ps) :
    p ∈ ps ∧ valueForKeyPath p (some d) = some v ∧
      shouldSet (some v) (valueForKeyPath p prev) = true := by
  unfold collectSets at h
  rcases List.mem_filterMap.mp h with ⟨q, hq, he⟩
  cases hv : valueForKeyPath q (some d) with
  | none => rw [hv] at he; cases he
  | some w =>
    rw [hv] at he
    simp only at he
    by_cases hss : shouldSet (some w) (valueForKeyPath q prev) = true
    · rw [if_pos hss] at he
      cases he
      exact ⟨hq, hv, hss⟩
    · rw [if_neg hss] at he
      cases he

theorem forwardList_mem {prev doc : Option Val} {ign : List KeyPath}
    {p : KeyPath} {v : Val} (h : (p, v) ∈ forwardList prev doc ign) :
    valueForKeyPath p doc = some v ∧ shouldSet (some v) (valueForKeyPath p prev) = true := by
  cases doc with
  | none => simp only [forwardList] at h; cases h
  | some d =>
    simp only [forwardList] at h
    by_cases ht : truthy d = true
    · rw [if_pos ht] at h
      have h2 := collectSets_mem h
      exact ⟨h2.2.1, h2.2.2⟩
    · rw [if_neg ht] at h
      cases h

theorem assembleModifier_inv {setL : List (KeyPath × Val)} {unsetL : List KeyPath}
    {m : Modifier} (h : assembleModifier setL unsetL = some m) :
    m.set = (if setL.isEmpty then none else some setL) ∧
    m.unset = (if unsetL.isEmpty then none
               else some (unsetL.map (fun p => (p, some (Val.vbool true))))) := by
  by_cases hs : setL.isEmpty = true <;> by_cases hu : unsetL.isEmpty = true <;>
    simp only [assembleModifier, hs, hu, if_pos, if_neg, if_true, if_false,
      Bool.false_eq_true, Option.isSome_some, Option.isSome_none, Bool.or_self,
      Bool.or_true, Bool.true_or, reduceIte] at h <;>
    cases h <;> simp [hs, hu]

theorem diffCore_inv {prev doc : Option Val} {ign : List KeyPath} {m : Modifier}
    (h : diffCore prev doc ign = .ok (some m)) :
    ∃ l, backwardList prev doc ign = .ok l ∧
      m.set = (if (forwardList prev doc ign).isEmpty then none
               else some (forwardList prev doc ign)) ∧
      m.unset = (if l.isEmpty then none
                 else some (l.map (fun p => (p, some (Val.vbool true))))) := by
  unfold diffCore at h
  cases hb : backwardList prev doc ign with
  | error e => rw [hb] at h; cases h
  | ok l =>
    rw [hb] at h
    simp only [Except.ok.injEq] at h
    have h2 := assembleModifier_inv h
    exact ⟨l, rfl, h2.1, h2.2⟩

/-! ### Claim C2 — unset subsumption -/

/-- Claim C2: in any modifier returned by `diffToModifier`, no keypath of
`unset` is a strict descendant of another keypath of `unset`; and for the
branch-removal example `prev = {a: {b: 1, c: 2}}`, `doc = {}`, the result is
exactly `{$unset: {a: true}}` — the ancestor alone, no `a.b`/`a.c`. -/
theorem claim2_unset_subsumption :
    (∀ (prev doc : Option Val) (ign : List KeyPath) (m : Modifier)
      (u : List (KeyPath × Option Val)),
      diffToModifier prev doc ign false = .ok (some m) → m.unset = some u →
      ∀ p q vp vq, (p, vp) ∈ u → (q, vq) ∈ u → keyPathContainsPathStrict p q = false) ∧
    diffToModifier
      (some (.vobj (.cons "a" (.vobj (.cons "b" (.vnum 1) (.cons "c" (.vnum 2) .nil))) .nil)))
      (some (.vobj .nil)) [] false =
      .ok (some ⟨none, some [(["a"], some (.vbool true))]⟩) := by
  constructor
  · intro prev doc ign m u hd hu p q vp vq hp hq
    rw [diffToModifier_eq_diffCore] at hd
    rcases diffCore_inv hd with ⟨l, hb, _, hul⟩
    rw [hu] at hul
    by_cases hl : l.isEmpty = true
    · rw [if_pos hl] at hul; cases hul
    · rw [if_neg hl] at hul
      have hul2 := hul.symm
      cases hul2
      rcases List.mem_map.mp hp with ⟨p2, hp2, hpe⟩
      rcases List.mem_map.mp hq with ⟨q2, hq2, hqe⟩
      have hpp : p2 = p := congrArg Prod.fst hpe
      have hqq : q2 = q := congrArg Prod.fst hqe
      subst hpp
      subst hqq
      exact (backwardList_ok_mem hb p2 hp2).2.2 q2 hq2
  · decide

/-- Witness for claim C2: the universal part applied to the branch-removal
example, discharging its hypotheses on concrete input. -/
theorem claim2_unset_subsumption_witness :
    keyPathContainsPathStrict ["a"] ["a"] = false :=
  claim2_unset_subsumption.1
    (some (.vobj (.cons "a" (.vobj (.cons "b" (.vnum 1) (.cons "c" (.vnum 2) .nil))) .nil)))
    (some (.vobj .nil)) [] ⟨none, some [(["a"], some (.vbool true))]⟩
    [(["a"], some (.vbool true))] (by decide) rfl
    ["a"] ["a"] (some (.vbool true)) (some (.vbool true)) (by decide) (by decide)

/-! ### Claim C3 — the consistency check compares against the wrong document -/

/-- Claim C3 (code bug): with `model = {a: 1}`, `doc = {a: 2}` and a setter
provided, the computed diff is `{$set: {a: 2}}` and applying it to a clone
of the model produces a document deeply equal to `doc`; the claim (and spec)
say the "not equal after update" error is raised only when that equality
fails, yet `update` raises it, because line 202 of `src/diff.ts` compares
the mutated clone against `model` instead of against `doc`. -/
theorem claim3_consistency_bug :
    diffCore (some (.vobj (.cons "a" (.vnum 1) .nil)))
        (some (.vobj (.cons "a" (.vnum 2) .nil))) [] =
      .ok (some ⟨some [(["a"], .vnum 2)], none⟩) ∧
    isEqual
      (apply (.vobj (.cons "a" (.vnum 1) .nil)) (some ⟨some [(["a"], .vnum 2)], none⟩))
      (.vobj (.cons "a" (.vnum 2) .nil)) = true ∧
    update (.vobj (.cons "a" (.vnum 2) .nil)) (.vobj (.cons "a" (.vnum 1) .nil)) [] true false =
      .error "Diff: not equal after update" := by
  exact ⟨by decide, by decide, by decide⟩

/-! ### Claim C4 — mapModifierToKey mangles the unset values -/

/-- Claim C4 (code bug): `mapModifierToKey` prefixes the keypaths correctly,
but line 228 of `src/diff.ts` copies `modifier.$set[keyPath]` into the new
`$unset` mapping instead of `modifier.$unset[keyPath]`, so the prefixed
unset entry holds `undefined` (not `true` as the `Modifier` shape requires);
when `$set` is absent altogether the same line indexes `undefined` and
raises a `TypeError`. -/
theorem claim4_mapModifierToKey_bug :
    mapModifierToKey ⟨some [(["a"], .vnum 1)], some [(["b"], some (.vbool true))]⟩ "k" =
      .ok ⟨some [(["k", "a"], .vnum 1)], some [(["k", "b"], none)]⟩ ∧
    mapModifierToKey ⟨none, some [(["b"], some (.vbool true))]⟩ "k" = .error () := by
  exact ⟨by decide, by decide⟩

/-! ### Claim C5 — the falsy-value rule does not apply to numeric 0 -/

/-- Claim C5 (counterexample): diffing `{a: 1}` against `{a: 0}` does not
yield `{$unset: {a: true}}`: `0` is numeric, so `shouldSet` takes its
number branch (`src/diff.ts` line 46) and the result is `{$set: {a: 0}}`,
with no unset at all. -/
theorem claim5_counterexample :
    diffToModifier (some (.vobj (.cons "a" (.vnum 1) .nil)))
        (some (.vobj (.cons "a" (.vnum 0) .nil))) [] false =
      .ok (some ⟨some [(["a"], .vnum 0)], none⟩) ∧
    (some (⟨some [(["a"], .vnum 0)], none⟩ : Modifier) : Option Modifier) ≠
      some ⟨none, some [(["a"], some (.vbool true))]⟩ := by
  exact ⟨by decide, by decide⟩

/-- Claim C5 as amended: the falsy-value rule holds for falsy non-numeric
values — diffing `{a: 1}` against `{a: false}` yields exactly
`{$unset: {a: true}}` and no set entry — while the numeric falsy `0` is
written through `$set` instead. -/
theorem claim5_amended :
    diffToModifier (some (.vobj (.cons "a" (.vnum 1) .nil)))
        (some (.vobj (.cons "a" (.vbool false) .nil))) [] false =
      .ok (some ⟨none, some [(["a"], some (.vbool true))]⟩) ∧
    diffToModifier (some (.vobj (.cons "a" (.vnum 1) .nil)))
        (some (.vobj (.cons "a" (.vnum 0) .nil))) [] false =
      .ok (some ⟨some [(["a"], .vnum 0)], none⟩) := by
  exact ⟨by decide, by decide⟩

/-! ### Well-formedness and reflexivity of deep equality -/





theorem lookup_mem : ∀ (fs : Fields) {k : String} {v : Val},
    fs.lookup k = some v → EntryMem k v fs
  | .nil, _, _, h => by cases h
  | .cons k2 w tl, k, v, h => by
    unfold Fields.lookup at h
    by_cases he : k2 = k
    · rw [if_pos he] at h
      cases h
      cases he
      exact .head tl
    · rw [if_neg he] at h
      exact .tail k2 w tl (lookup_mem tl h)

theorem entry_key_mem {fs : Fields} {k : String} {v : Val} (h : EntryMem k v fs) :
    k ∈ fs.keys := by
  induction h with
  | head tl => simp [Fields.keys]
  | tail k3 w3 tl3 hm3 ih3 => simp [Fields.keys, ih3]

theorem mem_lookup {fs : Fields} {k : String} {v : Val} (hn : nodupKeys fs = true)
    (h : EntryMem k v fs) : fs.lookup k = some v := by
  induction h with
  | head tl => simp [Fields.lookup]
  | tail k2 w tl hm ih =>
    have h2 : nodupKeys tl = true := Bool.and_elim_right hn
    have h1 : (!(tl.keys.contains k2)) = true := Bool.and_elim_left hn
    have h1m : k2 ∉ tl.keys := by simpa using h1
    have hne : k2 ≠ k := by
      intro he
      exact h1m (he ▸ entry_key_mem hm)
    simp [Fields.lookup, hne, ih h2]

theorem wfFields_entry {fs : Fields} {k : String} {v : Val} (hw : wfFields fs = true)
    (h : EntryMem k v fs) : wfVal v = true := by
  induction h with
  | head tl => exact Bool.and_elim_left hw
  | tail k2 w tl hm ih => exact ih (Bool.and_elim_right hw)

theorem keysIncluded_of : ∀ (fs gs : Fields),
    (∀ k v, EntryMem k v fs → (gs.lookup k).isSome = true) → keysIncluded fs gs = true
  | .nil, _, _ => rfl
  | .cons k v tl, gs, h => by
    unfold keysIncluded
    rw [h k v (.head tl), keysIncluded_of tl gs (fun k2 v2 hm => h k2 v2 (.tail k v tl hm))]
    rfl

mutual

theorem isEqual_refl : ∀ v : Val, wfVal v = true → isEqual v v = true
  | .vnull, _ => by simp [isEqual, beqVal]
  | .vbool b, _ => by simp [isEqual, beqVal]
  | .vnum n, _ => by simp [isEqual, beqVal]
  | .vstr s, _ => by simp [isEqual, beqVal]
  | .vdate t, _ => by simp [isEqual, beqVal]
  | .varr xs, h => by
    unfold isEqual
    exact isEqualList_refl xs (by exact h)
  | .vobj fs, h => by
    unfold isEqual
    have hn : nodupKeys fs = true := Bool.and_elim_left (by exact h)
    have hw : wfFields fs = true := Bool.and_elim_right (by exact h)
    rw [fieldsIncluded_of fs fs hw (fun k v hm => mem_lookup hn hm),
      keysIncluded_of fs fs (fun k v hm => by rw [mem_lookup hn hm]; rfl)]
    rfl

theorem isEqualList_refl : ∀ xs : ValList, wfList xs = true → isEqualList xs xs = true
  | .nil, _ => rfl
  | .cons v tl, h => by
    unfold isEqualList
    rw [isEqual_refl v (Bool.and_elim_left (by exact h)),
      isEqualList_refl tl (Bool.and_elim_right (by exact h))]
    rfl

theorem fieldsIncluded_of : ∀ fs gs : Fields, wfFields fs = true →
    (∀ k v, EntryMem k v fs → gs.lookup k = some v) → fieldsIncluded fs gs = true
  | .nil, _, _, _ => rfl
  | .cons k v tl, gs, hw, h => by
    unfold fieldsIncluded
    rw [h k v (.head tl)]
    simp only
    rw [isEqual_refl v (Bool.and_elim_left (by exact hw)),
      fieldsIncluded_of tl gs (Bool.and_elim_right (by exact hw))
        (fun k2 v2 hm => h k2 v2 (.tail k v tl hm))]
    rfl

end

/-! ### Self-stable values: those whose self-diff is silent -/



theorem selfStableFields_entry {fs : Fields} {k : String} {v : Val}
    (hw : selfStableFields fs = true) (h : EntryMem k v fs) : selfStable v = true := by
  induction h with
  | head tl => exact Bool.and_elim_left hw
  | tail k2 w tl hm ih => exact ih (Bool.and_elim_right hw)

theorem selfStableList_get : ∀ (xs : ValList) {i : Nat} {v : Val},
    selfStableList xs = true → xs.get i = some v → selfStable v = true
  | .nil, _, _, _, h => by cases h
  | .cons w tl, i, v, hw, h => by
    cases i with
    | zero =>
      cases h
      exact Bool.and_elim_left hw
    | succ n =>
      exact selfStableList_get tl (Bool.and_elim_right hw) h

mutual

theorem selfStable_wf : ∀ v : Val, selfStable v = true → wfVal v = true
  | .vnull, _ => rfl
  | .vbool _, _ => rfl
  | .vnum _, _ => rfl
  | .vstr _, _ => rfl
  | .vdate _, h => by cases h
  | .varr xs, h => by
    unfold wfVal
    exact selfStableList_wf xs (Bool.and_elim_right h)
  | .vobj fs, h => by
    have h2 : (nodupKeys fs && selfStableFields fs) = true := Bool.and_elim_right h
    unfold wfVal
    rw [Bool.and_elim_left h2, selfStableFields_wf fs (Bool.and_elim_right h2)]
    rfl

theorem selfStableList_wf : ∀ xs : ValList, selfStableList xs = true → wfList xs = true
  | .nil, _ => rfl
  | .cons v tl, h => by
    unfold wfList
    rw [selfStable_wf v (Bool.and_elim_left h), selfStableList_wf tl (Bool.and_elim_right h)]
    rfl

theorem selfStableFields_wf : ∀ fs : Fields, selfStableFields fs = true → wfFields fs = true
  | .nil, _ => rfl
  | .cons k v tl, h => by
    unfold wfFields
    rw [selfStable_wf v (Bool.and_elim_left h), selfStableFields_wf tl (Bool.and_elim_right h)]
    rfl

end

/-- Walking one segment from a self-stable value stays self-stable. -/
theorem getKey_selfStable {v w : Val} {k : String} (hs : selfStable v = true)
    (h : getKey k v = some w) : selfStable w = true := by
  cases v with
  | vobj fs =>
    have h2 : (nodupKeys fs && selfStableFields fs) = true := Bool.and_elim_right hs
    exact selfStableFields_entry (Bool.and_elim_right h2) (lookup_mem fs h)
  | varr xs =>
    unfold getKey at h
    cases hn : jsIndex k with
    | none => rw [hn] at h; cases h
    | some i =>
      rw [hn] at h
      exact selfStableList_get xs (Bool.and_elim_right hs) h
  | vnull => cases h
  | vbool b => cases h
  | vnum n => cases h
  | vstr s => cases h
  | vdate t => cases h

theorem valueForKeyPath_none (p : KeyPath) : valueForKeyPath p none = none := by
  cases p <;> rfl

/-- Walking any keypath from a self-stable value stays self-stable. -/
theorem valueForKeyPath_selfStable {v w : Val} {p : KeyPath} (hs : selfStable v = true)
    (h : valueForKeyPath p (some v) = some w) : selfStable w = true := by
  induction p generalizing v with
  | nil => cases h; exact hs
  | cons k rest ih =>
    have h2 : valueForKeyPath rest (getKey k v) = some w := h
    cases hg : getKey k v with
    | none => rw [hg, valueForKeyPath_none] at h2; cases h2
    | some u =>
      rw [hg] at h2
      exact ih (getKey_selfStable hs hg) h2

/-- A self-stable value never triggers a set against itself. -/
theorem selfStable_noSet {w : Val} (hs : selfStable w = true) :
    shouldSet (some w) (some w) = false := by
  cases w with
  | vnull => rfl
  | vbool b => cases b <;> simp [shouldSet, truthy]
  | vnum n => simp [shouldSet, isNumOpt, isNumV]
  | vstr s => by_cases he : s = "" <;> simp [shouldSet, truthy, he]
  | vdate t => cases hs
  | varr xs =>
    simp only [shouldSet, isEqualOpt]
    rw [isEqual_refl _ (selfStable_wf _ hs)]
    rfl
  | vobj fs =>
    simp only [shouldSet, isEqualOpt]
    rw [isEqual_refl _ (selfStable_wf _ hs)]
    rfl

/-- A self-stable value never triggers an unset against itself. -/
theorem selfStable_noUnset {w : Val} (hs : selfStable w = true) :
    shouldUnset (some w) (some w) = .ok false := by
  unfold shouldUnset
  rw [if_neg (by cases htr : (truthyOpt (some w) || isNumOpt (some w)) <;> simp [htr])]
  cases w with
  | vnull => rfl
  | vbool b => rfl
  | vnum n => rfl
  | vstr s => rfl
  | vdate t => cases hs
  | varr xs =>
    have h1 : (!decide (xs.length = 0)) = true := Bool.and_elim_left hs
    have hl : ¬xs.length = 0 := by simpa using h1
    simp [typeofObjectOpt, typeofObject, jsKeyCount, hl]
  | vobj fs =>
    cases fs with
    | nil => simp [selfStable, Fields.isEmpty] at hs
    | cons k v tl => simp [typeofObjectOpt, typeofObject, jsKeyCount, Fields.keys]

/-! ### Claim C7 — idempotence of diff -/

theorem filteredKeyPaths_nil (ps : List KeyPath) : filteredKeyPaths ps [] = ps := by
  unfold filteredKeyPaths
  exact List.filter_eq_self.mpr (fun p hp => rfl)

theorem keyPathsFields_ne_nil : ∀ (fs : Fields) (al : Bool) (p : KeyPath),
    p ∈ keyPathsFields al fs → p ≠ []
  | .nil, _, p, h => by cases h
  | .cons k v tl, al, p, h => by
    unfold keyPathsFields at h
    rcases List.mem_append.mp h with h1 | h1
    · by_cases hb : isBranch v = true
      · rw [if_pos hb] at h1
        rcases List.mem_append.mp h1 with h2 | h2
        · cases al with
          | true =>
            simp only [if_pos] at h2
            rcases List.mem_singleton.mp h2 with h3
            subst h3
            exact List.cons_ne_nil k []
          | false => cases h2
        · rcases List.mem_map.mp h2 with ⟨q, hq, he⟩
          subst he
          exact List.cons_ne_nil k q
      · rw [if_neg hb] at h1
        rcases List.mem_singleton.mp h1 with h3
        subst h3
        exact List.cons_ne_nil k []
    · exact keyPathsFields_ne_nil tl al p h1

theorem keyPathsVal_ne_nil {v : Val} {al : Bool} {p : KeyPath}
    (h : p ∈ keyPathsVal al v) : p ≠ [] := by
  cases v with
  | vobj fs => exact keyPathsFields_ne_nil fs al p h
  | vnull => cases h
  | vbool b => cases h
  | vnum n => cases h
  | vstr s => cases h
  | vdate t => cases h
  | varr xs => cases h

/-- Any value reached by a non-empty keypath from a document with self-stable
members is self-stable. -/
theorem selfStableDoc_walk {X w : Val} {k : String} {rest : List String}
    (hs : selfStableDoc X = true)
    (h : valueForKeyPath (k :: rest) (some X) = some w) : selfStable w = true := by
  cases X with
  | vobj fs =>
    have h2 : valueForKeyPath rest (getKey k (.vobj fs)) = some w := h
    cases hg : getKey k (.vobj fs) with
    | none => rw [hg, valueForKeyPath_none] at h2; cases h2
    | some u =>
      rw [hg] at h2
      have hu : selfStable u = true :=
        selfStableFields_entry (Bool.and_elim_right hs) (lookup_mem fs hg)
      exact valueForKeyPath_selfStable hu h2
  | vnull => cases hs
  | vbool b => cases hs
  | vnum n => cases hs
  | vstr s => cases hs
  | vdate t => cases hs
  | varr xs => cases hs

theorem collectUnsets_all_false {prev doc : Option Val} {ps : List KeyPath}
    (h : ∀ p ∈ ps, shouldUnset (valueForKeyPath p doc) (valueForKeyPath p prev) = .ok false) :
    collectUnsets prev doc ps = .ok [] := by
  induction ps with
  | nil => rfl
  | cons q ps ih =>
    unfold collectUnsets
    rw [h q (List.mem_cons_self _ _), ih (fun p hp => h p (List.mem_cons_of_mem _ hp))]
    rfl

/-- Claim C7 (counterexample): `diffToModifier(X, X)` with `X = {a: []}` is
not the absent result — the empty-array leaf satisfies `shouldUnset`'s
second branch (`Object.keys([])` is empty while `typeof [] === 'object'`),
so the self-diff carries `{$unset: {a: true}}`. -/
theorem claim7_counterexample :
    diffToModifier (some (.vobj (.cons "a" (.varr .nil) .nil)))
        (some (.vobj (.cons "a" (.varr .nil) .nil))) [] false =
      .ok (some ⟨none, some [(["a"], some (.vbool true))]⟩) ∧
    (.ok (some (⟨none, some [(["a"], some (.vbool true))]⟩ : Modifier)) :
      Except Unit (Option Modifier)) ≠ .ok none := by
  exact ⟨by decide, by decide⟩

/-- Claim C7 as amended: `diffToModifier(X, X)` yields the absent result for
every document `X` whose members are self-stable: duplicate-free keys, no
date leaves, and no empty containers (empty objects, empty arrays) anywhere
— each of those values trips `shouldUnset`'s `Object.keys` branch even when
unchanged, as the counterexample shows. -/
theorem claim7_diff_idempotent_amended (X : Val) (hs : selfStableDoc X = true) :
    diffToModifier (some X) (some X) [] false = .ok none := by
  rw [diffToModifier_eq_diffCore]
  have hfwd : forwardList (some X) (some X) [] = [] := by
    cases X with
    | vobj fs =>
      simp only [forwardList]
      rw [if_pos (by rfl)]
      unfold collectSets
      rw [List.filterMap_eq_nil_iff]
      intro p hp
      rw [filteredKeyPaths_nil] at hp
      cases p with
      | nil => cases keyPathsVal_ne_nil hp rfl
      | cons k rest =>
        cases hv : valueForKeyPath (k :: rest) (some (Val.vobj fs)) with
        | none => rfl
        | some w =>
          simp only
          rw [if_neg (by
            rw [selfStable_noSet (selfStableDoc_walk hs hv)]
            simp)]
    | vnull => cases hs
    | vbool b => cases hs
    | vnum n => cases hs
    | vstr s => cases hs
    | vdate t => cases hs
    | varr xs => cases hs
  have hbwd : backwardList (some X) (some X) [] = .ok [] := by
    cases X with
    | vobj fs =>
      simp only [backwardList]
      rw [if_pos (by rfl)]
      have hall : ∀ p ∈ backwardPaths (some (Val.vobj fs)) [],
          shouldUnset (valueForKeyPath p (some (Val.vobj fs)))
            (valueForKeyPath p (some (Val.vobj fs))) = .ok false := by
        intro p hp
        simp only [backwardPaths] at hp
        rw [if_pos (by rfl), filteredKeyPaths_nil] at hp
        cases p with
        | nil => cases keyPathsVal_ne_nil hp rfl
        | cons k rest =>
          cases hv : valueForKeyPath (k :: rest) (some (Val.vobj fs)) with
          | none => rfl
          | some w => exact selfStable_noUnset (selfStableDoc_walk hs hv)
      rw [collectUnsets_all_false hall]
      rfl
    | vnull => cases hs
    | vbool b => cases hs
    | vnum n => cases hs
    | vstr s => cases hs
    | vdate t => cases hs
    | varr xs => cases hs
  unfold diffCore
  rw [hbwd]
  simp only [hfwd]
  rfl

/-- Witness for claim C7 as amended, at `X = {a: 1}`. -/
theorem claim7_diff_idempotent_amended_witness :
    diffToModifier (some (.vobj (.cons "a" (.vnum 1) .nil)))
      (some (.vobj (.cons "a" (.vnum 1) .nil))) [] false = .ok none :=
  claim7_diff_idempotent_amended (.vobj (.cons "a" (.vnum 1) .nil)) (by decide)

/-! ### Claim C6 — set/unset disjointness -/



theorem shouldSet_truthyNum {val prev : Option Val} (h : shouldSet val prev = true) :
    (truthyOpt val || isNumOpt val) = true := by
  cases val with
  | none => cases h
  | some v =>
    cases v with
    | vnull => cases h
    | vbool b =>
      cases b with
      | true => rfl
      | false => simp [shouldSet, truthy] at h
    | vnum n => simp [truthyOpt, isNumOpt, isNumV]
    | vstr s =>
      by_cases he : s = ""
      · subst he; simp [shouldSet, truthy] at h
      · simp [truthyOpt, truthy, he]
    | vdate t => rfl
    | varr xs => rfl
    | vobj fs => rfl

theorem shouldUnset_ok_true_inv {val prev : Option Val}
    (h : shouldUnset val prev = .ok true) :
    ((truthyOpt prev || isNumOpt prev) && !(truthyOpt val || isNumOpt val)) = true ∨
    (∃ v, val = some v ∧ v ≠ .vnull ∧ jsKeyCount v = 0 ∧ typeofObjectOpt prev = true) := by
  unfold shouldUnset at h
  by_cases h1 : ((truthyOpt prev || isNumOpt prev) && !(truthyOpt val || isNumOpt val)) = true
  · exact Or.inl h1
  · rw [if_neg h1] at h
    by_cases h2 : (decide (val ≠ some .vnull) && typeofObjectOpt prev) = true
    · rw [if_pos h2] at h
      cases val with
      | none => cases h
      | some v =>
        simp only [Except.ok.injEq, decide_eq_true_eq] at h
        refine Or.inr ⟨v, rfl, ?_, h, Bool.and_elim_right h2⟩
        have h3 := Bool.and_elim_left h2
        simp only [decide_eq_true_eq] at h3
        intro he
        exact h3 (by rw [he])
    · rw [if_neg h2] at h
      cases h

theorem guard_of_shouldSet : ∀ (v : Val) (prev : Option Val),
    shouldSet (some v) prev = true → guardSet v = true
  | .varr _, _, _ => rfl
  | .vdate _, _, _ => rfl
  | .vnum _, _, _ => rfl
  | .vobj _, _, _ => rfl
  | .vnull, _, h => by simp [shouldSet, truthy] at h
  | .vbool b, _, h => by
    cases b with
    | false => simp [shouldSet, truthy] at h
    | true => rfl
  | .vstr s, prev, h => by
    cases hts : truthy (Val.vstr s) with
    | true =>
      show (isNumV (Val.vstr s) || truthy (Val.vstr s)) = true
      rw [hts]
      simp
    | false => simp [shouldSet, hts] at h

/-- Claim C6 (counterexample): with `prev = {a: {b: 1}}`, `doc = {a: 2}` the
keypath `a` lands in both tables: the number `2` differs from the object so
`shouldSet` fires, and `typeof {b:1} === 'object'` with `Object.keys(2)`
empty fires `shouldUnset`'s second branch. -/
theorem claim6_counterexample :
    diffToModifier (some (.vobj (.cons "a" (.vobj (.cons "b" (.vnum 1) .nil)) .nil)))
        (some (.vobj (.cons "a" (.vnum 2) .nil))) [] false =
      .ok (some ⟨some [(["a"], .vnum 2)], some [(["a"], some (.vbool true))]⟩) ∧
    [(["a"], Val.vnum 2)].any (fun e => decide (e.1 = (["a"] : KeyPath))) = true ∧
    [((["a"] : KeyPath), some (Val.vbool true))].any
      (fun e => decide (e.1 = (["a"] : KeyPath))) = true := by
  exact ⟨by decide, by decide, by decide⟩

/-- Claim C6 as amended: the `set` and `unset` keypaths of any modifier
returned by `diffToModifier` are disjoint, provided no enumerated keypath of
`prev` pairs an object-typed old value (object, array, date or null) with a
non-null, keyless, numeric-or-truthy new value (a number, `true`, a date, or
an empty container) — the configuration of the counterexample, which is the
only way both classifier predicates fire at once. -/
theorem claim6_disjoint_amended (prev doc : Option Val) (ign : List KeyPath)
    (m : Modifier) (s : List (KeyPath × Val)) (u : List (KeyPath × Option Val))
    (hH : ∀ p ∈ backwardPaths prev ign, objDropped prev doc p = false)
    (hd : diffToModifier prev doc ign false = .ok (some m))
    (hset : m.set = some s) (hunset : m.unset = some u) :
    s.all (fun e => !(u.any (fun e2 => decide (e2.1 = e.1)))) = true := by
  rw [diffToModifier_eq_diffCore] at hd
  rcases diffCore_inv hd with ⟨l, hb, hsl, hul⟩
  rw [hset] at hsl
  rw [hunset] at hul
  by_cases hfe : (forwardList prev doc ign).isEmpty = true
  · rw [if_pos hfe] at hsl; cases hsl
  by_cases hle : l.isEmpty = true
  · rw [if_pos hle] at hul; cases hul
  rw [if_neg hfe] at hsl
  rw [if_neg hle] at hul
  have hsl2 := hsl.symm
  cases hsl2
  have hul2 := hul.symm
  cases hul2
  rw [List.all_eq_true]
  rintro ⟨p, vs⟩ hps
  simp only [Bool.not_eq_true', List.any_eq_false]
  rintro ⟨q, vu⟩ hqu
  simp only [decide_eq_false_iff_not]
  intro he
  have he2 : q = p := by simpa using he
  subst he2
  rcases List.mem_map.mp hqu with ⟨q2, hq2, hqe⟩
  have hqq : q2 = q := congrArg Prod.fst hqe
  subst hqq
  have hfm := forwardList_mem hps
  have hbm := backwardList_ok_mem hb q2 hq2
  have hval : valueForKeyPath q2 doc = some vs := hfm.1
  rcases shouldUnset_ok_true_inv hbm.2.1 with h1 | h1
  · have h2 := shouldSet_truthyNum hfm.2
    rw [hval] at h1
    rw [h2] at h1
    simp at h1
  · rcases h1 with ⟨v, hv, hvn, hvc, hto⟩
    rw [hval] at hv
    cases hv
    have hcontra := hH q2 hbm.1
    unfold objDropped at hcontra
    rw [hto, hval] at hcontra
    simp only [Bool.true_and] at hcontra
    rw [decide_eq_true (by exact hvn), decide_eq_true (by exact hvc),
      guard_of_shouldSet _ _ hfm.2] at hcontra
    cases (show true = false from hcontra)

/-- Witness for claim C6 as amended, at `prev = {a: 1}`, `doc = {b: 2}`
(diff `{$set: {b: 2}, $unset: {a: true}}`, disjoint). -/
theorem claim6_disjoint_amended_witness :
    ([((["b"] : KeyPath), Val.vnum 2)]).all
      (fun e => !(([((["a"] : KeyPath), some (Val.vbool true))]).any
        (fun e2 => decide (e2.1 = e.1)))) = true :=
  claim6_disjoint_amended (some (.vobj (.cons "a" (.vnum 1) .nil)))
    (some (.vobj (.cons "b" (.vnum 2) .nil))) []
    ⟨some [(["b"], .vnum 2)], some [(["a"], some (.vbool true))]⟩
    [(["b"], .vnum 2)] [(["a"], some (.vbool true))]
    (by decide) (by decide) rfl rfl

/-! ### Reading after writing: the keypath store lemmas -/

theorem lookup_setField_same : ∀ (fs : Fields) (k : String) (v : Val),
    (setField k v fs).lookup k = some v
  | .nil, k, v => by simp [setField, Fields.lookup]
  | .cons k2 w tl, k, v => by
    unfold setField
    by_cases he : k2 = k
    · rw [if_pos he]
      simp [Fields.lookup]
    · rw [if_neg he]
      unfold Fields.lookup
      rw [if_neg he]
      exact lookup_setField_same tl k v

theorem lookup_setField_other : ∀ (fs : Fields) (k k2 : String) (v : Val), k2 ≠ k →
    (setField k v fs).lookup k2 = fs.lookup k2
  | .nil, k, k2, v, h => by
    simp [setField, Fields.lookup]
    intro he
    exact absurd he.symm h
  | .cons k3 w tl, k, k2, v, h => by
    unfold setField
    by_cases he : k3 = k
    · rw [if_pos he]
      subst he
      unfold Fields.lookup
      rw [if_neg (fun hx => h hx.symm), if_neg (fun hx => h hx.symm)]
    · rw [if_neg he]
      unfold Fields.lookup
      by_cases hf : k3 = k2
      · rw [if_pos hf, if_pos hf]
      · rw [if_neg hf, if_neg hf]
        exact lookup_setField_other tl k k2 v h

theorem jsIndex_inj {k k2 : String} {i : Nat} (h1 : jsIndex k = some i)
    (h2 : jsIndex k2 = some i) : k = k2 := by
  unfold jsIndex at h1 h2
  cases hn1 : k.toNat? with
  | none => rw [hn1] at h1; cases h1
  | some a =>
    rw [hn1] at h1
    simp only at h1
    cases hn2 : k2.toNat? with
    | none => rw [hn2] at h2; cases h2
    | some b =>
      rw [hn2] at h2
      simp only at h2
      by_cases hs1 : toString a = k
      · rw [if_pos hs1] at h1
        cases h1
        by_cases hs2 : toString b = k2
        · rw [if_pos hs2] at h2
          cases h2
          rw [← hs1, ← hs2]
        · rw [if_neg hs2] at h2; cases h2
      · rw [if_neg hs1] at h1
        cases h1

theorem get_setIdx_same : ∀ (xs : ValList) (i : Nat) (v : Val), i < xs.length →
    (ValList.setIdx i v xs).get i = some v
  | .nil, i, v, h => by simp [ValList.length] at h
  | .cons w tl, 0, v, h => rfl
  | .cons w tl, n + 1, v, h => by
    unfold ValList.setIdx ValList.get
    exact get_setIdx_same tl n v (by
      unfold ValList.length at h
      omega)

theorem get_setIdx_other : ∀ (xs : ValList) (i j : Nat) (v : Val), i < xs.length → j ≠ i →
    (ValList.setIdx i v xs).get j = xs.get j
  | .nil, i, j, v, h, hne => by simp [ValList.length] at h
  | .cons w tl, 0, 0, v, h, hne => absurd rfl hne
  | .cons w tl, 0, j + 1, v, h, hne => rfl
  | .cons w tl, i + 1, 0, v, h, hne => rfl
  | .cons w tl, i + 1, j + 1, v, h, hne => by
    unfold ValList.setIdx ValList.get
    exact get_setIdx_other tl i j v (by unfold ValList.length at h; omega)
      (by omega)

theorem setIdx_length : ∀ (xs : ValList) (i : Nat) (v : Val), i < xs.length →
    (ValList.setIdx i v xs).length = xs.length
  | .nil, i, v, h => by simp [ValList.length] at h
  | .cons w tl, 0, v, h => rfl
  | .cons w tl, n + 1, v, h => by
    unfold ValList.setIdx ValList.length
    rw [setIdx_length tl n v (by unfold ValList.length at h; omega)]

theorem pathUnrelated_tail {k : String} {p q : KeyPath}
    (h : pathUnrelated (k :: p) (k :: q) = true) : pathUnrelated p q = true := by
  simpa [pathUnrelated, pathIsPrefix] using h

theorem getKey_nonContainer {c : Val} {k : String} (h : isContainer c = false) :
    getKey k c = none := by
  cases c <;> first | rfl | (cases h)

theorem valueForKeyPath_cons (k : String) (rest : KeyPath) (v : Val) :
    valueForKeyPath (k :: rest) (some v) = valueForKeyPath rest (getKey k v) := rfl

/-- Reading an unrelated path inside a freshly created write chain finds
nothing. -/
theorem get_set_fresh : ∀ (p q : KeyPath) (v : Val), pathUnrelated p q = true →
    valueForKeyPath q (some (setValueForKeyPath v p (.vobj .nil))) = none
  | [], q, v, h => by simp [pathUnrelated, pathIsPrefix] at h
  | [k], q, v, h => by
    cases q with
    | nil => simp [pathUnrelated, pathIsPrefix] at h
    | cons kq q2 =>
      have hne : ¬(k = kq) := by
        intro he
        subst he
        simp [pathUnrelated, pathIsPrefix] at h
      rw [valueForKeyPath_cons]
      have hg : getKey kq (setValueForKeyPath v [k] (.vobj .nil)) = none := by
        show (setField k v .nil).lookup kq = none
        simp [setField, Fields.lookup, hne]
      rw [hg, valueForKeyPath_none]
  | k :: k2 :: rest, q, v, h => by
    cases q with
    | nil => simp [pathUnrelated, pathIsPrefix] at h
    | cons kq q2 =>
      by_cases he : k = kq
      · subst he
        rw [valueForKeyPath_cons]
        have hg : getKey k (setValueForKeyPath v (k :: k2 :: rest) (.vobj .nil)) =
            some (setValueForKeyPath v (k2 :: rest) (.vobj .nil)) := by
          show (setField k (setValueForKeyPath v (k2 :: rest) (.vobj .nil)) .nil).lookup k =
            some (setValueForKeyPath v (k2 :: rest) (.vobj .nil))
          exact lookup_setField_same .nil k _
        rw [hg]
        exact get_set_fresh (k2 :: rest) q2 v (pathUnrelated_tail h)
      · rw [valueForKeyPath_cons]
        have hg : getKey kq (setValueForKeyPath v (k :: k2 :: rest) (.vobj .nil)) = none := by
          show (setField k (setValueForKeyPath v (k2 :: rest) (.vobj .nil)) .nil).lookup kq = none
          simp [setField, Fields.lookup, he]
        rw [hg, valueForKeyPath_none]

theorem containerOr_isContainer (o : Option Val) : isContainer (containerOr o) = true := by
  cases o with
  | none => rfl
  | some c =>
    show isContainer (if isContainer c = true then c else .vobj .nil) = true
    by_cases hc : isContainer c = true
    · rw [if_pos hc]
      exact hc
    · rw [if_neg hc]
      rfl

theorem containerOr_of_container {c : Val} (h : isContainer c = true) :
    containerOr (some c) = c := by
  simp [containerOr, h]

theorem get_some_lt : ∀ {xs : ValList} {i : Nat} {c : Val}, xs.get i = some c → i < xs.length := by
  intro xs
  induction xs using ValList.length.induct with
  | case1 => intro i c h; cases h
  | case2 w tl ih =>
    intro i c h
    cases i with
    | zero => unfold ValList.length; omega
    | succ n =>
      have h2 := ih h
      unfold ValList.length
      omega

theorem getKey_obj (k : String) (fs : Fields) : getKey k (.vobj fs) = fs.lookup k := rfl

theorem getKey_arr_idx {k : String} {i : Nat} (xs : ValList) (h : jsIndex k = some i) :
    getKey k (.varr xs) = xs.get i := by
  unfold getKey
  rw [h]

theorem getKey_arr_nidx {k : String} (xs : ValList) (h : jsIndex k = none) :
    getKey k (.varr xs) = none := by
  unfold getKey
  rw [h]

theorem setVKP_obj_single (v : Val) (k : String) (fs : Fields) :
    setValueForKeyPath v [k] (.vobj fs) = .vobj (setField k v fs) := rfl

theorem setVKP_arr_single_idx {k : String} {i : Nat} (v : Val) (xs : ValList)
    (h : jsIndex k = some i) :
    setValueForKeyPath v [k] (.varr xs) = .varr (ValList.setIdx i v xs) := by
  unfold setValueForKeyPath
  rw [h]

theorem setVKP_obj_cons (v : Val) (k k2 : String) (rest : KeyPath) (fs : Fields) :
    setValueForKeyPath v (k :: k2 :: rest) (.vobj fs) =
      .vobj (setField k (setValueForKeyPath v (k2 :: rest) (containerOr (fs.lookup k))) fs) := rfl

theorem setVKP_arr_cons_idx {k : String} {i : Nat} (v : Val) (k2 : String) (rest : KeyPath)
    (xs : ValList) (h : jsIndex k = some i) :
    setValueForKeyPath v (k :: k2 :: rest) (.varr xs) =
      .varr (ValList.setIdx i (setValueForKeyPath v (k2 :: rest) (containerOr (xs.get i))) xs) := by
  simp only [setValueForKeyPath, h]

/-- Writing into a container keeps its constructor. -/
theorem setVKP_container {d : Val} (p : KeyPath) (v : Val) (h : isContainer d = true) :
    isContainer (setValueForKeyPath v p d) = true := by
  cases d with
  | vobj fs =>
    cases p with
    | nil => exact h
    | cons k rest =>
      cases rest with
      | nil => rfl
      | cons k2 r2 => rfl
  | varr xs =>
    cases p with
    | nil => exact h
    | cons k rest =>
      cases rest with
      | nil =>
        unfold setValueForKeyPath
        cases hj : jsIndex k <;> rfl
      | cons k2 r2 =>
        unfold setValueForKeyPath
        cases hj : jsIndex k <;> rfl
  | vnull => cases h
  | vbool b => cases h
  | vnum n => cases h
  | vstr s => cases h
  | vdate t => cases h

/-- Reading back a written path under writability. -/
theorem get_set_same : ∀ (p : KeyPath) (d v : Val), pathWritable p d = true →
    valueForKeyPath p (some (setValueForKeyPath v p d)) = some v
  | [], d, v, h => by simp [pathWritable] at h
  | [k], d, v, h => by
    cases d with
    | vobj fs =>
      rw [setVKP_obj_single, valueForKeyPath_cons, getKey_obj, lookup_setField_same]
      rfl
    | varr xs =>
      cases hj : jsIndex k with
      | none => simp [pathWritable, hj] at h
      | some i =>
        have hlt : i < xs.length := by simpa [pathWritable, hj] using h
        rw [setVKP_arr_single_idx v xs hj, valueForKeyPath_cons, getKey_arr_idx _ hj,
          get_setIdx_same xs i v hlt]
        rfl
    | vnull => simp [pathWritable] at h
    | vbool b => simp [pathWritable] at h
    | vnum n => simp [pathWritable] at h
    | vstr s => simp [pathWritable] at h
    | vdate t => simp [pathWritable] at h
  | k :: k2 :: rest, d, v, h => by
    cases d with
    | vobj fs =>
      have hw : pathWritable (k2 :: rest) (containerOr (fs.lookup k)) = true := h
      rw [setVKP_obj_cons, valueForKeyPath_cons, getKey_obj, lookup_setField_same]
      exact get_set_same (k2 :: rest) _ v hw
    | varr xs =>
      cases hj : jsIndex k with
      | none => simp [pathWritable, hj] at h
      | some i =>
        cases hgi : xs.get i with
        | none => simp [pathWritable, hj, hgi] at h
        | some c =>
          have hw : pathWritable (k2 :: rest) (containerOr (some c)) = true := by
            simpa [pathWritable, hj, hgi] using h
          have hlt : i < xs.length := get_some_lt hgi
          rw [setVKP_arr_cons_idx v k2 rest xs hj, valueForKeyPath_cons, getKey_arr_idx _ hj,
            get_setIdx_same xs i _ hlt, hgi]
          exact get_set_same (k2 :: rest) _ v hw
    | vnull => simp [pathWritable] at h
    | vbool b => simp [pathWritable] at h
    | vnum n => simp [pathWritable] at h
    | vstr s => simp [pathWritable] at h
    | vdate t => simp [pathWritable] at h

/-- A write leaves every unrelated path unchanged (under writability, which
rules out array padding). -/
theorem get_set_unrelated : ∀ (p q : KeyPath) (d v : Val), pathWritable p d = true →
    pathUnrelated p q = true →
    valueForKeyPath q (some (setValueForKeyPath v p d)) = valueForKeyPath q (some d)
  | [], q, d, v, h, hu => by simp [pathWritable] at h
  | [k], [], d, v, h, hu => by simp [pathUnrelated, pathIsPrefix] at hu
  | k :: k2 :: rest, [], d, v, h, hu => by simp [pathUnrelated, pathIsPrefix] at hu
  | [k], kq :: q2, d, v, h, hu => by
    have hne : k ≠ kq := by
      intro he
      subst he
      simp [pathUnrelated, pathIsPrefix] at hu
    cases d with
    | vobj fs =>
      rw [setVKP_obj_single, valueForKeyPath_cons, valueForKeyPath_cons, getKey_obj, getKey_obj,
        lookup_setField_other fs k kq v (fun hx => hne hx.symm)]
    | varr xs =>
      cases hj : jsIndex k with
      | none => simp [pathWritable, hj] at h
      | some i =>
        have hlt : i < xs.length := by simpa [pathWritable, hj] using h
        rw [setVKP_arr_single_idx v xs hj, valueForKeyPath_cons, valueForKeyPath_cons]
        cases hjq : jsIndex kq with
        | none => rw [getKey_arr_nidx _ hjq, getKey_arr_nidx _ hjq]
        | some j =>
          have hij : j ≠ i := fun he => hne (jsIndex_inj hj (he ▸ hjq))
          rw [getKey_arr_idx _ hjq, getKey_arr_idx _ hjq, get_setIdx_other xs i j v hlt hij]
    | vnull => simp [pathWritable] at h
    | vbool b => simp [pathWritable] at h
    | vnum n => simp [pathWritable] at h
    | vstr s => simp [pathWritable] at h
    | vdate t => simp [pathWritable] at h
  | k :: k2 :: rest, kq :: q2, d, v, h, hu => by
    by_cases he : k = kq
    · subst he
      have hu2 : pathUnrelated (k2 :: rest) q2 = true := pathUnrelated_tail hu
      cases d with
      | vobj fs =>
        rw [setVKP_obj_cons, valueForKeyPath_cons, valueForKeyPath_cons, getKey_obj, getKey_obj,
          lookup_setField_same]
        cases hl : fs.lookup k with
        | none =>
          rw [valueForKeyPath_none]
          simpa [containerOr] using get_set_fresh (k2 :: rest) q2 v hu2
        | some c =>
          by_cases hc : isContainer c = true
          · have hco : containerOr (some c) = c := by simp [containerOr, hc]
            rw [hco]
            have hw : pathWritable (k2 :: rest) c = true := by
              have h2 : pathWritable (k2 :: rest) (containerOr (fs.lookup k)) = true := h
              rw [hl, hco] at h2
              exact h2
            exact get_set_unrelated (k2 :: rest) q2 c v hw hu2
          · have hco : containerOr (some c) = .vobj .nil := by
              simp [containerOr, hc]
            rw [hco]
            cases q2 with
            | nil => simp [pathUnrelated, pathIsPrefix] at hu2
            | cons kq2 q3 =>
              rw [get_set_fresh (k2 :: rest) (kq2 :: q3) v hu2, valueForKeyPath_cons,
                getKey_nonContainer (c := c) (by simpa using hc), valueForKeyPath_none]
      | varr xs =>
        cases hj : jsIndex k with
        | none => simp [pathWritable, hj] at h
        | some i =>
          cases hgi : xs.get i with
          | none => simp [pathWritable, hj, hgi] at h
          | some c =>
            have hlt : i < xs.length := get_some_lt hgi
            rw [setVKP_arr_cons_idx v k2 rest xs hj, valueForKeyPath_cons, valueForKeyPath_cons,
              getKey_arr_idx _ hj, getKey_arr_idx _ hj, get_setIdx_same xs i _ hlt, hgi]
            by_cases hc : isContainer c = true
            · have hco : containerOr (some c) = c := by simp [containerOr, hc]
              rw [hco]
              have hw : pathWritable (k2 :: rest) c = true := by
                have h2 := h
                simp only [pathWritable, hj, hgi, hco] at h2
                exact h2
              exact get_set_unrelated (k2 :: rest) q2 c v hw hu2
            · have hco : containerOr (some c) = .vobj .nil := by
                simp [containerOr, hc]
              rw [hco]
              cases q2 with
              | nil => simp [pathUnrelated, pathIsPrefix] at hu2
              | cons kq2 q3 =>
                rw [get_set_fresh (k2 :: rest) (kq2 :: q3) v hu2, valueForKeyPath_cons,
                  getKey_nonContainer (c := c) (by simpa using hc), valueForKeyPath_none]
      | vnull => simp [pathWritable] at h
      | vbool b => simp [pathWritable] at h
      | vnum n => simp [pathWritable] at h
      | vstr s => simp [pathWritable] at h
      | vdate t => simp [pathWritable] at h
    · cases d with
      | vobj fs =>
        rw [setVKP_obj_cons, valueForKeyPath_cons, valueForKeyPath_cons, getKey_obj, getKey_obj,
          lookup_setField_other fs k kq _ (fun hx => he hx.symm)]
      | varr xs =>
        cases hj : jsIndex k with
        | none => simp [pathWritable, hj] at h
        | some i =>
          cases hgi : xs.get i with
          | none => simp [pathWritable, hj, hgi] at h
          | some c =>
            have hlt : i < xs.length := get_some_lt hgi
            rw [setVKP_arr_cons_idx v k2 rest xs hj, valueForKeyPath_cons, valueForKeyPath_cons]
            cases hjq : jsIndex kq with
            | none => rw [getKey_arr_nidx _ hjq, getKey_arr_nidx _ hjq]
            | some j =>
              have hij : j ≠ i := fun hij2 => he (jsIndex_inj hj (hij2 ▸ hjq))
              rw [getKey_arr_idx _ hjq, getKey_arr_idx _ hjq,
                get_setIdx_other xs i j _ hlt hij]
      | vnull => simp [pathWritable] at h
      | vbool b => simp [pathWritable] at h
      | vnum n => simp [pathWritable] at h
      | vstr s => simp [pathWritable] at h
      | vdate t => simp [pathWritable] at h

/-- Writability of a path survives a write to an unrelated path. -/
theorem pathWritable_set_preserved : ∀ (q p : KeyPath) (d v : Val),
    pathWritable q d = true → pathWritable p d = true → pathUnrelated q p = true →
    pathWritable p (setValueForKeyPath v q d) = true
  | [], p, d, v, hq, hp, hu => by simp [pathWritable] at hq
  | q, [], d, v, hq, hp, hu => by simp [pathWritable] at hp
  | [k], kp :: p2, d, v, hq, hp, hu => by
    have hne : k ≠ kp := by
      intro he
      subst he
      cases p2 with
      | nil => simp [pathUnrelated, pathIsPrefix] at hu
      | cons a b => simp [pathUnrelated, pathIsPrefix] at hu
    cases d with
    | vobj fs =>
      rw [setVKP_obj_single]
      cases p2 with
      | nil => rfl
      | cons kp2 p3 =>
        have hp2 : pathWritable (kp2 :: p3) (containerOr (fs.lookup kp)) = true := hp
        show pathWritable (kp2 :: p3) (containerOr ((setField k v fs).lookup kp)) = true
        rw [lookup_setField_other fs k kp v hne.symm]
        exact hp2
    | varr xs =>
      cases hj : jsIndex k with
      | none => simp [pathWritable, hj] at hq
      | some i =>
        have hlt : i < xs.length := by simpa [pathWritable, hj] using hq
        rw [setVKP_arr_single_idx v xs hj]
        cases p2 with
        | nil =>
          cases hjp : jsIndex kp with
          | none => simp [pathWritable, hjp] at hp
          | some j =>
            have hjlt : j < xs.length := by simpa [pathWritable, hjp] using hp
            simp [pathWritable, hjp, setIdx_length xs i v hlt, hjlt]
        | cons kp2 p3 =>
          cases hjp : jsIndex kp with
          | none => simp [pathWritable, hjp] at hp
          | some j =>
            have hij : j ≠ i := fun hij2 => hne (jsIndex_inj hj (hij2 ▸ hjp))
            simp only [pathWritable, hjp, get_setIdx_other xs i j v hlt hij]
            simpa [pathWritable, hjp] using hp
    | vnull => simp [pathWritable] at hq
    | vbool b => simp [pathWritable] at hq
    | vnum n => simp [pathWritable] at hq
    | vstr s => simp [pathWritable] at hq
    | vdate t => simp [pathWritable] at hq
  | k :: k2 :: rest, kp :: p2, d, v, hq, hp, hu => by
    by_cases he : k = kp
    · subst he
      cases p2 with
      | nil => simp [pathUnrelated, pathIsPrefix] at hu
      | cons kp2 p3 =>
        have hu2 : pathUnrelated (k2 :: rest) (kp2 :: p3) = true := pathUnrelated_tail hu
        cases d with
        | vobj fs =>
          rw [setVKP_obj_cons]
          have hq2 : pathWritable (k2 :: rest) (containerOr (fs.lookup k)) = true := hq
          have hp2 : pathWritable (kp2 :: p3) (containerOr (fs.lookup k)) = true := hp
          show pathWritable (kp2 :: p3) (containerOr ((setField k
            (setValueForKeyPath v (k2 :: rest) (containerOr (fs.lookup k))) fs).lookup k)) = true
          rw [lookup_setField_same]
          have hcont : isContainer (setValueForKeyPath v (k2 :: rest)
              (containerOr (fs.lookup k))) = true :=
            setVKP_container _ v (containerOr_isContainer _)
          rw [containerOr_of_container hcont]
          exact pathWritable_set_preserved (k2 :: rest) (kp2 :: p3) _ v hq2 hp2 hu2
        | varr xs =>
          cases hj : jsIndex k with
          | none => simp [pathWritable, hj] at hq
          | some i =>
            cases hgi : xs.get i with
            | none => simp [pathWritable, hj, hgi] at hq
            | some c =>
              have hlt : i < xs.length := get_some_lt hgi
              have hq2 : pathWritable (k2 :: rest) (containerOr (some c)) = true := by
                simpa [pathWritable, hj, hgi] using hq
              have hp2 : pathWritable (kp2 :: p3) (containerOr (some c)) = true := by
                simpa [pathWritable, hj, hgi] using hp
              rw [setVKP_arr_cons_idx v k2 rest xs hj]
              have hcont : isContainer (setValueForKeyPath v (k2 :: rest)
                  (containerOr (xs.get i))) = true :=
                setVKP_container _ v (containerOr_isContainer _)
              simp only [pathWritable, hj, get_setIdx_same xs i _ hlt,
                containerOr_of_container hcont]
              rw [hgi]
              exact pathWritable_set_preserved (k2 :: rest) (kp2 :: p3) _ v hq2 hp2 hu2
        | vnull => simp [pathWritable] at hq
        | vbool b => simp [pathWritable] at hq
        | vnum n => simp [pathWritable] at hq
        | vstr s => simp [pathWritable] at hq
        | vdate t => simp [pathWritable] at hq
    · cases d with
      | vobj fs =>
        rw [setVKP_obj_cons]
        cases p2 with
        | nil => rfl
        | cons kp2 p3 =>
          have hp2 : pathWritable (kp2 :: p3) (containerOr (fs.lookup kp)) = true := hp
          show pathWritable (kp2 :: p3) (containerOr ((setField k
            (setValueForKeyPath v (k2 :: rest) (containerOr (fs.lookup k))) fs).lookup kp)) = true
          rw [lookup_setField_other fs k kp _ (fun hx => he hx.symm)]
          exact hp2
      | varr xs =>
        cases hj : jsIndex k with
        | none => simp [pathWritable, hj] at hq
        | some i =>
          cases hgi : xs.get i with
          | none => simp [pathWritable, hj, hgi] at hq
          | some c =>
            have hlt : i < xs.length := get_some_lt hgi
            rw [setVKP_arr_cons_idx v k2 rest xs hj]
            cases p2 with
            | nil =>
              cases hjp : jsIndex kp with
              | none => simp [pathWritable, hjp] at hp
              | some j =>
                have hjlt : j < xs.length := by simpa [pathWritable, hjp] using hp
                simp [pathWritable, hjp, setIdx_length xs i _ hlt, hjlt]
            | cons kp2 p3 =>
              cases hjp : jsIndex kp with
              | none => simp [pathWritable, hjp] at hp
              | some j =>
                have hij : j ≠ i := fun hij2 => he (jsIndex_inj hj (hij2 ▸ hjp))
                simp only [pathWritable, hjp, get_setIdx_other xs i j _ hlt hij]
                simpa [pathWritable, hjp] using hp
      | vnull => simp [pathWritable] at hq
      | vbool b => simp [pathWritable] at hq
      | vnum n => simp [pathWritable] at hq
      | vstr s => simp [pathWritable] at hq
      | vdate t => simp [pathWritable] at hq

/-! ### The flat write loop of dollarSet -/

theorem pathUnrelated_symm (p q : KeyPath) : pathUnrelated p q = pathUnrelated q p := by
  unfold pathUnrelated
  exact Bool.and_comm _ _

theorem pairwiseUnrelated_head {e : KeyPath × Val} {tl : List (KeyPath × Val)}
    (h : pairwiseUnrelated (e :: tl) = true) :
    ∀ e2 ∈ tl, pathUnrelated e.1 e2.1 = true := by
  have h2 : (tl.all (fun e2 => pathUnrelated e.1 e2.1)) = true := Bool.and_elim_left h
  exact fun e2 he2 => List.all_eq_true.mp h2 e2 he2

theorem pairwiseUnrelated_tail {e : KeyPath × Val} {tl : List (KeyPath × Val)}
    (h : pairwiseUnrelated (e :: tl) = true) : pairwiseUnrelated tl = true :=
  Bool.and_elim_right h

theorem dollarSetFlat_cons (d : Val) (e : KeyPath × Val) (tl : List (KeyPath × Val)) :
    dollarSetFlat d (e :: tl) =
      dollarSetFlat (if guardSet e.2 then setValueForKeyPath e.2 e.1 d else d) tl := rfl

/-- All the writes of a flat `$set` loop leave an unrelated path unchanged. -/
theorem dollarSetFlat_frame : ∀ (s : List (KeyPath × Val)) (d : Val) (q : KeyPath),
    (∀ e ∈ s, pathWritable e.1 d = true) → pairwiseUnrelated s = true →
    (∀ e ∈ s, pathUnrelated e.1 q = true) →
    valueForKeyPath q (some (dollarSetFlat d s)) = valueForKeyPath q (some d)
  | [], d, q, _, _, _ => rfl
  | e :: tl, d, q, hw, hpw, hu => by
    rw [dollarSetFlat_cons]
    by_cases hg : guardSet e.2 = true
    · rw [if_pos hg]
      have hwe : pathWritable e.1 d = true := hw e (List.mem_cons_self _ _)
      have hw1 : ∀ e2 ∈ tl, pathWritable e2.1 (setValueForKeyPath e.2 e.1 d) = true :=
        fun e2 h2 => pathWritable_set_preserved e.1 e2.1 d e.2 hwe
          (hw e2 (List.mem_cons_of_mem _ h2)) (pairwiseUnrelated_head hpw e2 h2)
      rw [dollarSetFlat_frame tl _ q hw1 (pairwiseUnrelated_tail hpw)
        (fun e2 h2 => hu e2 (List.mem_cons_of_mem _ h2))]
      exact get_set_unrelated e.1 q d e.2 hwe (hu e (List.mem_cons_self _ _))
    · rw [if_neg hg]
      exact dollarSetFlat_frame tl d q (fun e2 h2 => hw e2 (List.mem_cons_of_mem _ h2))
        (pairwiseUnrelated_tail hpw) (fun e2 h2 => hu e2 (List.mem_cons_of_mem _ h2))

/-- Each guarded entry of a flat `$set` loop ends with its value at its path. -/
theorem dollarSetFlat_entry : ∀ (s : List (KeyPath × Val)) (d : Val) (p : KeyPath) (v : Val),
    (∀ e ∈ s, pathWritable e.1 d = true) → pairwiseUnrelated s = true →
    (p, v) ∈ s → guardSet v = true →
    valueForKeyPath p (some (dollarSetFlat d s)) = some v
  | [], d, p, v, _, _, hm, _ => by cases hm
  | e :: tl, d, p, v, hw, hpw, hm, hg => by
    rw [dollarSetFlat_cons]
    rcases List.mem_cons.mp hm with h1 | h1
    · cases h1.symm
      rw [if_pos hg]
      have hwe : pathWritable p d = true := hw (p, v) (List.mem_cons_self _ _)
      have hw1 : ∀ e2 ∈ tl, pathWritable e2.1 (setValueForKeyPath v p d) = true :=
        fun e2 h2 => pathWritable_set_preserved p e2.1 d v hwe
          (hw e2 (List.mem_cons_of_mem _ h2)) (pairwiseUnrelated_head hpw e2 h2)
      rw [dollarSetFlat_frame tl _ p hw1 (pairwiseUnrelated_tail hpw)
        (fun e2 h2 => by
          rw [pathUnrelated_symm]
          exact pairwiseUnrelated_head hpw e2 h2)]
      exact get_set_same p d v hwe
    · by_cases hge : guardSet e.2 = true
      · rw [if_pos hge]
        have hwe : pathWritable e.1 d = true := hw e (List.mem_cons_self _ _)
        exact dollarSetFlat_entry tl _ p v
          (fun e2 h2 => pathWritable_set_preserved e.1 e2.1 d e.2 hwe
            (hw e2 (List.mem_cons_of_mem _ h2)) (pairwiseUnrelated_head hpw e2 h2))
          (pairwiseUnrelated_tail hpw) h1 hg
      · rw [if_neg hge]
        exact dollarSetFlat_entry tl d p v (fun e2 h2 => hw e2 (List.mem_cons_of_mem _ h2))
          (pairwiseUnrelated_tail hpw) h1 hg

theorem setVKP_obj_shape : ∀ (p : KeyPath) (v : Val) (fs : Fields),
    ∃ gs, setValueForKeyPath v p (.vobj fs) = .vobj gs
  | [], v, fs => ⟨fs, rfl⟩
  | [k], v, fs => ⟨setField k v fs, rfl⟩
  | k :: k2 :: rest, v, fs =>
    ⟨setField k (setValueForKeyPath v (k2 :: rest) (containerOr (fs.lookup k))) fs, rfl⟩

/-- Claim C10 (code bug): on the documented input domain the diff should be
total, and the specification's `shouldUnset` (§4.2) is a total predicate;
but the source (`src/diff.ts` line 60) evaluates `Object.keys(val)` under
the guard `val !== null && typeof prev === 'object'`, which admits
`prev = null`, `val = undefined` — `Object.keys(undefined)` raises a
`TypeError`.  Diffing `{a: null}` against `{}` crashes instead of
returning a modifier. -/
theorem claim10_shouldUnset_throws :
    shouldUnset none (some .vnull) = .error () ∧
    diffToModifier (some (.vobj (.cons "a" .vnull .nil))) (some (.vobj .nil)) [] false =
      .error () := by
  exact ⟨by decide, by decide⟩

/-! ### Store lemmas for the apply pipeline -/

theorem read_append : ∀ (q1 q2 : KeyPath) (x : Option Val),
    valueForKeyPath (q1 ++ q2) x = valueForKeyPath q2 (valueForKeyPath q1 x)
  | [], q2, x => rfl
  | k :: q1, q2, none => by
    rw [valueForKeyPath_none, valueForKeyPath_none, valueForKeyPath_none]
  | k :: q1, q2, some v => by
    rw [List.cons_append, valueForKeyPath_cons, valueForKeyPath_cons,
      read_append q1 q2 (getKey k v)]

theorem keys_lookup_isSome : ∀ (fs : Fields) {k : String}, k ∈ fs.keys →
    (fs.lookup k).isSome = true
  | .nil, k, h => by cases h
  | .cons k2 v tl, k, h => by
    unfold Fields.lookup
    by_cases he : k2 = k
    · rw [if_pos he]; rfl
    · rw [if_neg he]
      exact keys_lookup_isSome tl (by
        rcases List.mem_cons.mp h with h1 | h1
        · exact absurd h1.symm he
        · exact h1)

theorem lookup_none_of_not_mem : ∀ (fs : Fields) {k : String}, k ∉ fs.keys →
    fs.lookup k = none
  | .nil, _, _ => rfl
  | .cons k2 v tl, k, h => by
    unfold Fields.lookup
    have hne : k2 ≠ k := fun he => h (by simp [Fields.keys, he])
    rw [if_neg hne]
    exact lookup_none_of_not_mem tl (fun hm => h (by simp [Fields.keys, hm]))

theorem get_lt_isSome : ∀ (xs : ValList) {i : Nat}, i < xs.length →
    (xs.get i).isSome = true
  | .nil, i, h => by simp [ValList.length] at h
  | .cons v tl, 0, _ => rfl
  | .cons v tl, i + 1, h =>
    get_lt_isSome tl (by unfold ValList.length at h; omega)

theorem removeField_absent : ∀ (fs : Fields) (k : String), fs.lookup k = none →
    removeField k fs = fs
  | .nil, k, _ => rfl
  | .cons k2 v tl, k, h => by
    unfold Fields.lookup at h
    unfold removeField
    by_cases he : k2 = k
    · rw [if_pos he] at h; cases h
    · rw [if_neg he] at h
      rw [if_neg he, removeField_absent tl k h]

theorem lookup_removeField_self : ∀ (fs : Fields) (k : String), nodupKeys fs = true →
    (removeField k fs).lookup k = none
  | .nil, k, _ => rfl
  | .cons k2 v tl, k, h => by
    unfold removeField
    by_cases he : k2 = k
    · rw [if_pos he]
      subst he
      have h1 : (!(tl.keys.contains k2)) = true := Bool.and_elim_left h
      exact lookup_none_of_not_mem tl (by simpa using h1)
    · rw [if_neg he]
      unfold Fields.lookup
      rw [if_neg he]
      exact lookup_removeField_self tl k (Bool.and_elim_right h)

theorem lookup_removeField_other : ∀ (fs : Fields) (k k2 : String), k2 ≠ k →
    (removeField k fs).lookup k2 = fs.lookup k2
  | .nil, k, k2, _ => rfl
  | .cons k3 w tl, k, k2, h => by
    unfold removeField
    by_cases he : k3 = k
    · rw [if_pos he]
      subst he
      show tl.lookup k2 = if k3 = k2 then some w else tl.lookup k2
      rw [if_neg (fun hx => h hx.symm)]
    · rw [if_neg he]
      unfold Fields.lookup
      by_cases hf : k3 = k2
      · rw [if_pos hf, if_pos hf]
      · rw [if_neg hf, if_neg hf]
        exact lookup_removeField_other tl k k2 h

theorem mem_keys_removeField : ∀ (fs : Fields) {k k2 : String},
    k2 ∈ (removeField k fs).keys → k2 ∈ fs.keys
  | .nil, k, k2, h => by cases h
  | .cons k3 w tl, k, k2, h => by
    unfold removeField at h
    by_cases he : k3 = k
    · rw [if_pos he] at h
      simp [Fields.keys, h]
    · rw [if_neg he] at h
      rcases List.mem_cons.mp h with h1 | h1
      · simp [Fields.keys, h1]
      · simp [Fields.keys, mem_keys_removeField tl h1]

theorem setField_noop : ∀ (fs : Fields) (k : String) (v : Val), fs.lookup k = some v →
    setField k v fs = fs
  | .nil, k, v, h => by cases h
  | .cons k2 w tl, k, v, h => by
    unfold Fields.lookup at h
    unfold setField
    by_cases he : k2 = k
    · rw [if_pos he] at h
      rw [if_pos he]
      cases h
      rw [he]
    · rw [if_neg he] at h
      rw [if_neg he, setField_noop tl k v h]

theorem setIdx_noop : ∀ (xs : ValList) (i : Nat) (v : Val), xs.get i = some v →
    ValList.setIdx i v xs = xs
  | .nil, i, v, h => by cases h
  | .cons w tl, 0, v, h => by
    cases h
    rfl
  | .cons w tl, n + 1, v, h => by
    unfold ValList.setIdx
    rw [setIdx_noop tl n v h]

theorem unsetKP_obj_single (k : String) (fs : Fields) :
    unsetKeyPath [k] (.vobj fs) = .vobj (removeField k fs) := rfl

theorem unsetKP_arr_single_idx {k : String} {i : Nat} (xs : ValList)
    (h : jsIndex k = some i) :
    unsetKeyPath [k] (.varr xs) =
      if i < xs.length then .varr (ValList.setIdx i .vnull xs) else .varr xs := by
  simp only [unsetKeyPath, h]

theorem unsetKP_arr_single_nidx {k : String} (xs : ValList) (h : jsIndex k = none) :
    unsetKeyPath [k] (.varr xs) = .varr xs := by
  simp only [unsetKeyPath, h]

theorem unsetKP_obj_cons (k k2 : String) (rest : KeyPath) (fs : Fields) :
    unsetKeyPath (k :: k2 :: rest) (.vobj fs) =
      (match fs.lookup k with
       | some c => .vobj (setField k (unsetKeyPath (k2 :: rest) c) fs)
       | none => .vobj fs) := rfl

theorem unsetKP_arr_cons_idx {k : String} {i : Nat} (k2 : String) (rest : KeyPath)
    (xs : ValList) (h : jsIndex k = some i) :
    unsetKeyPath (k :: k2 :: rest) (.varr xs) =
      (match xs.get i with
       | some c => .varr (ValList.setIdx i (unsetKeyPath (k2 :: rest) c) xs)
       | none => .varr xs) := by
  simp only [unsetKeyPath, h]

theorem unsetKP_arr_cons_nidx {k : String} (k2 : String) (rest : KeyPath)
    (xs : ValList) (h : jsIndex k = none) :
    unsetKeyPath (k :: k2 :: rest) (.varr xs) = .varr xs := by
  simp only [unsetKeyPath, h]

theorem unsetKP_scalar : ∀ (r : KeyPath) (x : Val), isContainer x = false →
    unsetKeyPath r x = x
  | [], x, _ => rfl
  | [k], x, h => by cases x <;> first | rfl | cases h
  | k :: k2 :: rest, x, h => by cases x <;> first | rfl | cases h

/-- A removal at a path whose read already fails leaves the value unchanged. -/
theorem unset_noop : ∀ (r : KeyPath) (x : Val),
    valueForKeyPath r (some x) = none → unsetKeyPath r x = x
  | [], x, h => by cases h
  | [k], x, h => by
    rw [valueForKeyPath_cons] at h
    simp only [valueForKeyPath] at h
    cases x with
    | vobj fs =>
      show Val.vobj (removeField k fs) = Val.vobj fs
      rw [removeField_absent fs k h]
    | varr xs =>
      cases hj : jsIndex k with
      | none => exact unsetKP_arr_single_nidx xs hj
      | some i =>
        rw [getKey_arr_idx xs hj] at h
        rw [unsetKP_arr_single_idx xs hj, if_neg (fun hlt => by
          have h2 := get_lt_isSome xs hlt
          rw [h] at h2
          cases h2)]
    | vnull => rfl
    | vbool b => rfl
    | vnum n => rfl
    | vstr s => rfl
    | vdate t => rfl
  | k :: k2 :: rest, x, h => by
    rw [valueForKeyPath_cons] at h
    cases x with
    | vobj fs =>
      rw [unsetKP_obj_cons]
      cases hl : fs.lookup k with
      | none => rfl
      | some c =>
        rw [getKey_obj, hl] at h
        simp only
        rw [unset_noop (k2 :: rest) c h, setField_noop fs k c hl]
    | varr xs =>
      cases hj : jsIndex k with
      | none => exact unsetKP_arr_cons_nidx k2 rest xs hj
      | some i =>
        rw [getKey_arr_idx xs hj] at h
        rw [unsetKP_arr_cons_idx k2 rest xs hj]
        cases hg : xs.get i with
        | none => rfl
        | some c =>
          rw [hg] at h
          simp only
          rw [unset_noop (k2 :: rest) c h, setIdx_noop xs i c hg]
    | vnull => rfl
    | vbool b => rfl
    | vnum n => rfl
    | vstr s => rfl
    | vdate t => rfl

theorem unset_obj_shape : ∀ (r : KeyPath) (fs : Fields),
    ∃ gs, unsetKeyPath r (.vobj fs) = .vobj gs
  | [], fs => ⟨fs, rfl⟩
  | [k], fs => ⟨removeField k fs, rfl⟩
  | k :: k2 :: rest, fs => by
    rw [unsetKP_obj_cons]
    cases fs.lookup k with
    | none => exact ⟨fs, rfl⟩
    | some c => exact ⟨setField k (unsetKeyPath (k2 :: rest) c) fs, rfl⟩

/-- A removal never changes the constructor of the node it is applied to. -/
theorem unset_kind : ∀ (r : KeyPath) (x : Val),
    obs (some (unsetKeyPath r x)) = obs (some x)
  | [], x => rfl
  | [k], x => by
    cases x with
    | vobj fs => rfl
    | varr xs =>
      cases hj : jsIndex k with
      | none => rw [unsetKP_arr_single_nidx xs hj]
      | some i =>
        rw [unsetKP_arr_single_idx xs hj]
        by_cases hlt : i < xs.length
        · rw [if_pos hlt]
          rfl
        · rw [if_neg hlt]
    | vnull => rfl
    | vbool b => rfl
    | vnum n => rfl
    | vstr s => rfl
    | vdate t => rfl
  | k :: k2 :: rest, x => by
    cases x with
    | vobj fs =>
      rw [unsetKP_obj_cons]
      cases fs.lookup k with
      | none => rfl
      | some c => rfl
    | varr xs =>
      cases hj : jsIndex k with
      | none => rw [unsetKP_arr_cons_nidx k2 rest xs hj]
      | some i =>
        rw [unsetKP_arr_cons_idx k2 rest xs hj]
        cases xs.get i with
        | none => rfl
        | some c => rfl
    | vnull => rfl
    | vbool b => rfl
    | vnum n => rfl
    | vstr s => rfl
    | vdate t => rfl

/-- A removal leaves every path unrelated to its own unchanged. -/
theorem get_unset_unrelated : ∀ (r q : KeyPath) (x : Val), pathUnrelated r q = true →
    valueForKeyPath q (some (unsetKeyPath r x)) = valueForKeyPath q (some x)
  | [], q, x, hu => by simp [pathUnrelated, pathIsPrefix] at hu
  | k :: r2, [], x, hu => by simp [pathUnrelated, pathIsPrefix] at hu
  | [k], kq :: q2, x, hu => by
    have hne : k ≠ kq := by
      intro he
      subst he
      simp [pathUnrelated, pathIsPrefix] at hu
    cases x with
    | vobj fs =>
      rw [unsetKP_obj_single, valueForKeyPath_cons, valueForKeyPath_cons, getKey_obj,
        getKey_obj, lookup_removeField_other fs k kq (fun hx => hne hx.symm)]
    | varr xs =>
      cases hj : jsIndex k with
      | none => rw [unsetKP_arr_single_nidx xs hj]
      | some i =>
        rw [unsetKP_arr_single_idx xs hj]
        by_cases hlt : i < xs.length
        · rw [if_pos hlt, valueForKeyPath_cons, valueForKeyPath_cons]
          cases hj2 : jsIndex kq with
          | none => rw [getKey_arr_nidx _ hj2, getKey_arr_nidx _ hj2]
          | some j =>
            rw [getKey_arr_idx _ hj2, getKey_arr_idx _ hj2,
              get_setIdx_other xs i j _ hlt (fun hji => hne (jsIndex_inj hj (hji ▸ hj2)))]
        · rw [if_neg hlt]
    | vnull => rfl
    | vbool b => rfl
    | vnum n => rfl
    | vstr s => rfl
    | vdate t => rfl
  | k :: k2 :: rest, kq :: q2, x, hu => by
    by_cases he : k = kq
    · subst he
      cases x with
      | vobj fs =>
        rw [unsetKP_obj_cons]
        cases hl : fs.lookup k with
        | none => rfl
        | some c =>
          simp only
          rw [valueForKeyPath_cons, valueForKeyPath_cons, getKey_obj, getKey_obj,
            lookup_setField_same, hl]
          exact get_unset_unrelated (k2 :: rest) q2 c (pathUnrelated_tail hu)
      | varr xs =>
        cases hj : jsIndex k with
        | none => rw [unsetKP_arr_cons_nidx k2 rest xs hj]
        | some i =>
          rw [unsetKP_arr_cons_idx k2 rest xs hj]
          cases hg : xs.get i with
          | none => rfl
          | some c =>
            simp only
            rw [valueForKeyPath_cons, valueForKeyPath_cons, getKey_arr_idx _ hj,
              getKey_arr_idx _ hj, get_setIdx_same xs i _ (get_some_lt hg), hg]
            exact get_unset_unrelated (k2 :: rest) q2 c (pathUnrelated_tail hu)
      | vnull => rfl
      | vbool b => rfl
      | vnum n => rfl
      | vstr s => rfl
      | vdate t => rfl
    · cases x with
      | vobj fs =>
        rw [unsetKP_obj_cons]
        cases hl : fs.lookup k with
        | none => rfl
        | some c =>
          simp only
          rw [valueForKeyPath_cons, valueForKeyPath_cons, getKey_obj, getKey_obj,
            lookup_setField_other fs k kq _ (fun hx => he hx.symm)]
      | varr xs =>
        cases hj : jsIndex k with
        | none => rw [unsetKP_arr_cons_nidx k2 rest xs hj]
        | some i =>
          rw [unsetKP_arr_cons_idx k2 rest xs hj]
          cases hg : xs.get i with
          | none => rfl
          | some c =>
            simp only
            rw [valueForKeyPath_cons, valueForKeyPath_cons]
            cases hj2 : jsIndex kq with
            | none => rw [getKey_arr_nidx _ hj2, getKey_arr_nidx _ hj2]
            | some j =>
              rw [getKey_arr_idx _ hj2, getKey_arr_idx _ hj2,
                get_setIdx_other xs i j _ (get_some_lt hg)
                  (fun hji => he (jsIndex_inj hj (hji ▸ hj2)))]
      | vnull => rfl
      | vbool b => rfl
      | vnum n => rfl
      | vstr s => rfl
      | vdate t => rfl

/-- A removal with a duplicate-free walk never makes an absent path present. -/
theorem unset_no_create : ∀ (r q : KeyPath) (x : Val), parentNodup r x = true →
    valueForKeyPath q (some x) = none →
    valueForKeyPath q (some (unsetKeyPath r x)) = none
  | [], q, x, _, h => h
  | r, [], x, _, h => by cases h
  | [k], kq :: q2, x, hn, h => by
    rw [valueForKeyPath_cons] at h
    rw [valueForKeyPath_cons]
    cases x with
    | vobj fs =>
      rw [unsetKP_obj_single, getKey_obj]
      rw [getKey_obj] at h
      by_cases he : kq = k
      · subst he
        rw [lookup_removeField_self fs kq hn, valueForKeyPath_none]
      · rw [lookup_removeField_other fs k kq he]
        exact h
    | varr xs =>
      cases hj : jsIndex k with
      | none => rw [unsetKP_arr_single_nidx xs hj]; exact h
      | some i =>
        rw [unsetKP_arr_single_idx xs hj]
        by_cases hlt : i < xs.length
        · rw [if_pos hlt]
          cases hj2 : jsIndex kq with
          | none =>
            rw [getKey_arr_nidx _ hj2, valueForKeyPath_none]
          | some j =>
            rw [getKey_arr_idx _ hj2]
            rw [getKey_arr_idx _ hj2] at h
            by_cases hji : j = i
            · subst hji
              rw [get_setIdx_same xs j _ hlt]
              cases q2 with
              | nil =>
                have h2 := get_lt_isSome xs hlt
                rw [show valueForKeyPath [] (xs.get j) = xs.get j from rfl] at h
                rw [h] at h2
                cases h2
              | cons k3 q3 =>
                rw [valueForKeyPath_cons]
                show valueForKeyPath q3 none = none
                exact valueForKeyPath_none q3
            · rw [get_setIdx_other xs i j _ hlt hji]
              exact h
        · rw [if_neg hlt]
          exact h
    | vnull => exact h
    | vbool b => exact h
    | vnum n => exact h
    | vstr s => exact h
    | vdate t => exact h
  | k :: k2 :: rest, kq :: q2, x, hn, h => by
    rw [valueForKeyPath_cons] at h
    rw [valueForKeyPath_cons]
    cases x with
    | vobj fs =>
      rw [unsetKP_obj_cons]
      cases hl : fs.lookup k with
      | none => exact h
      | some c =>
        simp only
        rw [getKey_obj]
        rw [getKey_obj] at h
        by_cases he : kq = k
        · subst he
          rw [lookup_setField_same]
          rw [hl] at h
          have hn2 : parentNodup (k2 :: rest) c = true := by
            simp only [parentNodup, hl] at hn
            exact hn
          exact unset_no_create (k2 :: rest) q2 c hn2 h
        · rw [lookup_setField_other fs k kq _ he]
          exact h
    | varr xs =>
      cases hj : jsIndex k with
      | none => rw [unsetKP_arr_cons_nidx k2 rest xs hj]; exact h
      | some i =>
        rw [unsetKP_arr_cons_idx k2 rest xs hj]
        cases hg : xs.get i with
        | none => exact h
        | some c =>
          simp only
          cases hj2 : jsIndex kq with
          | none =>
            rw [getKey_arr_nidx _ hj2, valueForKeyPath_none]
          | some j =>
            rw [getKey_arr_idx _ hj2]
            rw [getKey_arr_idx _ hj2] at h
            by_cases hji : j = i
            · subst hji
              rw [get_setIdx_same xs j _ (get_some_lt hg)]
              rw [hg] at h
              have hn2 : parentNodup (k2 :: rest) c = true := by
                simp only [parentNodup, hj, hg] at hn
                exact hn
              exact unset_no_create (k2 :: rest) q2 c hn2 h
            · rw [get_setIdx_other xs i j _ (get_some_lt hg) hji]
              exact h
    | vnull => exact h
    | vbool b => exact h
    | vnum n => exact h
    | vstr s => exact h
    | vdate t => exact h

/-- A removal changes observations only at its own path and below. -/
theorem unset_obs_frame : ∀ (r q : KeyPath) (x : Val), pathIsPrefix r q = false →
    obs (valueForKeyPath q (some (unsetKeyPath r x))) = obs (valueForKeyPath q (some x))
  | [], q, x, hp => by simp [pathIsPrefix] at hp
  | k :: r2, [], x, _ => unset_kind (k :: r2) x
  | [k], kq :: q2, x, hp => by
    have hne : k ≠ kq := by
      intro he
      subst he
      simp [pathIsPrefix] at hp
    exact congrArg obs (by
      cases x with
      | vobj fs =>
        rw [unsetKP_obj_single, valueForKeyPath_cons, valueForKeyPath_cons, getKey_obj,
          getKey_obj, lookup_removeField_other fs k kq (fun hx => hne hx.symm)]
      | varr xs =>
        cases hj : jsIndex k with
        | none => rw [unsetKP_arr_single_nidx xs hj]
        | some i =>
          rw [unsetKP_arr_single_idx xs hj]
          by_cases hlt : i < xs.length
          · rw [if_pos hlt, valueForKeyPath_cons, valueForKeyPath_cons]
            cases hj2 : jsIndex kq with
            | none => rw [getKey_arr_nidx _ hj2, getKey_arr_nidx _ hj2]
            | some j =>
              rw [getKey_arr_idx _ hj2, getKey_arr_idx _ hj2,
                get_setIdx_other xs i j _ hlt (fun hji => hne (jsIndex_inj hj (hji ▸ hj2)))]
          · rw [if_neg hlt]
      | vnull => rfl
      | vbool b => rfl
      | vnum n => rfl
      | vstr s => rfl
      | vdate t => rfl)
  | k :: k2 :: rest, kq :: q2, x, hp => by
    by_cases he : k = kq
    · subst he
      have hp2 : pathIsPrefix (k2 :: rest) q2 = false := by
        simpa [pathIsPrefix] using hp
      cases x with
      | vobj fs =>
        rw [unsetKP_obj_cons]
        cases hl : fs.lookup k with
        | none => rfl
        | some c =>
          simp only
          rw [valueForKeyPath_cons, valueForKeyPath_cons, getKey_obj, getKey_obj,
            lookup_setField_same, hl]
          exact unset_obs_frame (k2 :: rest) q2 c hp2
      | varr xs =>
        cases hj : jsIndex k with
        | none => rw [unsetKP_arr_cons_nidx k2 rest xs hj]
        | some i =>
          rw [unsetKP_arr_cons_idx k2 rest xs hj]
          cases hg : xs.get i with
          | none => rfl
          | some c =>
            simp only
            rw [valueForKeyPath_cons, valueForKeyPath_cons, getKey_arr_idx _ hj,
              getKey_arr_idx _ hj, get_setIdx_same xs i _ (get_some_lt hg), hg]
            exact unset_obs_frame (k2 :: rest) q2 c hp2
      | vnull => rfl
      | vbool b => rfl
      | vnum n => rfl
      | vstr s => rfl
      | vdate t => rfl
    · exact congrArg obs (by
        cases x with
        | vobj fs =>
          rw [unsetKP_obj_cons]
          cases hl : fs.lookup k with
          | none => rfl
          | some c =>
            simp only
            rw [valueForKeyPath_cons, valueForKeyPath_cons, getKey_obj, getKey_obj,
              lookup_setField_other fs k kq _ (fun hx => he hx.symm)]
        | varr xs =>
          cases hj : jsIndex k with
          | none => rw [unsetKP_arr_cons_nidx k2 rest xs hj]
          | some i =>
            rw [unsetKP_arr_cons_idx k2 rest xs hj]
            cases hg : xs.get i with
            | none => rfl
            | some c =>
              simp only
              rw [valueForKeyPath_cons, valueForKeyPath_cons]
              cases hj2 : jsIndex kq with
              | none => rw [getKey_arr_nidx _ hj2, getKey_arr_nidx _ hj2]
              | some j =>
                rw [getKey_arr_idx _ hj2, getKey_arr_idx _ hj2,
                  get_setIdx_other xs i j _ (get_some_lt hg)
                    (fun hji => he (jsIndex_inj hj (hji ▸ hj2)))]
        | vnull => rfl
        | vbool b => rfl
        | vnum n => rfl
        | vstr s => rfl
        | vdate t => rfl)

/-- A removal whose walk lands on an object parent erases its path. -/
theorem unset_kill : ∀ (r : KeyPath) (x : Val), unsetKills r x = true →
    parentNodup r x = true →
    valueForKeyPath r (some (unsetKeyPath r x)) = none
  | [], x, hk, _ => by cases hk
  | [k], x, hk, hn => by
    cases x with
    | vobj fs =>
      rw [unsetKP_obj_single, valueForKeyPath_cons, getKey_obj,
        lookup_removeField_self fs k hn]
      rfl
    | varr xs => cases hk
    | vnull => cases hk
    | vbool b => cases hk
    | vnum n => cases hk
    | vstr s => cases hk
    | vdate t => cases hk
  | k :: k2 :: rest, x, hk, hn => by
    cases x with
    | vobj fs =>
      cases hl : fs.lookup k with
      | none =>
        simp only [unsetKills, hl] at hk
        cases hk
      | some c =>
        rw [unsetKP_obj_cons]
        simp only [hl]
        rw [valueForKeyPath_cons, getKey_obj, lookup_setField_same]
        have hk2 : unsetKills (k2 :: rest) c = true := by
          simp only [unsetKills, hl] at hk
          exact hk
        have hn2 : parentNodup (k2 :: rest) c = true := by
          simp only [parentNodup, hl] at hn
          exact hn
        exact unset_kill (k2 :: rest) c hk2 hn2
    | varr xs => cases hk
    | vnull => cases hk
    | vbool b => cases hk
    | vnum n => cases hk
    | vstr s => cases hk
    | vdate t => cases hk

/-- A path whose proper prefixes all read as objects is erasable. -/
theorem kills_from_reads : ∀ (r : KeyPath) (x : Val), r ≠ [] →
    (∀ q, pathIsPrefix q r = true → q ≠ r → obs (valueForKeyPath q (some x)) = .oobj) →
    unsetKills r x = true
  | [], x, h, _ => absurd rfl h
  | [k], x, _, hpre => by
    have h0 := hpre [] (by simp [pathIsPrefix]) (by simp)
    cases x with
    | vobj fs => rfl
    | varr xs => cases (show Obs.oarr = Obs.oobj from h0)
    | vnull => cases (show Obs.oscal Val.vnull = Obs.oobj from h0)
    | vbool b => cases (show Obs.oscal (Val.vbool b) = Obs.oobj from h0)
    | vnum n => cases (show Obs.oscal (Val.vnum n) = Obs.oobj from h0)
    | vstr s => cases (show Obs.oscal (Val.vstr s) = Obs.oobj from h0)
    | vdate t => cases (show Obs.oscal (Val.vdate t) = Obs.oobj from h0)
  | k :: k2 :: rest, x, _, hpre => by
    have h0 := hpre [] (by simp [pathIsPrefix]) (by simp)
    cases x with
    | vobj fs =>
      have h1 := hpre [k] (by simp [pathIsPrefix]) (by simp)
      rw [valueForKeyPath_cons, getKey_obj] at h1
      cases hl : fs.lookup k with
      | none =>
        rw [hl] at h1
        cases (show Obs.absent = Obs.oobj from h1)
      | some c =>
        simp only [unsetKills, hl]
        apply kills_from_reads (k2 :: rest) c (by simp)
        intro q hq hne
        have h2 := hpre (k :: q) (by simp [pathIsPrefix, hq]) (by
          intro hcontra
          apply hne
          injection hcontra)
        rw [valueForKeyPath_cons, getKey_obj, hl] at h2
        exact h2
    | varr xs => cases (show Obs.oarr = Obs.oobj from h0)
    | vnull => cases (show Obs.oscal Val.vnull = Obs.oobj from h0)
    | vbool b => cases (show Obs.oscal (Val.vbool b) = Obs.oobj from h0)
    | vnum n => cases (show Obs.oscal (Val.vnum n) = Obs.oobj from h0)
    | vstr s => cases (show Obs.oscal (Val.vstr s) = Obs.oobj from h0)
    | vdate t => cases (show Obs.oscal (Val.vdate t) = Obs.oobj from h0)

/-! ### Well-formedness through the pipeline -/

theorem wf_lookup {fs : Fields} {k : String} {v : Val} (hw : wfVal (.vobj fs) = true)
    (h : fs.lookup k = some v) : wfVal v = true :=
  wfFields_entry (Bool.and_elim_right hw) (lookup_mem fs h)

theorem wf_get : ∀ (xs : ValList) {i : Nat} {v : Val}, wfList xs = true →
    xs.get i = some v → wfVal v = true
  | .nil, i, v, _, h => by cases h
  | .cons w tl, 0, v, hw, h => by
    cases h
    exact Bool.and_elim_left hw
  | .cons w tl, i + 1, v, hw, h => wf_get tl (Bool.and_elim_right hw) h

theorem wf_read : ∀ (q : KeyPath) (x : Val) {v : Val}, wfVal x = true →
    valueForKeyPath q (some x) = some v → wfVal v = true
  | [], x, v, hw, h => by cases h; exact hw
  | k :: q2, x, v, hw, h => by
    rw [valueForKeyPath_cons] at h
    cases x with
    | vobj fs =>
      rw [getKey_obj] at h
      cases hl : fs.lookup k with
      | none => rw [hl, valueForKeyPath_none] at h; cases h
      | some c =>
        rw [hl] at h
        exact wf_read q2 c (wf_lookup hw hl) h
    | varr xs =>
      cases hj : jsIndex k with
      | none => rw [getKey_arr_nidx _ hj, valueForKeyPath_none] at h; cases h
      | some i =>
        rw [getKey_arr_idx _ hj] at h
        cases hg : xs.get i with
        | none => rw [hg, valueForKeyPath_none] at h; cases h
        | some c =>
          rw [hg] at h
          exact wf_read q2 c (wf_get xs (by exact hw) hg) h
    | vnull => rw [show getKey k Val.vnull = none from rfl, valueForKeyPath_none] at h; cases h
    | vbool b =>
      rw [show getKey k (Val.vbool b) = none from rfl, valueForKeyPath_none] at h; cases h
    | vnum n =>
      rw [show getKey k (Val.vnum n) = none from rfl, valueForKeyPath_none] at h; cases h
    | vstr s =>
      rw [show getKey k (Val.vstr s) = none from rfl, valueForKeyPath_none] at h; cases h
    | vdate t =>
      rw [show getKey k (Val.vdate t) = none from rfl, valueForKeyPath_none] at h; cases h

theorem mem_keys_setField : ∀ (fs : Fields) (k k3 : String) (v : Val),
    k3 ∈ (setField k v fs).keys → k3 = k ∨ k3 ∈ fs.keys
  | .nil, k, k3, v, h => by
    simp only [setField, Fields.keys] at h
    rcases List.mem_cons.mp h with h1 | h1
    · exact Or.inl h1
    · cases h1
  | .cons k2 w tl, k, k3, v, h => by
    unfold setField at h
    by_cases he : k2 = k
    · rw [if_pos he] at h
      rcases List.mem_cons.mp h with h1 | h1
      · exact Or.inl h1
      · subst he
        exact Or.inr (by simp [Fields.keys, h1])
    · rw [if_neg he] at h
      rcases List.mem_cons.mp h with h1 | h1
      · exact Or.inr (by simp [Fields.keys, h1])
      · rcases mem_keys_setField tl k k3 v h1 with h2 | h2
        · exact Or.inl h2
        · exact Or.inr (by simp [Fields.keys, h2])

theorem nodup_setField : ∀ (fs : Fields) (k : String) (v : Val), nodupKeys fs = true →
    nodupKeys (setField k v fs) = true
  | .nil, k, v, _ => by simp [setField, nodupKeys, Fields.keys]
  | .cons k2 w tl, k, v, h => by
    unfold setField
    by_cases he : k2 = k
    · rw [if_pos he]
      subst he
      exact h
    · rw [if_neg he]
      show ((!((setField k v tl).keys.contains k2)) && nodupKeys (setField k v tl)) = true
      have hnm : k2 ∉ tl.keys := by simpa using (Bool.and_elim_left h)
      have hnm2 : k2 ∉ (setField k v tl).keys := fun hm => by
        rcases mem_keys_setField tl k k2 v hm with h4 | h4
        · exact he h4
        · exact hnm h4
      have h3 : (!((setField k v tl).keys.contains k2)) = true := by simpa using hnm2
      rw [h3, nodup_setField tl k v (Bool.and_elim_right h)]
      rfl

theorem wfFields_setField : ∀ (fs : Fields) (k : String) (v : Val), wfFields fs = true →
    wfVal v = true → wfFields (setField k v fs) = true
  | .nil, k, v, _, hv => by
    show (wfVal v && wfFields .nil) = true
    rw [hv]
    rfl
  | .cons k2 w tl, k, v, h, hv => by
    unfold setField
    by_cases he : k2 = k
    · rw [if_pos he]
      show (wfVal v && wfFields tl) = true
      rw [hv, Bool.and_elim_right h]
      rfl
    · rw [if_neg he]
      show (wfVal w && wfFields (setField k v tl)) = true
      rw [Bool.and_elim_left h, wfFields_setField tl k v (Bool.and_elim_right h) hv]
      rfl

theorem wfFields_removeField : ∀ (fs : Fields) (k : String), wfFields fs = true →
    wfFields (removeField k fs) = true
  | .nil, _, _ => rfl
  | .cons k2 w tl, k, h => by
    unfold removeField
    by_cases he : k2 = k
    · rw [if_pos he]
      exact Bool.and_elim_right h
    · rw [if_neg he]
      show (wfVal w && wfFields (removeField k tl)) = true
      rw [Bool.and_elim_left h, wfFields_removeField tl k (Bool.and_elim_right h)]
      rfl

theorem nodup_removeField : ∀ (fs : Fields) (k : String), nodupKeys fs = true →
    nodupKeys (removeField k fs) = true
  | .nil, _, _ => rfl
  | .cons k2 w tl, k, h => by
    unfold removeField
    by_cases he : k2 = k
    · rw [if_pos he]
      exact Bool.and_elim_right h
    · rw [if_neg he]
      show ((!((removeField k tl).keys.contains k2)) && nodupKeys (removeField k tl)) = true
      have hnm : k2 ∉ tl.keys := by simpa using (Bool.and_elim_left h)
      have hnm2 : k2 ∉ (removeField k tl).keys := fun hm => hnm (mem_keys_removeField tl hm)
      have h3 : (!((removeField k tl).keys.contains k2)) = true := by simpa using hnm2
      rw [h3, nodup_removeField tl k (Bool.and_elim_right h)]
      rfl

theorem wfList_setIdx : ∀ (xs : ValList) (i : Nat) (v : Val), wfList xs = true →
    wfVal v = true → wfList (ValList.setIdx i v xs) = true
  | .nil, 0, v, _, hv => by
    show (wfVal v && wfList .nil) = true
    rw [hv]
    rfl
  | .nil, n + 1, v, _, hv => by
    show (wfVal Val.vnull && wfList (ValList.setIdx n v .nil)) = true
    rw [wfList_setIdx .nil n v rfl hv]
    rfl
  | .cons w tl, 0, v, h, hv => by
    show (wfVal v && wfList tl) = true
    rw [hv, Bool.and_elim_right h]
    rfl
  | .cons w tl, n + 1, v, h, hv => by
    show (wfVal w && wfList (ValList.setIdx n v tl)) = true
    rw [Bool.and_elim_left h, wfList_setIdx tl n v (Bool.and_elim_right h) hv]
    rfl

theorem wf_containerOr {o : Option Val} (h : ∀ c, o = some c → wfVal c = true) :
    wfVal (containerOr o) = true := by
  cases o with
  | none => rfl
  | some c =>
    show wfVal (if isContainer c = true then c else .vobj .nil) = true
    by_cases hc : isContainer c = true
    · rw [if_pos hc]
      exact h c rfl
    · rw [if_neg hc]
      rfl

theorem setVKP_arr_single_nidx {k : String} (v : Val) (xs : ValList)
    (h : jsIndex k = none) :
    setValueForKeyPath v [k] (.varr xs) = .varr xs := by
  simp only [setValueForKeyPath, h]

theorem setVKP_arr_cons_nidx {k : String} (v : Val) (k2 : String) (rest : KeyPath)
    (xs : ValList) (h : jsIndex k = none) :
    setValueForKeyPath v (k :: k2 :: rest) (.varr xs) = .varr xs := by
  simp only [setValueForKeyPath, h]

theorem wf_setVKP : ∀ (p : KeyPath) (d v : Val), wfVal d = true → wfVal v = true →
    wfVal (setValueForKeyPath v p d) = true
  | [], d, v, hd, _ => hd
  | [k], d, v, hd, hv => by
    cases d with
    | vobj fs =>
      rw [setVKP_obj_single]
      show (nodupKeys (setField k v fs) && wfFields (setField k v fs)) = true
      rw [nodup_setField fs k v (Bool.and_elim_left hd),
        wfFields_setField fs k v (Bool.and_elim_right hd) hv]
      rfl
    | varr xs =>
      cases hj : jsIndex k with
      | none =>
        rw [setVKP_arr_single_nidx v xs hj]
        exact hd
      | some i =>
        rw [setVKP_arr_single_idx v xs hj]
        exact wfList_setIdx xs i v (by exact hd) hv
    | vnull => exact hd
    | vbool b => exact hd
    | vnum n => exact hd
    | vstr s => exact hd
    | vdate t => exact hd
  | k :: k2 :: rest, d, v, hd, hv => by
    cases d with
    | vobj fs =>
      rw [setVKP_obj_cons]
      have hin : wfVal (setValueForKeyPath v (k2 :: rest) (containerOr (fs.lookup k))) = true :=
        wf_setVKP (k2 :: rest) _ v (wf_containerOr (fun c hc => wf_lookup hd hc)) hv
      show (nodupKeys (setField k _ fs) && wfFields (setField k _ fs)) = true
      rw [nodup_setField fs k _ (Bool.and_elim_left hd),
        wfFields_setField fs k _ (Bool.and_elim_right hd) hin]
      rfl
    | varr xs =>
      cases hj : jsIndex k with
      | none =>
        rw [setVKP_arr_cons_nidx v k2 rest xs hj]
        exact hd
      | some i =>
        rw [setVKP_arr_cons_idx v k2 rest xs hj]
        have hin : wfVal (setValueForKeyPath v (k2 :: rest) (containerOr (xs.get i))) = true :=
          wf_setVKP (k2 :: rest) _ v
            (wf_containerOr (fun c hc => wf_get xs (by exact hd) hc)) hv
        exact wfList_setIdx xs i _ (by exact hd) hin
    | vnull => exact hd
    | vbool b => exact hd
    | vnum n => exact hd
    | vstr s => exact hd
    | vdate t => exact hd

theorem wf_unset : ∀ (r : KeyPath) (x : Val), wfVal x = true →
    wfVal (unsetKeyPath r x) = true
  | [], x, h => h
  | [k], x, h => by
    cases x with
    | vobj fs =>
      rw [unsetKP_obj_single]
      show (nodupKeys (removeField k fs) && wfFields (removeField k fs)) = true
      rw [nodup_removeField fs k (Bool.and_elim_left h),
        wfFields_removeField fs k (Bool.and_elim_right h)]
      rfl
    | varr xs =>
      cases hj : jsIndex k with
      | none =>
        rw [unsetKP_arr_single_nidx xs hj]
        exact h
      | some i =>
        rw [unsetKP_arr_single_idx xs hj]
        by_cases hlt : i < xs.length
        · rw [if_pos hlt]
          exact wfList_setIdx xs i _ (by exact h) rfl
        · rw [if_neg hlt]
          exact h
    | vnull => exact h
    | vbool b => exact h
    | vnum n => exact h
    | vstr s => exact h
    | vdate t => exact h
  | k :: k2 :: rest, x, h => by
    cases x with
    | vobj fs =>
      rw [unsetKP_obj_cons]
      cases hl : fs.lookup k with
      | none => exact h
      | some c =>
        simp only
        have hin := wf_unset (k2 :: rest) c (wf_lookup h hl)
        show (nodupKeys (setField k _ fs) && wfFields (setField k _ fs)) = true
        rw [nodup_setField fs k _ (Bool.and_elim_left h),
          wfFields_setField fs k _ (Bool.and_elim_right h) hin]
        rfl
    | varr xs =>
      cases hj : jsIndex k with
      | none =>
        rw [unsetKP_arr_cons_nidx k2 rest xs hj]
        exact h
      | some i =>
        rw [unsetKP_arr_cons_idx k2 rest xs hj]
        cases hg : xs.get i with
        | none => exact h
        | some c =>
          simp only
          exact wfList_setIdx xs i _ (by exact h)
            (wf_unset (k2 :: rest) c (wf_get xs (by exact h) hg))
    | vnull => exact h
    | vbool b => exact h
    | vnum n => exact h
    | vstr s => exact h
    | vdate t => exact h

theorem parentNodup_of_wf : ∀ (r : KeyPath) (x : Val), wfVal x = true →
    parentNodup r x = true
  | [], x, _ => rfl
  | [k], x, h => by
    cases x with
    | vobj fs => exact Bool.and_elim_left h
    | varr xs => rfl
    | vnull => rfl
    | vbool b => rfl
    | vnum n => rfl
    | vstr s => rfl
    | vdate t => rfl
  | k :: k2 :: rest, x, h => by
    cases x with
    | vobj fs =>
      cases hl : fs.lookup k with
      | none => simp [parentNodup, hl]
      | some c =>
        simp only [parentNodup, hl]
        exact parentNodup_of_wf (k2 :: rest) c (wf_lookup h hl)
    | varr xs =>
      cases hj : jsIndex k with
      | none => simp [parentNodup, hj]
      | some i =>
        cases hg : xs.get i with
        | none => simp [parentNodup, hj, hg]
        | some c =>
          simp only [parentNodup, hj, hg]
          exact parentNodup_of_wf (k2 :: rest) c (wf_get xs (by exact h) hg)
    | vnull => rfl
    | vbool b => rfl
    | vnum n => rfl
    | vstr s => rfl
    | vdate t => rfl

/-! ### The root invariant of the apply pipeline -/

theorem allNonDollarWf_lookup : ∀ (fs : Fields) {k : String} {v : Val},
    allNonDollarWf fs = true → dollarExempt k = false → fs.lookup k = some v →
    wfVal v = true
  | .nil, k, v, _, _, h => by cases h
  | .cons k2 w tl, k, v, ha, hd, h => by
    unfold Fields.lookup at h
    by_cases he : k2 = k
    · rw [if_pos he] at h
      cases h
      have h1 : (dollarExempt k2 || wfVal w) = true := Bool.and_elim_left ha
      rw [he, hd] at h1
      simpa using h1
    · rw [if_neg he] at h
      exact allNonDollarWf_lookup tl (Bool.and_elim_right ha) hd h

theorem allNonDollarWf_setField : ∀ (fs : Fields) (k : String) (v : Val),
    allNonDollarWf fs = true → (dollarExempt k || wfVal v) = true →
    allNonDollarWf (setField k v fs) = true
  | .nil, k, v, _, hv => by
    show ((dollarExempt k || wfVal v) && allNonDollarWf .nil) = true
    rw [hv]
    rfl
  | .cons k2 w tl, k, v, ha, hv => by
    unfold setField
    by_cases he : k2 = k
    · rw [if_pos he]
      show ((dollarExempt k || wfVal v) && allNonDollarWf tl) = true
      rw [hv, Bool.and_elim_right ha]
      rfl
    · rw [if_neg he]
      show ((dollarExempt k2 || wfVal w) && allNonDollarWf (setField k v tl)) = true
      rw [Bool.and_elim_left ha, allNonDollarWf_setField tl k v (Bool.and_elim_right ha) hv]
      rfl

theorem allNonDollarWf_removeField : ∀ (fs : Fields) (k : String),
    allNonDollarWf fs = true → allNonDollarWf (removeField k fs) = true
  | .nil, _, _ => rfl
  | .cons k2 w tl, k, ha => by
    unfold removeField
    by_cases he : k2 = k
    · rw [if_pos he]
      exact Bool.and_elim_right ha
    · rw [if_neg he]
      show ((dollarExempt k2 || wfVal w) && allNonDollarWf (removeField k tl)) = true
      rw [Bool.and_elim_left ha, allNonDollarWf_removeField tl k (Bool.and_elim_right ha)]
      rfl

theorem rootOk_setVKP (p : KeyPath) (x v : Val) (hr : rootOk x = true)
    (hv : wfVal v = true) (hne : p ≠ []) :
    rootOk (setValueForKeyPath v p x) = true := by
  cases x with
  | vobj fs =>
    have hn : nodupKeys fs = true := Bool.and_elim_left hr
    have ha : allNonDollarWf fs = true := Bool.and_elim_right hr
    cases p with
    | nil => exact absurd rfl hne
    | cons k rest =>
      cases rest with
      | nil =>
        rw [setVKP_obj_single]
        show (nodupKeys (setField k v fs) && allNonDollarWf (setField k v fs)) = true
        rw [nodup_setField fs k v hn,
          allNonDollarWf_setField fs k v ha (by rw [hv]; simp)]
        rfl
      | cons k2 r2 =>
        rw [setVKP_obj_cons]
        have hgv : (dollarExempt k ||
            wfVal (setValueForKeyPath v (k2 :: r2) (containerOr (fs.lookup k)))) = true := by
          by_cases hd : dollarExempt k = true
          · rw [hd]
            rfl
          · have hw : wfVal (setValueForKeyPath v (k2 :: r2) (containerOr (fs.lookup k))) = true := by
              refine wf_setVKP (k2 :: r2) _ v (wf_containerOr ?_) hv
              intro c hc
              exact allNonDollarWf_lookup fs ha (by simpa using hd) hc
            rw [hw]
            simp
        show (nodupKeys (setField k _ fs) && allNonDollarWf (setField k _ fs)) = true
        rw [nodup_setField fs k _ hn, allNonDollarWf_setField fs k _ ha hgv]
        rfl
  | varr xs => cases hr
  | vnull => cases hr
  | vbool b => cases hr
  | vnum n => cases hr
  | vstr s => cases hr
  | vdate t => cases hr

theorem rootOk_unset (r : KeyPath) (x : Val) (hr : rootOk x = true) :
    rootOk (unsetKeyPath r x) = true := by
  cases x with
  | vobj fs =>
    have hn : nodupKeys fs = true := Bool.and_elim_left hr
    have ha : allNonDollarWf fs = true := Bool.and_elim_right hr
    cases r with
    | nil => exact hr
    | cons k rest =>
      cases rest with
      | nil =>
        rw [unsetKP_obj_single]
        show (nodupKeys (removeField k fs) && allNonDollarWf (removeField k fs)) = true
        rw [nodup_removeField fs k hn, allNonDollarWf_removeField fs k ha]
        rfl
      | cons k2 r2 =>
        rw [unsetKP_obj_cons]
        cases hl : fs.lookup k with
        | none => exact hr
        | some c =>
          simp only
          have hgv : (dollarExempt k || wfVal (unsetKeyPath (k2 :: r2) c)) = true := by
            by_cases hd : dollarExempt k = true
            · rw [hd]
              rfl
            · rw [wf_unset (k2 :: r2) c (allNonDollarWf_lookup fs ha (by simpa using hd) hl)]
              simp
          show (nodupKeys (setField k _ fs) && allNonDollarWf (setField k _ fs)) = true
          rw [nodup_setField fs k _ hn, allNonDollarWf_setField fs k _ ha hgv]
          rfl
  | varr xs => cases hr
  | vnull => cases hr
  | vbool b => cases hr
  | vnum n => cases hr
  | vstr s => cases hr
  | vdate t => cases hr

theorem wfFields_of_allNonDollar : ∀ (fs : Fields), allNonDollarWf fs = true →
    fs.lookup "$set" = none → fs.lookup "$unset" = none → wfFields fs = true
  | .nil, _, _, _ => rfl
  | .cons k v tl, ha, hs, hu => by
    unfold Fields.lookup at hs hu
    have hne1 : k ≠ "$set" := by
      intro he
      rw [if_pos he] at hs
      cases hs
    have hne2 : k ≠ "$unset" := by
      intro he
      rw [if_pos he] at hu
      cases hu
    rw [if_neg hne1] at hs
    rw [if_neg hne2] at hu
    have h1 : (dollarExempt k || wfVal v) = true := Bool.and_elim_left ha
    have hd : dollarExempt k = false := by
      unfold dollarExempt
      rw [show (k == "$set") = false by simp [hne1],
        show (k == "$unset") = false by simp [hne2]]
      rfl
    rw [hd] at h1
    show (wfVal v && wfFields tl) = true
    rw [show wfVal v = true by simpa using h1,
      wfFields_of_allNonDollar tl (Bool.and_elim_right ha) hs hu]
    rfl

/-- A `rootOk` document that owns neither literal modifier key is well-formed. -/
theorem rootOk_wf {fs : Fields} (hr : rootOk (.vobj fs) = true)
    (hs : fs.lookup "$set" = none) (hu : fs.lookup "$unset" = none) :
    wfVal (.vobj fs) = true := by
  show (nodupKeys fs && wfFields fs) = true
  rw [Bool.and_elim_left hr,
    wfFields_of_allNonDollar fs (Bool.and_elim_right hr) hs hu]
  rfl

theorem allNonDollarWf_of_wfFields : ∀ (gs : Fields), wfFields gs = true →
    allNonDollarWf gs = true
  | .nil, _ => rfl
  | .cons k v tl, h => by
    show ((dollarExempt k || wfVal v) && allNonDollarWf tl) = true
    rw [Bool.and_elim_left h, allNonDollarWf_of_wfFields tl (Bool.and_elim_right h)]
    simp

theorem rootOk_of_wf {fs : Fields} (hw : wfVal (.vobj fs) = true) :
    rootOk (.vobj fs) = true := by
  show (nodupKeys fs && allNonDollarWf fs) = true
  rw [Bool.and_elim_left hw,
    allNonDollarWf_of_wfFields fs (Bool.and_elim_right hw)]
  rfl

/-! ### Deep equality against observations of reads -/

theorem obs_ne_absent (v : Val) : obs (some v) ≠ .absent := by
  cases v <;> simp [obs]

theorem isSome_of_obs {o : Option Val} (h : obs o ≠ .absent) : o.isSome = true := by
  cases o with
  | none => exact absurd rfl h
  | some v => rfl

theorem obs_of_isEqualOpt (a b : Option Val) (h : isEqualOpt a b = true) : obs a = obs b := by
  cases a with
  | none =>
    cases b with
    | none => rfl
    | some w => cases (show false = true from h)
  | some v =>
    cases b with
    | none => cases (show false = true from h)
    | some w =>
      have h2 : isEqual v w = true := h
      cases v <;> cases w <;>
        first
          | rfl
          | rw [(beqVal_iff _ _).mp h2]

theorem fieldsIncluded_lookup_rel : ∀ (fs gs : Fields), fieldsIncluded fs gs = true →
    ∀ {k : String} {v' : Val}, fs.lookup k = some v' →
    ∃ w', gs.lookup k = some w' ∧ isEqual v' w' = true
  | .nil, gs, _, k, v', h => by cases h
  | .cons k2 w tl, gs, hf, k, v', h => by
    unfold Fields.lookup at h
    by_cases he : k2 = k
    · rw [if_pos he] at h
      cases h
      subst he
      have h1 : (match gs.lookup k2 with
        | some w2 => isEqual w w2
        | none => false) = true := Bool.and_elim_left hf
      cases hg : gs.lookup k2 with
      | none =>
        rw [hg] at h1
        cases (show false = true from h1)
      | some w2 =>
        rw [hg] at h1
        exact ⟨w2, rfl, h1⟩
    · rw [if_neg he] at h
      exact fieldsIncluded_lookup_rel tl gs (Bool.and_elim_right hf) h

theorem keysIncluded_lookup : ∀ (gs fs : Fields), keysIncluded gs fs = true →
    ∀ {k : String} {w' : Val}, gs.lookup k = some w' → (fs.lookup k).isSome = true
  | .nil, fs, _, k, w', h => by cases h
  | .cons k2 w tl, fs, hk, k, w', h => by
    unfold Fields.lookup at h
    by_cases he : k2 = k
    · subst he
      exact Bool.and_elim_left hk
    · rw [if_neg he] at h
      exact keysIncluded_lookup tl fs (Bool.and_elim_right hk) h

theorem isEqualList_get : ∀ (xs ys : ValList), isEqualList xs ys = true → ∀ (i : Nat),
    isEqualOpt (xs.get i) (ys.get i) = true
  | .nil, .nil, _, i => by cases i <;> rfl
  | .nil, .cons y tl, h, _ => by cases (show false = true from h)
  | .cons x tl, .nil, h, _ => by cases (show false = true from h)
  | .cons x xtl, .cons y ytl, h, i => by
    cases i with
    | zero => exact Bool.and_elim_left h
    | succ n => exact isEqualList_get xtl ytl (Bool.and_elim_right h) n

theorem getKey_rel (v w : Val) (h : isEqual v w = true) (k : String) :
    isEqualOpt (getKey k v) (getKey k w) = true := by
  cases v with
  | vobj fs =>
    cases w with
    | vobj gs =>
      have hf : fieldsIncluded fs gs = true := Bool.and_elim_left h
      have hk : keysIncluded gs fs = true := Bool.and_elim_right h
      rw [getKey_obj, getKey_obj]
      cases hl : fs.lookup k with
      | some v' =>
        obtain ⟨w', hw', he⟩ := fieldsIncluded_lookup_rel fs gs hf hl
        rw [hw']
        exact he
      | none =>
        cases hg : gs.lookup k with
        | none => rfl
        | some w' =>
          have h2 := keysIncluded_lookup gs fs hk hg
          rw [hl] at h2
          cases h2
    | varr ys => cases (show false = true from h)
    | vnull => cases (show false = true from h)
    | vbool b => cases (show false = true from h)
    | vnum n => cases (show false = true from h)
    | vstr s => cases (show false = true from h)
    | vdate t => cases (show false = true from h)
  | varr xs =>
    cases w with
    | varr ys =>
      cases hj : jsIndex k with
      | none =>
        rw [getKey_arr_nidx _ hj, getKey_arr_nidx _ hj]
        rfl
      | some i =>
        rw [getKey_arr_idx _ hj, getKey_arr_idx _ hj]
        exact isEqualList_get xs ys (by exact h) i
    | vobj gs => cases (show false = true from h)
    | vnull => cases (show false = true from h)
    | vbool b => cases (show false = true from h)
    | vnum n => cases (show false = true from h)
    | vstr s => cases (show false = true from h)
    | vdate t => cases (show false = true from h)
  | vnull =>
    cases w <;> first | rfl | cases (show false = true from h)
  | vbool b =>
    cases w <;> first | rfl | cases (show false = true from h)
  | vnum n =>
    cases w <;> first | rfl | cases (show false = true from h)
  | vstr s =>
    cases w <;> first | rfl | cases (show false = true from h)
  | vdate t =>
    cases w <;> first | rfl | cases (show false = true from h)

/-- Deep equality propagates to the reads at every keypath. -/
theorem isEqual_read_rel : ∀ (q : KeyPath) (a b : Option Val), isEqualOpt a b = true →
    isEqualOpt (valueForKeyPath q a) (valueForKeyPath q b) = true
  | [], a, b, h => h
  | k :: q2, a, b, h => by
    cases a with
    | none =>
      cases b with
      | none => rfl
      | some w => cases (show false = true from h)
    | some v =>
      cases b with
      | none => cases (show false = true from h)
      | some w =>
        rw [valueForKeyPath_cons, valueForKeyPath_cons]
        exact isEqual_read_rel q2 _ _ (getKey_rel v w h k)

mutual

/-- The bridge: two well-formed values agreeing observationally at every
keypath, with deeply equal array reads, are deeply equal. -/
theorem bridgeVal : ∀ (x y : Val), wfVal x = true → wfVal y = true →
    (∀ q, obs (valueForKeyPath q (some x)) = obs (valueForKeyPath q (some y))) →
    (∀ q xs ys, valueForKeyPath q (some x) = some (.varr xs) →
      valueForKeyPath q (some y) = some (.varr ys) → isEqualList xs ys = true) →
    isEqual x y = true
  | .vnull, y, _, _, ho, _ => by
    have h0 := ho []
    cases y with
    | vnull => rfl
    | vobj gs => cases h0
    | varr ys => cases h0
    | vbool b => cases h0
    | vnum n => cases h0
    | vstr s => cases h0
    | vdate t => cases h0
  | .vbool b1, y, _, _, ho, _ => by
    have h0 := ho []
    cases y with
    | vbool b2 =>
      cases h0
      simp [isEqual, beqVal]
    | vnull => cases h0
    | vobj gs => cases h0
    | varr ys => cases h0
    | vnum n => cases h0
    | vstr s => cases h0
    | vdate t => cases h0
  | .vnum n1, y, _, _, ho, _ => by
    have h0 := ho []
    cases y with
    | vnum n2 =>
      cases h0
      simp [isEqual, beqVal]
    | vnull => cases h0
    | vobj gs => cases h0
    | varr ys => cases h0
    | vbool b => cases h0
    | vstr s => cases h0
    | vdate t => cases h0
  | .vstr s1, y, _, _, ho, _ => by
    have h0 := ho []
    cases y with
    | vstr s2 =>
      cases h0
      simp [isEqual, beqVal]
    | vnull => cases h0
    | vobj gs => cases h0
    | varr ys => cases h0
    | vbool b => cases h0
    | vnum n => cases h0
    | vdate t => cases h0
  | .vdate t1, y, _, _, ho, _ => by
    have h0 := ho []
    cases y with
    | vdate t2 =>
      cases h0
      simp [isEqual, beqVal]
    | vnull => cases h0
    | vobj gs => cases h0
    | varr ys => cases h0
    | vbool b => cases h0
    | vnum n => cases h0
    | vstr s => cases h0
  | .varr xs, y, _, _, ho, ha => by
    have h0 := ho []
    cases y with
    | varr ys =>
      exact ha [] xs ys rfl rfl
    | vnull => cases h0
    | vobj gs => cases h0
    | vbool b => cases h0
    | vnum n => cases h0
    | vstr s => cases h0
    | vdate t => cases h0
  | .vobj fs, y, hwx, hwy, ho, ha => by
    have h0 := ho []
    cases y with
    | vobj gs =>
      show (fieldsIncluded fs gs && keysIncluded gs fs) = true
      have hfi : fieldsIncluded fs gs = true := by
        apply bridgeFields fs gs (Bool.and_elim_right hwx)
        intro k v hm
        have hlk : fs.lookup k = some v := mem_lookup (Bool.and_elim_left hwx) hm
        have hok := ho [k]
        rw [valueForKeyPath_cons, valueForKeyPath_cons, getKey_obj, getKey_obj, hlk] at hok
        cases hg : gs.lookup k with
        | none =>
          rw [hg] at hok
          exact absurd hok (by
            show obs (valueForKeyPath [] (some v)) ≠ obs (valueForKeyPath [] none)
            exact obs_ne_absent v)
        | some w =>
          rw [hg] at hok
          refine ⟨w, rfl, wf_lookup hwy hg, ?_, ?_⟩
          · intro q
            have h2 := ho (k :: q)
            rw [valueForKeyPath_cons, valueForKeyPath_cons, getKey_obj, getKey_obj,
              hlk, hg] at h2
            exact h2
          · intro q vxs vys hx hy
            have h2 := ha (k :: q) vxs vys
            rw [valueForKeyPath_cons, valueForKeyPath_cons, getKey_obj, getKey_obj,
              hlk, hg] at h2
            exact h2 hx hy
      have hki : keysIncluded gs fs = true := by
        apply keysIncluded_of
        intro k w hm
        have hks : (gs.lookup k).isSome = true :=
          keys_lookup_isSome gs (entry_key_mem hm)
        have hok := ho [k]
        rw [valueForKeyPath_cons, valueForKeyPath_cons, getKey_obj, getKey_obj] at hok
        apply isSome_of_obs
        rw [show valueForKeyPath [] (fs.lookup k) = fs.lookup k from rfl] at hok
        rw [show valueForKeyPath [] (gs.lookup k) = gs.lookup k from rfl] at hok
        rw [hok]
        cases hg : gs.lookup k with
        | none =>
          rw [hg] at hks
          cases hks
        | some w2 => exact obs_ne_absent w2
      rw [hfi, hki]
      rfl
    | vnull => cases h0
    | varr ys => cases h0
    | vbool b => cases h0
    | vnum n => cases h0
    | vstr s => cases h0
    | vdate t => cases h0

theorem bridgeFields : ∀ (fs gs : Fields), wfFields fs = true →
    (∀ k v, EntryMem k v fs →
      ∃ w, gs.lookup k = some w ∧ wfVal w = true ∧
        (∀ q, obs (valueForKeyPath q (some v)) = obs (valueForKeyPath q (some w))) ∧
        (∀ q xs ys, valueForKeyPath q (some v) = some (.varr xs) →
          valueForKeyPath q (some w) = some (.varr ys) → isEqualList xs ys = true)) →
    fieldsIncluded fs gs = true
  | .nil, gs, _, _ => rfl
  | .cons k v tl, gs, hw, h => by
    obtain ⟨w, hgw, hww, ho, ha⟩ := h k v (.head tl)
    show ((match gs.lookup k with
      | some w2 => isEqual v w2
      | none => false) && fieldsIncluded tl gs) = true
    rw [hgw]
    show (isEqual v w && fieldsIncluded tl gs) = true
    rw [bridgeVal v w (Bool.and_elim_left hw) hww ho ha,
      bridgeFields tl gs (Bool.and_elim_right hw) (fun k2 v2 hm => h k2 v2 (.tail k v tl hm))]
    rfl

end

/-! ### Pruning is a no-op on documents without empty branches -/

theorem noEmptyChainFields_lookup : ∀ (gs : Fields) {k : String} {w : Val},
    noEmptyChainFields gs = true → gs.lookup k = some w → noEmptyChainVal w = true
  | .nil, k, w, _, h => by cases h
  | .cons k2 v tl, k, w, hn, h => by
    unfold Fields.lookup at h
    by_cases he : k2 = k
    · rw [if_pos he] at h
      cases h
      exact Bool.and_elim_left hn
    · rw [if_neg he] at h
      exact noEmptyChainFields_lookup tl (Bool.and_elim_right hn) h

mutual

theorem noEmptyVal_of_isEqual : ∀ (x y : Val), isEqual x y = true →
    noEmptyChainVal y = true → noEmptyChainVal x = true
  | .vobj fs, y, h, hn => by
    cases y with
    | vobj gs =>
      have hf : fieldsIncluded fs gs = true := Bool.and_elim_left h
      have hk : keysIncluded gs fs = true := Bool.and_elim_right h
      have hne : (!gs.isEmpty) = true := Bool.and_elim_left hn
      have hgf : noEmptyChainFields gs = true := Bool.and_elim_right hn
      show ((!fs.isEmpty) && noEmptyChainFields fs) = true
      have h1 : (!fs.isEmpty) = true := by
        cases gs with
        | nil => cases hne
        | cons k2 w2 gtl =>
          have h2 : (fs.lookup k2).isSome = true := Bool.and_elim_left hk
          cases fs with
          | nil => cases (show false = true from h2)
          | cons k3 v3 ftl => rfl
      rw [h1, noEmptyFields_of_isEqual fs gs hf hgf]
      rfl
    | varr ys => cases (show false = true from h)
    | vnull => cases (show false = true from h)
    | vbool b => cases (show false = true from h)
    | vnum n => cases (show false = true from h)
    | vstr s => cases (show false = true from h)
    | vdate t => cases (show false = true from h)
  | .varr xs, _, _, _ => rfl
  | .vnull, _, _, _ => rfl
  | .vbool b, _, _, _ => rfl
  | .vnum n, _, _, _ => rfl
  | .vstr s, _, _, _ => rfl
  | .vdate t, _, _, _ => rfl

theorem noEmptyFields_of_isEqual : ∀ (fs gs : Fields), fieldsIncluded fs gs = true →
    noEmptyChainFields gs = true → noEmptyChainFields fs = true
  | .nil, gs, _, _ => rfl
  | .cons k v tl, gs, hf, hg => by
    have h1 : (match gs.lookup k with
      | some w2 => isEqual v w2
      | none => false) = true := Bool.and_elim_left hf
    show (noEmptyChainVal v && noEmptyChainFields tl) = true
    cases hlg : gs.lookup k with
    | none =>
      rw [hlg] at h1
      cases (show false = true from h1)
    | some w =>
      rw [hlg] at h1
      have h2 : isEqual v w = true := h1
      rw [noEmptyVal_of_isEqual v w h2 (noEmptyChainFields_lookup gs hg hlg),
        noEmptyFields_of_isEqual tl gs (Bool.and_elim_right hf) hg]
      rfl

end

theorem pruneFields_noop : ∀ (fs : Fields), noEmptyChainFields fs = true →
    pruneFields fs = fs
  | .nil, _ => rfl
  | .cons k v tl, h => by
    have hv : noEmptyChainVal v = true := Bool.and_elim_left h
    have ht := pruneFields_noop tl (Bool.and_elim_right h)
    cases v with
    | vobj gs =>
      have hg1 : (!gs.isEmpty) = true := Bool.and_elim_left hv
      have hg2 : noEmptyChainFields gs = true := Bool.and_elim_right hv
      show (match pruneFields gs with
        | .nil => pruneFields tl
        | pg => .cons k (.vobj pg) (pruneFields tl)) = .cons k (.vobj gs) tl
      rw [pruneFields_noop gs hg2, ht]
      cases gs with
      | nil => cases hg1
      | cons k2 w2 gtl => rfl
    | varr xs =>
      show Fields.cons k (.varr xs) (pruneFields tl) = .cons k (.varr xs) tl
      rw [ht]
    | vnull =>
      show Fields.cons k .vnull (pruneFields tl) = .cons k .vnull tl
      rw [ht]
    | vbool b =>
      show Fields.cons k (.vbool b) (pruneFields tl) = .cons k (.vbool b) tl
      rw [ht]
    | vnum n =>
      show Fields.cons k (.vnum n) (pruneFields tl) = .cons k (.vnum n) tl
      rw [ht]
    | vstr s =>
      show Fields.cons k (.vstr s) (pruneFields tl) = .cons k (.vstr s) tl
      rw [ht]
    | vdate t =>
      show Fields.cons k (.vdate t) (pruneFields tl) = .cons k (.vdate t) tl
      rw [ht]

theorem prune_noop : ∀ (x : Val), noEmptyChain x = true → prune x = x
  | .vobj fs, h => congrArg Val.vobj (pruneFields_noop fs h)
  | .varr xs, _ => rfl
  | .vnull, _ => rfl
  | .vbool b, _ => rfl
  | .vnum n, _ => rfl
  | .vstr s, _ => rfl
  | .vdate t, _ => rfl

/-! ### Characterizing the enumerated keypaths by reads -/

theorem pathIsPrefix_refl : ∀ (p : KeyPath), pathIsPrefix p p = true
  | [] => rfl
  | k :: p => by
    show ((k == k) && pathIsPrefix p p) = true
    rw [pathIsPrefix_refl p]
    simp

theorem pathIsPrefix_append : ∀ (q ext : KeyPath), pathIsPrefix q (q ++ ext) = true
  | [], ext => rfl
  | k :: q, ext => by
    show ((k == k) && pathIsPrefix q (q ++ ext)) = true
    rw [pathIsPrefix_append q ext]
    simp

theorem pathIsPrefix_exists : ∀ (q p : KeyPath), pathIsPrefix q p = true →
    ∃ ext, p = q ++ ext
  | [], p, _ => ⟨p, rfl⟩
  | k :: q, [], h => by cases (show false = true from h)
  | k :: q, k2 :: p, h => by
    have h1 : (k == k2) = true := Bool.and_elim_left h
    obtain ⟨ext, he⟩ := pathIsPrefix_exists q p (Bool.and_elim_right h)
    have hk : k = k2 := by simpa using h1
    subst hk
    exact ⟨ext, by rw [List.cons_append, he]⟩

theorem lookup_cons_self (k : String) (v : Val) (tl : Fields) :
    (Fields.cons k v tl).lookup k = some v := by
  show (if k = k then some v else tl.lookup k) = some v
  rw [if_pos rfl]

theorem lookup_cons_ne {k k2 : String} (hne : k ≠ k2) (v : Val) (tl : Fields) :
    (Fields.cons k v tl).lookup k2 = tl.lookup k2 := by
  show (if k = k2 then some v else tl.lookup k2) = tl.lookup k2
  rw [if_neg hne]

theorem reads_cons_ne {k k2 : String} (hne : k ≠ k2) (v : Val) (tl : Fields) (q : KeyPath) :
    valueForKeyPath (k2 :: q) (some (.vobj (.cons k v tl))) =
      valueForKeyPath (k2 :: q) (some (.vobj tl)) := by
  rw [valueForKeyPath_cons, valueForKeyPath_cons, getKey_obj, getKey_obj,
    lookup_cons_ne hne]

theorem enum_head_mem : ∀ (fs : Fields) (al : Bool) (p : KeyPath),
    p ∈ keyPathsFields al fs → ∃ k' p', p = k' :: p' ∧ k' ∈ fs.keys
  | .nil, al, p, h => by cases h
  | .cons k v tl, al, p, h => by
    unfold keyPathsFields at h
    rcases List.mem_append.mp h with h1 | h1
    · by_cases hb : isBranch v = true
      · rw [if_pos hb] at h1
        rcases List.mem_append.mp h1 with h2 | h2
        · cases al with
          | false => simp at h2
          | true =>
            simp at h2
            exact ⟨k, [], h2, by simp [Fields.keys]⟩
        · rcases List.mem_map.mp h2 with ⟨p', hp', he⟩
          exact ⟨k, p', he.symm, by simp [Fields.keys]⟩
      · rw [if_neg hb] at h1
        simp at h1
        exact ⟨k, [], h1, by simp [Fields.keys]⟩
    · obtain ⟨k', p', he, hm⟩ := enum_head_mem tl al p h1
      exact ⟨k', p', he, by simp [Fields.keys, hm]⟩

mutual

/-- Soundness of the keypath enumeration: an enumerated path reads to a
present value, its proper non-empty prefixes all read to branches, and
without `allLevels` the path itself is a leaf. -/
theorem enum_sound_val : ∀ (X : Val) (al : Bool) (p : KeyPath), wfVal X = true →
    p ∈ keyPathsVal al X →
    (valueForKeyPath p (some X)).isSome = true ∧ p ≠ [] ∧
    (∀ q, pathIsPrefix q p = true → q ≠ [] → q ≠ p →
      branchRead (valueForKeyPath q (some X)) = true) ∧
    (al = false → branchRead (valueForKeyPath p (some X)) = false)
  | .vobj fs, al, p, hw, h => enum_sound_fields fs al p hw h
  | .varr xs, al, p, _, h => by cases h
  | .vnull, al, p, _, h => by cases h
  | .vbool b, al, p, _, h => by cases h
  | .vnum n, al, p, _, h => by cases h
  | .vstr s, al, p, _, h => by cases h
  | .vdate t, al, p, _, h => by cases h

theorem enum_sound_fields : ∀ (fs : Fields) (al : Bool) (p : KeyPath),
    wfVal (.vobj fs) = true → p ∈ keyPathsFields al fs →
    (valueForKeyPath p (some (.vobj fs))).isSome = true ∧ p ≠ [] ∧
    (∀ q, pathIsPrefix q p = true → q ≠ [] → q ≠ p →
      branchRead (valueForKeyPath q (some (.vobj fs))) = true) ∧
    (al = false → branchRead (valueForKeyPath p (some (.vobj fs))) = false)
  | .nil, al, p, _, h => by cases h
  | .cons k v tl, al, p, hw, h => by
    have hnd : nodupKeys (Fields.cons k v tl) = true := Bool.and_elim_left hw
    have hwf : wfFields (Fields.cons k v tl) = true := Bool.and_elim_right hw
    have hwv : wfVal v = true := Bool.and_elim_left hwf
    have hktl : k ∉ tl.keys := by simpa using (Bool.and_elim_left hnd)
    have hwtl : wfVal (.vobj tl) = true := by
      show (nodupKeys tl && wfFields tl) = true
      rw [Bool.and_elim_right hnd, Bool.and_elim_right hwf]
      rfl
    unfold keyPathsFields at h
    have hsingle : (valueForKeyPath [k] (some (.vobj (.cons k v tl)))).isSome = true ∧
        ([k] : KeyPath) ≠ [] ∧
        (∀ q, pathIsPrefix q [k] = true → q ≠ [] → q ≠ [k] →
          branchRead (valueForKeyPath q (some (.vobj (.cons k v tl)))) = true) := by
      refine ⟨?_, by simp, ?_⟩
      · rw [valueForKeyPath_cons, getKey_obj, lookup_cons_self]
        rfl
      · intro q hq hne1 hne2
        cases q with
        | nil => exact absurd rfl hne1
        | cons kq q' =>
          have h1 : (kq == k) = true := Bool.and_elim_left hq
          have h2 : pathIsPrefix q' [] = true := Bool.and_elim_right hq
          cases q' with
          | nil =>
            have : kq = k := by simpa using h1
            subst this
            exact absurd rfl hne2
          | cons k3 q3 => cases (show false = true from h2)
    rcases List.mem_append.mp h with h1 | h1
    · by_cases hb : isBranch v = true
      · rw [if_pos hb] at h1
        rcases List.mem_append.mp h1 with h2 | h2
        · cases al with
          | false => simp at h2
          | true =>
            simp at h2
            subst h2
            exact ⟨hsingle.1, hsingle.2.1, hsingle.2.2, fun hf => by cases hf⟩
        · rcases List.mem_map.mp h2 with ⟨p', hp', he⟩
          subst he
          obtain ⟨hs, hne, hpre, hal⟩ := enum_sound_val v al p' hwv hp'
          have hread : ∀ r, valueForKeyPath (k :: r) (some (.vobj (.cons k v tl))) =
              valueForKeyPath r (some v) := by
            intro r
            rw [valueForKeyPath_cons, getKey_obj, lookup_cons_self]
          refine ⟨by rw [hread]; exact hs, by simp, ?_, fun haf => by rw [hread]; exact hal haf⟩
          intro q hq hne1 hne2
          cases q with
          | nil => exact absurd rfl hne1
          | cons kq q' =>
            have hkq : kq = k := by simpa using (Bool.and_elim_left hq)
            subst hkq
            have hq' : pathIsPrefix q' p' = true := Bool.and_elim_right hq
            cases hq'e : decide (q' = []) with
            | true =>
              have : q' = [] := by simpa using hq'e
              subst this
              rw [hread []]
              show branchRead (some v) = true
              simp [branchRead, hb]
            | false =>
              have hq'ne : q' ≠ [] := by simpa using hq'e
              have hq'ne2 : q' ≠ p' := fun heq => hne2 (by rw [heq])
              rw [hread q']
              exact hpre q' hq' hq'ne hq'ne2
      · rw [if_neg hb] at h1
        simp at h1
        subst h1
        refine ⟨hsingle.1, hsingle.2.1, hsingle.2.2, fun _ => ?_⟩
        rw [valueForKeyPath_cons, getKey_obj, lookup_cons_self]
        show branchRead (some v) = false
        simp [branchRead, hb]
    · obtain ⟨k', p', he, hm⟩ := enum_head_mem tl al p h1
      obtain ⟨hs, hne, hpre, hal⟩ := enum_sound_fields tl al p hwtl h1
      have hkne : k ≠ k' := fun heq => hktl (heq ▸ hm)
      subst he
      refine ⟨by rw [reads_cons_ne hkne]; exact hs, by simp, ?_, ?_⟩
      · intro q hq hne1 hne2
        cases q with
        | nil => exact absurd rfl hne1
        | cons kq q' =>
          have hkq : kq = k' := by simpa using (Bool.and_elim_left hq)
          subst hkq
          rw [reads_cons_ne hkne]
          exact hpre (kq :: q') hq hne1 hne2
      · intro haf
        rw [reads_cons_ne hkne]
        exact hal haf

end

theorem isObjV_of_isBranch : ∀ {v : Val}, isBranch v = true → isObjV v = true
  | .vobj _, _ => rfl

mutual

/-- Completeness of the keypath enumeration: a path reading to a present
value whose proper non-empty prefixes all read to branches is enumerated
(and, if it reads to a non-branch, also in the leaf enumeration). -/
theorem enum_complete_val : ∀ (X : Val) (p : KeyPath), isObjV X = true →
    (valueForKeyPath p (some X)).isSome = true → p ≠ [] →
    (∀ q, pathIsPrefix q p = true → q ≠ [] → q ≠ p →
      branchRead (valueForKeyPath q (some X)) = true) →
    p ∈ keyPathsVal true X ∧
    (branchRead (valueForKeyPath p (some X)) = false → p ∈ keyPathsVal false X)
  | .vobj fs, p, _, hs, hne, hpre => enum_complete_fields fs p hs hne hpre
  | .varr _, _, ho, _, _, _ => by cases (show false = true from ho)
  | .vnull, _, ho, _, _, _ => by cases (show false = true from ho)
  | .vbool _, _, ho, _, _, _ => by cases (show false = true from ho)
  | .vnum _, _, ho, _, _, _ => by cases (show false = true from ho)
  | .vstr _, _, ho, _, _, _ => by cases (show false = true from ho)
  | .vdate _, _, ho, _, _, _ => by cases (show false = true from ho)

theorem enum_complete_fields : ∀ (fs : Fields) (p : KeyPath),
    (valueForKeyPath p (some (.vobj fs))).isSome = true → p ≠ [] →
    (∀ q, pathIsPrefix q p = true → q ≠ [] → q ≠ p →
      branchRead (valueForKeyPath q (some (.vobj fs))) = true) →
    p ∈ keyPathsFields true fs ∧
    (branchRead (valueForKeyPath p (some (.vobj fs))) = false → p ∈ keyPathsFields false fs)
  | .nil, p, hs, hne, _ => by
    cases p with
    | nil => exact absurd rfl hne
    | cons k p' =>
      rw [valueForKeyPath_cons, getKey_obj] at hs
      rw [show Fields.nil.lookup k = none from rfl, valueForKeyPath_none] at hs
      cases hs
  | .cons k v tl, p, hs, hne, hpre => by
    cases p with
    | nil => exact absurd rfl hne
    | cons kp p' =>
      by_cases hk : k = kp
      · subst hk
        have hread : ∀ r, valueForKeyPath (k :: r) (some (.vobj (.cons k v tl))) =
            valueForKeyPath r (some v) := by
          intro r
          rw [valueForKeyPath_cons, getKey_obj, lookup_cons_self]
        cases hpe : decide (p' = []) with
        | true =>
          have : p' = [] := by simpa using hpe
          subst this
          constructor
          · unfold keyPathsFields
            apply List.mem_append_left
            by_cases hb : isBranch v = true
            · rw [if_pos hb]
              apply List.mem_append_left
              simp
            · rw [if_neg hb]
              simp
          · intro hbf
            rw [hread []] at hbf
            have hb : isBranch v = false := hbf
            unfold keyPathsFields
            apply List.mem_append_left
            rw [if_neg (by rw [hb]; exact fun h => by cases h)]
            simp
        | false =>
          have hpne : p' ≠ [] := by simpa using hpe
          have hb : isBranch v = true := by
            have := hpre [k] (by simp [pathIsPrefix]) (by simp)
              (fun h => hpne (((List.cons.injEq k [] k p').mp h).2.symm))
            rw [hread []] at this
            exact this
          have hs' : (valueForKeyPath p' (some v)).isSome = true := by
            rw [hread p'] at hs; exact hs
          have hpre' : ∀ q, pathIsPrefix q p' = true → q ≠ [] → q ≠ p' →
              branchRead (valueForKeyPath q (some v)) = true := by
            intro q hq hq1 hq2
            have := hpre (k :: q)
              (show ((k == k) && pathIsPrefix q p') = true by rw [hq]; simp)
              (by simp) (fun h => hq2 (((List.cons.injEq k q k p').mp h).2))
            rw [hread q] at this
            exact this
          obtain ⟨hm, hmf⟩ := enum_complete_val v p' (isObjV_of_isBranch hb) hs' hpne hpre'
          constructor
          · unfold keyPathsFields
            apply List.mem_append_left
            rw [if_pos hb]
            apply List.mem_append_right
            exact List.mem_map.mpr ⟨p', hm, rfl⟩
          · intro hbf
            rw [hread p'] at hbf
            unfold keyPathsFields
            apply List.mem_append_left
            rw [if_pos hb]
            apply List.mem_append_right
            exact List.mem_map.mpr ⟨p', hmf hbf, rfl⟩
      · have hs' : (valueForKeyPath (kp :: p') (some (.vobj tl))).isSome = true := by
          rw [← reads_cons_ne hk]; exact hs
        have hpre' : ∀ q, pathIsPrefix q (kp :: p') = true → q ≠ [] → q ≠ kp :: p' →
            branchRead (valueForKeyPath q (some (.vobj tl))) = true := by
          intro q hq hq1 hq2
          cases q with
          | nil => exact absurd rfl hq1
          | cons kq q' =>
            have hkq : kq = kp := by simpa using (Bool.and_elim_left hq)
            subst hkq
            rw [← reads_cons_ne hk]
            exact hpre (kq :: q') hq hq1 hq2
        obtain ⟨hm, hmf⟩ := enum_complete_fields tl (kp :: p') hs' hne hpre'
        constructor
        · unfold keyPathsFields
          exact List.mem_append_right _ hm
        · intro hbf
          rw [reads_cons_ne hk] at hbf
          unfold keyPathsFields
          exact List.mem_append_right _ (hmf hbf)

end

mutual

/-- The enumerated keypaths of a well-formed value are duplicate-free. -/
theorem enum_nodup_val : ∀ (X : Val) (al : Bool), wfVal X = true →
    (keyPathsVal al X).Nodup
  | .vobj fs, al, hw => enum_nodup_fields fs al hw
  | .varr _, _, _ => List.nodup_nil
  | .vnull, _, _ => List.nodup_nil
  | .vbool _, _, _ => List.nodup_nil
  | .vnum _, _, _ => List.nodup_nil
  | .vstr _, _, _ => List.nodup_nil
  | .vdate _, _, _ => List.nodup_nil

theorem enum_nodup_fields : ∀ (fs : Fields) (al : Bool), wfVal (.vobj fs) = true →
    (keyPathsFields al fs).Nodup
  | .nil, _, _ => List.nodup_nil
  | .cons k v tl, al, hw => by
    have hnd : nodupKeys (Fields.cons k v tl) = true := Bool.and_elim_left hw
    have hwf : wfFields (Fields.cons k v tl) = true := Bool.and_elim_right hw
    have hwv : wfVal v = true := Bool.and_elim_left hwf
    have hktl : k ∉ tl.keys := by simpa using (Bool.and_elim_left hnd)
    have hwtl : wfVal (.vobj tl) = true := by
      show (nodupKeys tl && wfFields tl) = true
      rw [Bool.and_elim_right hnd, Bool.and_elim_right hwf]
      rfl
    have ihtl := enum_nodup_fields tl al hwtl
    have ihv := enum_nodup_val v al hwv
    have hmapinj : Function.Injective (fun p : KeyPath => k :: p) := by
      intro a b h
      exact ((List.cons.injEq k a k b).mp h).2
    unfold keyPathsFields
    apply List.Nodup.append
    · by_cases hb : isBranch v = true
      · rw [if_pos hb]
        apply List.Nodup.append
        · cases al <;> simp
        · exact ihv.map hmapinj
        · intro a h1 h2
          have ha : a = [k] := by
            cases al with
            | true => simpa using h1
            | false => simp at h1
          rcases List.mem_map.mp h2 with ⟨p', hp', he⟩
          obtain ⟨_, hpne, _, _⟩ := enum_sound_val v al p' hwv hp'
          apply hpne
          have : k :: p' = [k] := by rw [he, ha]
          exact ((List.cons.injEq k p' k []).mp this).2
      · rw [if_neg hb]
        simp
    · exact ihtl
    · intro a h1 h2
      obtain ⟨k', p', he, hm⟩ := enum_head_mem tl al a h2
      have hka : ∃ r, a = k :: r := by
        by_cases hb : isBranch v = true
        · rw [if_pos hb] at h1
          rcases List.mem_append.mp h1 with h3 | h3
          · cases al with
            | true => exact ⟨[], by simpa using h3⟩
            | false => simp at h3
          · rcases List.mem_map.mp h3 with ⟨p2, _, he2⟩
            exact ⟨p2, he2.symm⟩
        · rw [if_neg hb] at h1
          exact ⟨[], by simpa using h1⟩
      obtain ⟨r, hr⟩ := hka
      rw [hr] at he
      have : k = k' := ((List.cons.injEq k r k' p').mp he).1
      exact hktl (this ▸ hm)

end

/-- Every non-empty object contains at least one leaf keypath. -/
theorem enum_false_nonempty : ∀ (v : Val), isBranch v = true →
    ∃ p, p ∈ keyPathsVal false v
  | .vobj (.cons k w tl), _ => by
    by_cases hb : isBranch w = true
    · obtain ⟨p, hp⟩ := enum_false_nonempty w hb
      refine ⟨k :: p, ?_⟩
      show k :: p ∈ keyPathsFields false (.cons k w tl)
      unfold keyPathsFields
      apply List.mem_append_left
      rw [if_pos hb]
      apply List.mem_append_right
      exact List.mem_map.mpr ⟨p, hp, rfl⟩
    · refine ⟨[k], ?_⟩
      show [k] ∈ keyPathsFields false (.cons k w tl)
      unfold keyPathsFields
      apply List.mem_append_left
      rw [if_neg hb]
      simp

/-! ### Object-spine walks of the write loop -/

theorem objWalk_writable : ∀ (p : KeyPath) (d : Val), objWalk p d = true →
    pathWritable p d = true
  | [], _, h => by cases (show false = true from h)
  | [_], d, h => by
    cases d with
    | vobj fs => rfl
    | varr xs => cases (show false = true from h)
    | vnull => cases (show false = true from h)
    | vbool b => cases (show false = true from h)
    | vnum n => cases (show false = true from h)
    | vstr s => cases (show false = true from h)
    | vdate t => cases (show false = true from h)
  | k :: k2 :: rest, d, h => by
    cases d with
    | vobj fs =>
      show pathWritable (k2 :: rest) (containerOr (fs.lookup k)) = true
      exact objWalk_writable (k2 :: rest) (containerOr (fs.lookup k)) h
    | varr xs => cases (show false = true from h)
    | vnull => cases (show false = true from h)
    | vbool b => cases (show false = true from h)
    | vnum n => cases (show false = true from h)
    | vstr s => cases (show false = true from h)
    | vdate t => cases (show false = true from h)

theorem objWalk_fresh : ∀ (p : KeyPath), p ≠ [] → objWalk p (.vobj .nil) = true
  | [], h => absurd rfl h
  | [_], _ => rfl
  | k :: k2 :: rest, _ => by
    show objWalk (k2 :: rest) (containerOr (Fields.nil.lookup k)) = true
    exact objWalk_fresh (k2 :: rest) (by simp)

theorem container_of_read_obs : ∀ (r : KeyPath) (c : Val),
    obs (valueForKeyPath r (some c)) = .oobj → isContainer c = true
  | [], c, h => by
    cases c with
    | vobj fs => rfl
    | varr xs => cases (show Obs.oarr = Obs.oobj from h)
    | vnull => cases (show Obs.oscal .vnull = Obs.oobj from h)
    | vbool b => cases (show Obs.oscal (.vbool b) = Obs.oobj from h)
    | vnum n => cases (show Obs.oscal (.vnum n) = Obs.oobj from h)
    | vstr s => cases (show Obs.oscal (.vstr s) = Obs.oobj from h)
    | vdate t => cases (show Obs.oscal (.vdate t) = Obs.oobj from h)
  | a :: r, c, h => by
    cases c with
    | vobj fs => rfl
    | varr xs => rfl
    | vnull =>
      rw [valueForKeyPath_cons, show getKey a Val.vnull = none from rfl,
        valueForKeyPath_none] at h
      cases (show Obs.absent = Obs.oobj from h)
    | vbool b =>
      rw [valueForKeyPath_cons, show getKey a (Val.vbool b) = none from rfl,
        valueForKeyPath_none] at h
      cases (show Obs.absent = Obs.oobj from h)
    | vnum n =>
      rw [valueForKeyPath_cons, show getKey a (Val.vnum n) = none from rfl,
        valueForKeyPath_none] at h
      cases (show Obs.absent = Obs.oobj from h)
    | vstr s =>
      rw [valueForKeyPath_cons, show getKey a (Val.vstr s) = none from rfl,
        valueForKeyPath_none] at h
      cases (show Obs.absent = Obs.oobj from h)
    | vdate t =>
      rw [valueForKeyPath_cons, show getKey a (Val.vdate t) = none from rfl,
        valueForKeyPath_none] at h
      cases (show Obs.absent = Obs.oobj from h)

theorem objWalk_of_reads : ∀ (p : KeyPath) (d : Val), p ≠ [] → isObjV d = true →
    (∀ r, pathIsPrefix r p = true → r ≠ [] → r ≠ p →
      arrRead (valueForKeyPath r (some d)) = false) →
    objWalk p d = true
  | [], _, h, _, _ => absurd rfl h
  | [_], d, _, ho, _ => by
    cases d with
    | vobj fs => rfl
    | varr xs => cases (show false = true from ho)
    | vnull => cases (show false = true from ho)
    | vbool b => cases (show false = true from ho)
    | vnum n => cases (show false = true from ho)
    | vstr s => cases (show false = true from ho)
    | vdate t => cases (show false = true from ho)
  | k :: k2 :: rest, d, _, ho, hpre => by
    cases d with
    | vobj fs =>
      show objWalk (k2 :: rest) (containerOr (fs.lookup k)) = true
      cases hl : fs.lookup k with
      | none => exact objWalk_fresh (k2 :: rest) (by simp)
      | some c =>
        cases c with
        | vobj gs =>
          rw [show containerOr (some (Val.vobj gs)) = Val.vobj gs from rfl]
          apply objWalk_of_reads (k2 :: rest) (.vobj gs) (by simp) rfl
          intro r hr hne1 hne2
          have := hpre (k :: r)
            (show ((k == k) && pathIsPrefix r (k2 :: rest)) = true by rw [hr]; simp)
            (by simp)
            (fun hx => hne2 (((List.cons.injEq k r k (k2 :: rest)).mp hx).2))
          rw [valueForKeyPath_cons, getKey_obj, hl] at this
          exact this
        | varr xs =>
          have := hpre [k] (by simp [pathIsPrefix]) (by simp)
            (fun hx => List.noConfusion (((List.cons.injEq k [] k (k2 :: rest)).mp hx).2))
          rw [valueForKeyPath_cons, getKey_obj, hl] at this
          cases (show true = false from this)
        | vnull => exact objWalk_fresh (k2 :: rest) (by simp)
        | vbool b => exact objWalk_fresh (k2 :: rest) (by simp)
        | vnum n => exact objWalk_fresh (k2 :: rest) (by simp)
        | vstr s => exact objWalk_fresh (k2 :: rest) (by simp)
        | vdate t => exact objWalk_fresh (k2 :: rest) (by simp)
    | varr xs => cases (show false = true from ho)
    | vnull => cases (show false = true from ho)
    | vbool b => cases (show false = true from ho)
    | vnum n => cases (show false = true from ho)
    | vstr s => cases (show false = true from ho)
    | vdate t => cases (show false = true from ho)

/-- A guarded keypath write leaves a plain object at every strict prefix of
the written path when the walk stays on object nodes. -/
theorem set_prefix_obj : ∀ (p q : KeyPath) (v d : Val), objWalk p d = true →
    pathIsPrefix q p = true → q ≠ p →
    obs (valueForKeyPath q (some (setValueForKeyPath v p d))) = .oobj
  | [], _, _, _, hw, _, _ => by cases (show false = true from hw)
  | k :: p', [], v, d, hw, _, _ => by
    cases d with
    | vobj fs =>
      obtain ⟨gs, hg⟩ := setVKP_obj_shape (k :: p') v fs
      rw [hg]
      rfl
    | varr xs =>
      cases p' with
      | nil => cases (show false = true from hw)
      | cons a b => cases (show false = true from hw)
    | vnull =>
      cases p' with
      | nil => cases (show false = true from hw)
      | cons a b => cases (show false = true from hw)
    | vbool bb =>
      cases p' with
      | nil => cases (show false = true from hw)
      | cons a b => cases (show false = true from hw)
    | vnum n =>
      cases p' with
      | nil => cases (show false = true from hw)
      | cons a b => cases (show false = true from hw)
    | vstr s =>
      cases p' with
      | nil => cases (show false = true from hw)
      | cons a b => cases (show false = true from hw)
    | vdate t =>
      cases p' with
      | nil => cases (show false = true from hw)
      | cons a b => cases (show false = true from hw)
  | k :: p'', kq :: q', v, d, hw, hq, hne => by
    have hk : kq = k := by simpa using (Bool.and_elim_left hq)
    subst hk
    cases p'' with
    | nil =>
      have h2 : pathIsPrefix q' [] = true := Bool.and_elim_right hq
      cases q' with
      | nil => exact absurd rfl hne
      | cons a b => cases (show false = true from h2)
    | cons k2 rest =>
      cases d with
      | vobj fs =>
        rw [setVKP_obj_cons, valueForKeyPath_cons, getKey_obj, lookup_setField_same]
        exact set_prefix_obj (k2 :: rest) q' v (containerOr (fs.lookup kq)) hw
          (Bool.and_elim_right hq) (fun hx => hne (by rw [hx]))
      | varr xs => cases (show false = true from hw)
      | vnull => cases (show false = true from hw)
      | vbool bb => cases (show false = true from hw)
      | vnum n => cases (show false = true from hw)
      | vstr s => cases (show false = true from hw)
      | vdate t => cases (show false = true from hw)

/-- A guarded keypath write preserves an object observation at any path the
written path does not prefix. -/
theorem set_obs_oobj_pres : ∀ (p r : KeyPath) (v x : Val), pathWritable p x = true →
    pathIsPrefix p r = false →
    obs (valueForKeyPath r (some x)) = .oobj →
    obs (valueForKeyPath r (some (setValueForKeyPath v p x))) = .oobj
  | [], _, _, _, hw, _, _ => by cases (show false = true from hw)
  | k :: p', [], v, x, _, _, h => by
    cases x with
    | vobj fs =>
      obtain ⟨gs, hg⟩ := setVKP_obj_shape (k :: p') v fs
      rw [hg]
      rfl
    | varr xs => cases (show Obs.oarr = Obs.oobj from h)
    | vnull => cases (show Obs.oscal .vnull = Obs.oobj from h)
    | vbool b => cases (show Obs.oscal (.vbool b) = Obs.oobj from h)
    | vnum n => cases (show Obs.oscal (.vnum n) = Obs.oobj from h)
    | vstr s => cases (show Obs.oscal (.vstr s) = Obs.oobj from h)
    | vdate t => cases (show Obs.oscal (.vdate t) = Obs.oobj from h)
  | k :: p', kr :: r', v, x, hw, hpf, h => by
    by_cases hk : k = kr
    · subst hk
      have hpf' : pathIsPrefix p' r' = false := by
        have hpf2 : ((k == k) && pathIsPrefix p' r') = false := hpf
        simpa using hpf2
      cases p' with
      | nil => cases (show true = false from hpf')
      | cons k2 rest =>
        cases x with
        | vobj fs =>
          rw [valueForKeyPath_cons, getKey_obj] at h
          cases hl : fs.lookup k with
          | none =>
            rw [hl, valueForKeyPath_none] at h
            cases (show Obs.absent = Obs.oobj from h)
          | some c =>
            rw [hl] at h
            have hcont := container_of_read_obs r' c h
            have hw' : pathWritable (k2 :: rest) c = true := by
              have hw2 : pathWritable (k2 :: rest) (containerOr (fs.lookup k)) = true := hw
              rw [hl, containerOr_of_container hcont] at hw2
              exact hw2
            rw [setVKP_obj_cons, valueForKeyPath_cons, getKey_obj, lookup_setField_same,
              hl, containerOr_of_container hcont]
            exact set_obs_oobj_pres (k2 :: rest) r' v c hw' hpf' h
        | varr xs =>
          cases hj : jsIndex k with
          | none => simp [pathWritable, hj] at hw
          | some i =>
            cases hgi : xs.get i with
            | none => simp [pathWritable, hj, hgi] at hw
            | some c =>
              rw [valueForKeyPath_cons, getKey_arr_idx xs hj, hgi] at h
              have hcont := container_of_read_obs r' c h
              have hw' : pathWritable (k2 :: rest) c = true := by
                have hw2 : pathWritable (k :: k2 :: rest) (.varr xs) = true := hw
                simp only [pathWritable, hj, hgi] at hw2
                rw [containerOr_of_container hcont] at hw2
                exact hw2
              rw [setVKP_arr_cons_idx v k2 rest xs hj, valueForKeyPath_cons,
                getKey_arr_idx _ hj, get_setIdx_same xs i _ (get_some_lt hgi), hgi,
                containerOr_of_container hcont]
              exact set_obs_oobj_pres (k2 :: rest) r' v c hw' hpf' h
        | vnull => cases (show false = true from hw)
        | vbool b => cases (show false = true from hw)
        | vnum n => cases (show false = true from hw)
        | vstr s => cases (show false = true from hw)
        | vdate t => cases (show false = true from hw)
    · have hu : pathUnrelated (k :: p') (kr :: r') = true := by
        show (!pathIsPrefix (k :: p') (kr :: r') && !pathIsPrefix (kr :: r') (k :: p')) = true
        have h2 : pathIsPrefix (kr :: r') (k :: p') = false := by
          show ((kr == k) && pathIsPrefix r' p') = false
          rw [show (kr == k) = false by rw [beq_eq_false_iff_ne]; exact fun hx => hk hx.symm]
          rfl
        rw [hpf, h2]
        rfl
      rw [get_set_unrelated (k :: p') (kr :: r') x v hw hu]
      exact h

theorem objWalk_obj : ∀ (p : KeyPath) (d : Val), objWalk p d = true → p ≠ [] →
    isObjV d = true
  | [], _, _, hne => absurd rfl hne
  | [_], _, h, _ => h
  | _ :: _ :: _, d, h, _ => by
    cases d with
    | vobj fs => rfl
    | varr xs => cases (show false = true from h)
    | vnull => cases (show false = true from h)
    | vbool b => cases (show false = true from h)
    | vnum n => cases (show false = true from h)
    | vstr s => cases (show false = true from h)
    | vdate t => cases (show false = true from h)

/-- A write at an unrelated path keeps a walk on object nodes. -/
theorem objWalk_set_preserved : ∀ (q p : KeyPath) (d v : Val),
    pathWritable q d = true → objWalk p d = true → pathUnrelated q p = true →
    objWalk p (setValueForKeyPath v q d) = true
  | [], _, _, _, hq, _, _ => by cases (show false = true from hq)
  | _, [], _, _, _, hp, _ => by cases (show false = true from hp)
  | [k], kp :: p2, d, v, hq, hp, hu => by
    have hne : k ≠ kp := by
      intro he
      subst he
      cases p2 with
      | nil => simp [pathUnrelated, pathIsPrefix] at hu
      | cons a b => simp [pathUnrelated, pathIsPrefix] at hu
    have hd := objWalk_obj (kp :: p2) d hp (by simp)
    cases d with
    | vobj fs =>
      rw [setVKP_obj_single]
      cases p2 with
      | nil => rfl
      | cons kp2 p3 =>
        have hp2 : objWalk (kp2 :: p3) (containerOr (fs.lookup kp)) = true := hp
        show objWalk (kp2 :: p3) (containerOr ((setField k v fs).lookup kp)) = true
        rw [lookup_setField_other fs k kp v hne.symm]
        exact hp2
    | varr xs => cases (show false = true from hd)
    | vnull => cases (show false = true from hd)
    | vbool b => cases (show false = true from hd)
    | vnum n => cases (show false = true from hd)
    | vstr s => cases (show false = true from hd)
    | vdate t => cases (show false = true from hd)
  | k :: k2 :: rest, kp :: p2, d, v, hq, hp, hu => by
    have hd := objWalk_obj (kp :: p2) d hp (by simp)
    cases d with
    | vobj fs =>
      by_cases he : k = kp
      · subst he
        cases p2 with
        | nil => simp [pathUnrelated, pathIsPrefix] at hu
        | cons kp2 p3 =>
          have hu2 : pathUnrelated (k2 :: rest) (kp2 :: p3) = true := pathUnrelated_tail hu
          rw [setVKP_obj_cons]
          have hq2 : pathWritable (k2 :: rest) (containerOr (fs.lookup k)) = true := hq
          have hp2 : objWalk (kp2 :: p3) (containerOr (fs.lookup k)) = true := hp
          show objWalk (kp2 :: p3) (containerOr ((setField k
            (setValueForKeyPath v (k2 :: rest) (containerOr (fs.lookup k))) fs).lookup k)) = true
          rw [lookup_setField_same]
          rw [containerOr_of_container (setVKP_container _ v (containerOr_isContainer _))]
          exact objWalk_set_preserved (k2 :: rest) (kp2 :: p3) _ v hq2 hp2 hu2
      · rw [setVKP_obj_cons]
        cases p2 with
        | nil => rfl
        | cons kp2 p3 =>
          have hp2 : objWalk (kp2 :: p3) (containerOr (fs.lookup kp)) = true := hp
          show objWalk (kp2 :: p3) (containerOr ((setField k
            (setValueForKeyPath v (k2 :: rest) (containerOr (fs.lookup k))) fs).lookup kp)) = true
          rw [lookup_setField_other fs k kp _ (fun hx => he hx.symm)]
          exact hp2
    | varr xs => cases (show false = true from hd)
    | vnull => cases (show false = true from hd)
    | vbool b => cases (show false = true from hd)
    | vnum n => cases (show false = true from hd)
    | vstr s => cases (show false = true from hd)
    | vdate t => cases (show false = true from hd)

theorem pathIsPrefix_trans : ∀ (p q r : KeyPath), pathIsPrefix p q = true →
    pathIsPrefix q r = true → pathIsPrefix p r = true
  | [], _, _, _, _ => rfl
  | _ :: _, [], _, h1, _ => by cases (show false = true from h1)
  | k :: p', kq :: q', [], _, h2 => by cases (show false = true from h2)
  | k :: p', kq :: q', kr :: r', h1, h2 => by
    have e1 : k = kq := by simpa using (Bool.and_elim_left h1)
    have e2 : kq = kr := by simpa using (Bool.and_elim_left h2)
    show ((k == kr) && pathIsPrefix p' r') = true
    rw [pathIsPrefix_trans p' q' r' (Bool.and_elim_right h1) (Bool.and_elim_right h2),
      show (k == kr) = true by rw [e1, e2]; simp]
    rfl

/-- The flat `$set` loop preserves an object observation at any path none of
the written paths prefixes. -/
theorem sfold_obs_oobj_pres : ∀ (s : List (KeyPath × Val)) (x : Val) (r : KeyPath),
    (∀ e ∈ s, pathWritable e.1 x = true) → pairwiseUnrelated s = true →
    (∀ e ∈ s, pathIsPrefix e.1 r = false) →
    obs (valueForKeyPath r (some x)) = .oobj →
    obs (valueForKeyPath r (some (dollarSetFlat x s))) = .oobj
  | [], _, _, _, _, _, h => h
  | e :: tl, x, r, hw, hpw, hpre, h => by
    rw [dollarSetFlat_cons]
    by_cases hg : guardSet e.2 = true
    · rw [if_pos hg]
      apply sfold_obs_oobj_pres tl _ r
      · intro e2 hm
        exact pathWritable_set_preserved e.1 e2.1 x e.2 (hw e (by simp))
          (hw e2 (by simp [hm])) (pairwiseUnrelated_head hpw e2 hm)
      · exact pairwiseUnrelated_tail hpw
      · intro e2 hm
        exact hpre e2 (by simp [hm])
      · exact set_obs_oobj_pres e.1 r e.2 x (hw e (by simp)) (hpre e (by simp)) h
    · rw [if_neg hg]
      exact sfold_obs_oobj_pres tl x r (fun e2 hm => hw e2 (by simp [hm]))
        (pairwiseUnrelated_tail hpw) (fun e2 hm => hpre e2 (by simp [hm])) h

/-- After the flat `$set` loop, a strict prefix of a written (guard-passing)
path reads as a plain object. -/
theorem sfold_prefix_obj : ∀ (s : List (KeyPath × Val)) (x : Val) (q : KeyPath),
    (∀ e ∈ s, pathWritable e.1 x = true) → (∀ e ∈ s, objWalk e.1 x = true) →
    pairwiseUnrelated s = true →
    (∃ e, e ∈ s ∧ pathIsPrefix q e.1 = true ∧ q ≠ e.1 ∧ guardSet e.2 = true) →
    obs (valueForKeyPath q (some (dollarSetFlat x s))) = .oobj
  | [], _, _, _, _, _, hex => by
    rcases hex with ⟨e, he, _⟩
    cases he
  | e :: tl, x, q, hw, how, hpw, hex => by
    rw [dollarSetFlat_cons]
    rcases hex with ⟨e0, he0, hq0, hne0, hg0⟩
    rcases List.mem_cons.mp he0 with h1 | h1
    · subst h1
      rw [if_pos hg0]
      apply sfold_obs_oobj_pres tl _ q
      · intro e2 hm
        exact pathWritable_set_preserved e0.1 e2.1 x e0.2 (hw e0 (by simp))
          (hw e2 (by simp [hm])) (pairwiseUnrelated_head hpw e2 hm)
      · exact pairwiseUnrelated_tail hpw
      · intro e2 hm
        cases hc : pathIsPrefix e2.1 q with
        | false => rfl
        | true =>
          have htr := pathIsPrefix_trans e2.1 q e0.1 hc hq0
          have hunrel := pairwiseUnrelated_head hpw e2 hm
          have : pathIsPrefix e2.1 e0.1 = false := by
            have h2 : (!pathIsPrefix e2.1 e0.1) = true := by
              have := Bool.and_elim_right (show (!pathIsPrefix e0.1 e2.1 &&
                !pathIsPrefix e2.1 e0.1) = true from hunrel)
              exact this
            simpa using h2
          rw [htr] at this
          cases this
      · exact set_prefix_obj e0.1 q e0.2 x (how e0 (by simp)) hq0 hne0
    · by_cases hg : guardSet e.2 = true
      · rw [if_pos hg]
        apply sfold_prefix_obj tl _ q
        · intro e2 hm
          exact pathWritable_set_preserved e.1 e2.1 x e.2 (hw e (by simp))
            (hw e2 (by simp [hm])) (pairwiseUnrelated_head hpw e2 hm)
        · intro e2 hm
          exact objWalk_set_preserved e.1 e2.1 x e.2 (hw e (by simp))
            (how e2 (by simp [hm])) (pairwiseUnrelated_head hpw e2 hm)
        · exact pairwiseUnrelated_tail hpw
        · exact ⟨e0, h1, hq0, hne0, hg0⟩
      · rw [if_neg hg]
        exact sfold_prefix_obj tl x q (fun e2 hm => hw e2 (by simp [hm]))
          (fun e2 hm => how e2 (by simp [hm])) (pairwiseUnrelated_tail hpw)
          ⟨e0, h1, hq0, hne0, hg0⟩

/-- The flat `$set` loop preserves the root invariant. -/
theorem sfold_rootOk : ∀ (s : List (KeyPath × Val)) (x : Val), rootOk x = true →
    (∀ e ∈ s, e.1 ≠ [] ∧ wfVal e.2 = true) → rootOk (dollarSetFlat x s) = true
  | [], _, hr, _ => hr
  | e :: tl, x, hr, hs => by
    rw [dollarSetFlat_cons]
    by_cases hg : guardSet e.2 = true
    · rw [if_pos hg]
      exact sfold_rootOk tl _
        (rootOk_setVKP e.1 x e.2 hr (hs e (by simp)).2 (hs e (by simp)).1)
        (fun e2 hm => hs e2 (by simp [hm]))
    · rw [if_neg hg]
      exact sfold_rootOk tl x hr (fun e2 hm => hs e2 (by simp [hm]))

/-! ### The flat removal loop of dollarUnset -/

theorem dollarUnsetFlat_cons (x : Val) (e : KeyPath × Option Val)
    (tl : List (KeyPath × Option Val)) :
    dollarUnsetFlat x (e :: tl) = dollarUnsetFlat (unsetKeyPath e.1 x) tl := rfl

theorem pnSafe_ne_nil {p : KeyPath} (h : pnSafe p = true) : p ≠ [] := by
  intro he
  subst he
  cases (show false = true from h)

theorem parentNodup_of_rootOk : ∀ (p : KeyPath) (x : Val), pnSafe p = true →
    rootOk x = true → parentNodup p x = true
  | [], _, hs, _ => by cases (show false = true from hs)
  | [_], x, _, hr => by
    cases x with
    | vobj fs => exact Bool.and_elim_left hr
    | varr xs => rfl
    | vnull => rfl
    | vbool b => rfl
    | vnum n => rfl
    | vstr s => rfl
    | vdate t => rfl
  | k :: k2 :: rest, x, hs, hr => by
    have hd : dollarExempt k = false := by
      have hs2 : (!dollarExempt k) = true := hs
      simpa using hs2
    cases x with
    | vobj fs =>
      cases hl : fs.lookup k with
      | none => simp [parentNodup, hl]
      | some c =>
        have hwc : wfVal c = true :=
          allNonDollarWf_lookup fs (Bool.and_elim_right hr) hd hl
        simp only [parentNodup, hl]
        exact parentNodup_of_wf (k2 :: rest) c hwc
    | varr xs => cases (show false = true from hr)
    | vnull => cases (show false = true from hr)
    | vbool b => cases (show false = true from hr)
    | vnum n => cases (show false = true from hr)
    | vstr s => cases (show false = true from hr)
    | vdate t => cases (show false = true from hr)

theorem pairwiseK_head {p : KeyPath} {l : List KeyPath}
    (h : pairwiseUnrelatedK (p :: l) = true) :
    ∀ p2 ∈ l, pathUnrelated p p2 = true := by
  have h2 : (l.all (fun p2 => pathUnrelated p p2)) = true := Bool.and_elim_left h
  exact fun p2 hp2 => List.all_eq_true.mp h2 p2 hp2

theorem pairwiseK_tail {p : KeyPath} {l : List KeyPath}
    (h : pairwiseUnrelatedK (p :: l) = true) : pairwiseUnrelatedK l = true :=
  Bool.and_elim_right h

theorem uflat_rootOk : ∀ (us : List (KeyPath × Option Val)) (x : Val),
    rootOk x = true → rootOk (dollarUnsetFlat x us) = true
  | [], _, hr => hr
  | e :: tl, x, hr => by
    rw [dollarUnsetFlat_cons]
    exact uflat_rootOk tl _ (rootOk_unset e.1 x hr)

/-- The flat removal loop never resurrects an absent path. -/
theorem uflat_none_pres : ∀ (us : List (KeyPath × Option Val)) (x : Val) (q : KeyPath),
    rootOk x = true → (∀ e ∈ us, pnSafe e.1 = true) →
    valueForKeyPath q (some x) = none →
    valueForKeyPath q (some (dollarUnsetFlat x us)) = none
  | [], _, _, _, _, h => h
  | e :: tl, x, q, hr, hs, h => by
    rw [dollarUnsetFlat_cons]
    exact uflat_none_pres tl _ q (rootOk_unset e.1 x hr)
      (fun e2 hm => hs e2 (by simp [hm]))
      (unset_no_create e.1 q x (parentNodup_of_rootOk e.1 x (hs e (by simp)) hr) h)

/-- The flat removal loop leaves a path unchanged when every removal is
either disjoint from it or already reads nothing. -/
theorem uflat_frame : ∀ (us : List (KeyPath × Option Val)) (x : Val) (q : KeyPath),
    rootOk x = true → (∀ e ∈ us, pnSafe e.1 = true) →
    (∀ e ∈ us, pathUnrelated e.1 q = true ∨ valueForKeyPath e.1 (some x) = none) →
    valueForKeyPath q (some (dollarUnsetFlat x us)) = valueForKeyPath q (some x)
  | [], _, _, _, _, _ => rfl
  | e :: tl, x, q, hr, hs, hc => by
    rw [dollarUnsetFlat_cons]
    rcases hc e (by simp) with h1 | h1
    · rw [uflat_frame tl _ q (rootOk_unset e.1 x hr) (fun e2 hm => hs e2 (by simp [hm]))
        (fun e2 hm => (hc e2 (by simp [hm])).imp id
          (unset_no_create e.1 e2.1 x (parentNodup_of_rootOk e.1 x (hs e (by simp)) hr)))]
      exact get_unset_unrelated e.1 q x h1
    · rw [unset_noop e.1 x h1]
      exact uflat_frame tl x q hr (fun e2 hm => hs e2 (by simp [hm]))
        (fun e2 hm => hc e2 (by simp [hm]))

/-- The flat removal loop preserves the observation of a path none of the
(effective) removals prefixes. -/
theorem uflat_obs : ∀ (us : List (KeyPath × Option Val)) (x : Val) (q : KeyPath),
    rootOk x = true → (∀ e ∈ us, pnSafe e.1 = true) →
    (∀ e ∈ us, pathIsPrefix e.1 q = false ∨ valueForKeyPath e.1 (some x) = none) →
    obs (valueForKeyPath q (some (dollarUnsetFlat x us))) =
      obs (valueForKeyPath q (some x))
  | [], _, _, _, _, _ => rfl
  | e :: tl, x, q, hr, hs, hc => by
    rw [dollarUnsetFlat_cons]
    rcases hc e (by simp) with h1 | h1
    · rw [uflat_obs tl _ q (rootOk_unset e.1 x hr) (fun e2 hm => hs e2 (by simp [hm]))
        (fun e2 hm => (hc e2 (by simp [hm])).imp id
          (unset_no_create e.1 e2.1 x (parentNodup_of_rootOk e.1 x (hs e (by simp)) hr)))]
      exact unset_obs_frame e.1 q x h1
    · rw [unset_noop e.1 x h1]
      exact uflat_obs tl x q hr (fun e2 hm => hs e2 (by simp [hm]))
        (fun e2 hm => hc e2 (by simp [hm]))

/-- The flat removal loop erases any path below a listed removal whose walk
(at its turn) passes through objects, and any listed path already absent. -/
theorem uflat_kill : ∀ (us : List (KeyPath × Option Val)) (x : Val) (q : KeyPath),
    rootOk x = true → (∀ e ∈ us, pnSafe e.1 = true) →
    pairwiseUnrelatedK (us.map Prod.fst) = true →
    (∃ e, e ∈ us ∧ pathIsPrefix e.1 q = true) →
    (∀ e ∈ us, pathIsPrefix e.1 q = true →
      (∀ r, pathIsPrefix r e.1 = true → r ≠ e.1 →
        obs (valueForKeyPath r (some x)) = .oobj) ∨
      valueForKeyPath e.1 (some x) = none) →
    valueForKeyPath q (some (dollarUnsetFlat x us)) = none
  | [], _, _, _, _, _, hex, _ => by
    rcases hex with ⟨e, he, _⟩
    cases he
  | e :: tl, x, q, hr, hs, hpw, hex, hc => by
    rw [dollarUnsetFlat_cons]
    rcases hex with ⟨e0, he0, hq0⟩
    rcases List.mem_cons.mp he0 with h1 | h1
    · subst h1
      obtain ⟨ext, hext⟩ := pathIsPrefix_exists e0.1 q hq0
      rcases hc e0 (by simp) hq0 with h2 | h2
      · have hkills : unsetKills e0.1 x = true :=
          kills_from_reads e0.1 x (pnSafe_ne_nil (hs e0 (by simp))) h2
        have hdead : valueForKeyPath e0.1 (some (unsetKeyPath e0.1 x)) = none :=
          unset_kill e0.1 x hkills (parentNodup_of_rootOk e0.1 x (hs e0 (by simp)) hr)
        apply uflat_none_pres tl _ q (rootOk_unset e0.1 x hr)
          (fun e2 hm => hs e2 (by simp [hm]))
        rw [hext, read_append, hdead, valueForKeyPath_none]
      · rw [unset_noop e0.1 x h2]
        apply uflat_none_pres tl x q hr (fun e2 hm => hs e2 (by simp [hm]))
        rw [hext, read_append, h2, valueForKeyPath_none]
    · apply uflat_kill tl _ q (rootOk_unset e.1 x hr)
        (fun e2 hm => hs e2 (by simp [hm])) (pairwiseK_tail hpw)
        ⟨e0, h1, hq0⟩
      intro e2 hm2 hq2
      rcases hc e2 (by simp [hm2]) hq2 with h2 | h2
      · left
        intro r hrp hrne
        have hpf : pathIsPrefix e.1 r = false := by
          cases hcpf : pathIsPrefix e.1 r with
          | false => rfl
          | true =>
            have htr := pathIsPrefix_trans e.1 r e2.1 hcpf hrp
            have hunrel := pairwiseK_head hpw e2.1 (List.mem_map.mpr ⟨e2, hm2, rfl⟩)
            have hfalse : pathIsPrefix e.1 e2.1 = false := by
              have hx : (!pathIsPrefix e.1 e2.1) = true :=
                Bool.and_elim_left (show (!pathIsPrefix e.1 e2.1 &&
                  !pathIsPrefix e2.1 e.1) = true from hunrel)
              simpa using hx
            rw [htr] at hfalse
            cases hfalse
        rw [unset_obs_frame e.1 r x hpf]
        exact h2 r hrp hrne
      · right
        exact unset_no_create e.1 e2.1 x
          (parentNodup_of_rootOk e.1 x (hs e (by simp)) hr) h2

/-! ### The diff passes on the round-trip-safe domain -/

theorem truthy_objV {x : Val} (h : isObjV x = true) : truthy x = true := by
  cases x with
  | vobj fs => rfl
  | varr xs => cases (show false = true from h)
  | vnull => cases (show false = true from h)
  | vbool b => cases (show false = true from h)
  | vnum n => cases (show false = true from h)
  | vstr s => cases (show false = true from h)
  | vdate t => cases (show false = true from h)

theorem isEqual_falsy_eq : ∀ (a b : Val), truthy b = false → isNumV b = false →
    isEqual a b = true → a = b
  | a, .vnull, _, _, h => by
    cases a with
    | vnull => rfl
    | vbool x => cases (show false = true from h)
    | vnum x => cases (show false = true from h)
    | vstr x => cases (show false = true from h)
    | vdate x => cases (show false = true from h)
    | varr x => cases (show false = true from h)
    | vobj x => cases (show false = true from h)
  | a, .vbool bb, hb, _, h => by
    cases a with
    | vbool x =>
      have : x = bb := by simpa using (show (x == bb) = true from h)
      rw [this]
    | vnull => cases (show false = true from h)
    | vnum x => cases (show false = true from h)
    | vstr x => cases (show false = true from h)
    | vdate x => cases (show false = true from h)
    | varr x => cases (show false = true from h)
    | vobj x => cases (show false = true from h)
  | a, .vstr s, _, _, h => by
    cases a with
    | vstr x =>
      have : x = s := by simpa using (show (x == s) = true from h)
      rw [this]
    | vnull => cases (show false = true from h)
    | vbool x => cases (show false = true from h)
    | vnum x => cases (show false = true from h)
    | vdate x => cases (show false = true from h)
    | varr x => cases (show false = true from h)
    | vobj x => cases (show false = true from h)
  | _, .vnum n, _, hn, _ => by cases (show true = false from hn)
  | _, .vdate t, ht, _, _ => by cases (show true = false from ht)
  | _, .varr xs, ht, _, _ => by cases (show true = false from ht)
  | _, .vobj fs, ht, _, _ => by cases (show true = false from ht)

/-- On the round-trip-safe per-path condition, `shouldUnset` never raises and
answers exactly "the new document lacks the path". -/
theorem shouldUnset_char (a b : Option Val)
    (hc : match b with
      | none => truthyNum a = true
      | some bb =>
        if isNumV bb || truthy bb
          then (!(typeofObjectOpt a && decide (jsKeyCount bb = 0))) = true
          else isEqualOpt a (some bb) = true) :
    shouldUnset b a = .ok b.isNone := by
  cases b with
  | none =>
    have hc2 : (truthyOpt a || isNumOpt a) = true := hc
    unfold shouldUnset
    rw [if_pos (by rw [hc2]; rfl)]
    rfl
  | some bb =>
    have hc0 : if (isNumV bb || truthy bb) = true
        then (!(typeofObjectOpt a && decide (jsKeyCount bb = 0))) = true
        else isEqualOpt a (some bb) = true := hc
    by_cases htn : (isNumV bb || truthy bb) = true
    · rw [if_pos htn] at hc0
      have hnn : (truthyOpt (some bb) || isNumOpt (some bb)) = true := by
        show (truthy bb || isNumV bb) = true
        rcases Bool.or_eq_true_iff.mp htn with h1 | h1
        · rw [h1]; simp
        · rw [h1]; rfl
      have hnv : bb ≠ Val.vnull := by
        intro he
        subst he
        cases (show false = true from htn)
      unfold shouldUnset
      rw [if_neg (by rw [hnn]; simp)]
      cases hto : typeofObjectOpt a with
      | false =>
        rw [if_neg (by simp)]
        rfl
      | true =>
        rw [if_pos (by simp [hnv])]
        have hk : decide (jsKeyCount bb = 0) = false := by
          rw [hto] at hc0
          simpa using hc0
        show Except.ok (decide (jsKeyCount bb = 0)) = Except.ok (some bb).isNone
        rw [hk]
        rfl
    · have htn2 : (isNumV bb || truthy bb) = false := by simpa using htn
      rw [if_neg htn] at hc0
      have hbt : truthy bb = false := by
        rcases Bool.or_eq_false_iff.mp htn2 with ⟨_, h2⟩
        exact h2
      have hbn : isNumV bb = false := (Bool.or_eq_false_iff.mp htn2).1
      cases a with
      | none => cases (show false = true from hc0)
      | some aa =>
        have hab : aa = bb := isEqual_falsy_eq aa bb hbt hbn hc0
        subst hab
        unfold shouldUnset
        have htf : (truthyOpt (some aa) || isNumOpt (some aa)) = false := by
          show (truthy aa || isNumV aa) = false
          rw [hbt, hbn]
          rfl
        rw [if_neg (by rw [htf]; simp)]
        cases aa with
        | vnull =>
          rw [if_neg (by simp)]
          rfl
        | vbool x =>
          rw [if_neg (by
            rw [show typeofObjectOpt (some (Val.vbool x)) = false from rfl]
            simp)]
          rfl
        | vstr x =>
          rw [if_neg (by
            rw [show typeofObjectOpt (some (Val.vstr x)) = false from rfl]
            simp)]
          rfl
        | vnum x => cases (show true = false from hbn)
        | vdate x => cases (show true = false from hbt)
        | varr x => cases (show true = false from hbt)
        | vobj x => cases (show true = false from hbt)

theorem collectUnsets_filter : ∀ (ps : List KeyPath) (prev doc : Option Val),
    (∀ p ∈ ps, shouldUnset (valueForKeyPath p doc) (valueForKeyPath p prev) =
      .ok (valueForKeyPath p doc).isNone) →
    collectUnsets prev doc ps =
      .ok (ps.filter (fun p => (valueForKeyPath p doc).isNone))
  | [], _, _, _ => rfl
  | p :: tl, prev, doc, h => by
    unfold collectUnsets
    rw [h p (by simp),
      collectUnsets_filter tl prev doc (fun p2 hm => h p2 (by simp [hm]))]
    rw [List.filter_cons]

theorem backwardList_char (A B : Val) (hoA : isObjV A = true)
    (hall : ∀ r ∈ keyPathsVal true A,
      shouldUnset (valueForKeyPath r (some B)) (valueForKeyPath r (some A)) =
        .ok (valueForKeyPath r (some B)).isNone) :
    backwardList (some A) (some B) [] = .ok (subsume (unsetPathsOf A B)) := by
  show (if truthy A = true then
      (collectUnsets (some A) (some B) (backwardPaths (some A) [])).map subsume
    else .ok []) = _
  rw [if_pos (truthy_objV hoA)]
  have hbp : backwardPaths (some A) [] = keyPathsVal true A := by
    show (if truthy A = true then filteredKeyPaths (keyPathsVal true A) [] else []) = _
    rw [if_pos (truthy_objV hoA), filteredKeyPaths_nil]
  rw [hbp, collectUnsets_filter _ _ _ hall]
  rfl

theorem pathIsPrefix_antisymm : ∀ (p q : KeyPath), pathIsPrefix p q = true →
    pathIsPrefix q p = true → p = q
  | [], [], _, _ => rfl
  | [], _ :: _, _, h2 => by cases (show false = true from h2)
  | _ :: _, [], h1, _ => by cases (show false = true from h1)
  | k :: p, k2 :: q, h1, h2 => by
    have e1 : k = k2 := by simpa using (Bool.and_elim_left h1)
    rw [e1, pathIsPrefix_antisymm p q (Bool.and_elim_right h1) (Bool.and_elim_right h2)]

theorem isSome_of_branchRead {o : Option Val} (h : branchRead o = true) :
    o.isSome = true := by
  cases o with
  | none => cases (show false = true from h)
  | some v => rfl

theorem enum_prefix_mem {X : Val} (hw : wfVal X = true) (ho : isObjV X = true)
    {p r : KeyPath} (hp : p ∈ keyPathsVal true X) (hr : pathIsPrefix r p = true)
    (hrne : r ≠ []) (hrp : r ≠ p) : r ∈ keyPathsVal true X := by
  obtain ⟨_, _, hpre, _⟩ := enum_sound_val X true p hw hp
  have hbr : branchRead (valueForKeyPath r (some X)) = true := hpre r hr hrne hrp
  apply (enum_complete_val X r ho (isSome_of_branchRead hbr) hrne ?_).1
  intro q hq hq1 hq2
  apply hpre q (pathIsPrefix_trans q r p hq hr) hq1
  intro he
  subst he
  exact hrp (pathIsPrefix_antisymm r q hr hq)

theorem enum_false_sub_true {X : Val} (hw : wfVal X = true) (ho : isObjV X = true)
    {p : KeyPath} (hp : p ∈ keyPathsVal false X) : p ∈ keyPathsVal true X := by
  obtain ⟨hs, hne, hpre, _⟩ := enum_sound_val X false p hw hp
  exact (enum_complete_val X p ho hs hne hpre).1

theorem enum_false_unrelated {B : Val} (hw : wfVal B = true) {p q : KeyPath}
    (hp : p ∈ keyPathsVal false B) (hq : q ∈ keyPathsVal false B) (hne : p ≠ q) :
    pathUnrelated p q = true := by
  obtain ⟨_, hpne, hppre, hpal⟩ := enum_sound_val B false p hw hp
  obtain ⟨_, hqne, hqpre, hqal⟩ := enum_sound_val B false q hw hq
  show (!pathIsPrefix p q && !pathIsPrefix q p) = true
  have h1 : pathIsPrefix p q = false := by
    cases hc : pathIsPrefix p q with
    | false => rfl
    | true =>
      have hx := hqpre p hc hpne hne
      rw [hpal rfl] at hx
      cases hx
  have h2 : pathIsPrefix q p = false := by
    cases hc : pathIsPrefix q p with
    | false => rfl
    | true =>
      have hx := hppre q hc hqne (fun he => hne he.symm)
      rw [hqal rfl] at hx
      cases hx
  rw [h1, h2]
  rfl

theorem pairwiseK_of_forall : ∀ (l : List KeyPath), l.Nodup →
    (∀ p ∈ l, ∀ q ∈ l, p ≠ q → pathUnrelated p q = true) →
    pairwiseUnrelatedK l = true
  | [], _, _ => rfl
  | p :: tl, hnd, h => by
    show (tl.all (fun p2 => pathUnrelated p p2) && pairwiseUnrelatedK tl) = true
    rw [List.all_eq_true.mpr (fun p2 hm => h p (by simp) p2 (by simp [hm])
        (fun he => (List.nodup_cons.mp hnd).1 (he ▸ hm))),
      pairwiseK_of_forall tl (List.nodup_cons.mp hnd).2
        (fun a ha b hb hne => h a (by simp [ha]) b (by simp [hb]) hne)]
    rfl

theorem pathIsPrefix_take : ∀ (r v : KeyPath), pathIsPrefix r v = true →
    v.take r.length = r ∧ r.length ≤ v.length
  | [], _, _ => ⟨rfl, Nat.zero_le _⟩
  | _ :: _, [], h => by cases (show false = true from h)
  | k :: r', k2 :: v', h => by
    have e1 : k = k2 := by simpa using (Bool.and_elim_left h)
    obtain ⟨ht, hl⟩ := pathIsPrefix_take r' v' (Bool.and_elim_right h)
    subst e1
    constructor
    · show k :: v'.take r'.length = k :: r'
      rw [ht]
    · exact Nat.succ_le_succ hl

theorem subsume_minimal {us : List KeyPath} {v r : KeyPath} (hv : v ∈ subsume us)
    (hr : r ∈ us) (hpre : pathIsPrefix r v = true) (hne : r ≠ v) : False := by
  have h2 := (mem_subsume hv).2 r hr
  obtain ⟨ht, hl⟩ := pathIsPrefix_take r v hpre
  have hlt : r.length < v.length :=
    Nat.lt_of_le_of_ne hl (fun he => hne (by rw [← ht, he, List.take_length]))
  rw [show keyPathContainsPathStrict v r = true by
    simp [keyPathContainsPathStrict, hlt, ht]] at h2
  cases h2

theorem exists_min_len : ∀ (l : List KeyPath), l ≠ [] →
    ∃ m, m ∈ l ∧ ∀ b ∈ l, m.length ≤ b.length
  | [], h => absurd rfl h
  | [p], _ => ⟨p, by simp, fun b hb => by simp at hb; rw [hb]⟩
  | p :: a :: t, _ => by
    obtain ⟨m, hm, hmin⟩ := exists_min_len (a :: t) (by simp)
    by_cases hpm : p.length ≤ m.length
    · refine ⟨p, by simp, ?_⟩
      intro b hb
      rcases List.mem_cons.mp hb with h1 | h1
      · rw [h1]
      · exact Nat.le_trans hpm (hmin b h1)
    · refine ⟨m, List.mem_cons_of_mem p hm, ?_⟩
      intro b hb
      rcases List.mem_cons.mp hb with h1 | h1
      · rw [h1]
        exact Nat.le_of_lt (Nat.lt_of_not_le hpm)
      · exact hmin b h1

theorem subsume_ne_nil {us : List KeyPath} (h : us ≠ []) : subsume us ≠ [] := by
  obtain ⟨m, hm, hmin⟩ := exists_min_len us h
  have hms : m ∈ subsume us := by
    unfold subsume
    apply List.mem_filter.mpr ⟨hm, ?_⟩
    simp only [Bool.not_eq_true']
    apply List.any_eq_false.mpr
    intro b hb
    have hnl : ¬(b.length < m.length) := Nat.not_lt.mpr (hmin b hb)
    simp [keyPathContainsPathStrict, hnl]
  intro he
  rw [he] at hms
  cases hms

theorem collectSets_cons_some {prev : Option Val} {d : Val} {p : KeyPath}
    {w : Val} (tl : List KeyPath) (hv : valueForKeyPath p (some d) = some w)
    (hss : shouldSet (some w) (valueForKeyPath p prev) = true) :
    collectSets prev d (p :: tl) = (p, w) :: collectSets prev d tl := by
  unfold collectSets
  rw [List.filterMap_cons]
  simp [hv, hss]

theorem collectSets_cons_skip {prev : Option Val} {d : Val} {p : KeyPath}
    {w : Val} (tl : List KeyPath) (hv : valueForKeyPath p (some d) = some w)
    (hss : shouldSet (some w) (valueForKeyPath p prev) = false) :
    collectSets prev d (p :: tl) = collectSets prev d tl := by
  unfold collectSets
  rw [List.filterMap_cons]
  simp [hv, hss]

theorem collectSets_cons_none {prev : Option Val} {d : Val} {p : KeyPath}
    (tl : List KeyPath) (hv : valueForKeyPath p (some d) = none) :
    collectSets prev d (p :: tl) = collectSets prev d tl := by
  unfold collectSets
  rw [List.filterMap_cons]
  simp [hv]

theorem collectSets_complete {prev : Option Val} {d : Val} {ps : List KeyPath}
    {p : KeyPath} {w : Val} (hp : p ∈ ps) (hv : valueForKeyPath p (some d) = some w)
    (hss : shouldSet (some w) (valueForKeyPath p prev) = true) :
    (p, w) ∈ collectSets prev d ps := by
  unfold collectSets
  apply List.mem_filterMap.mpr
  refine ⟨p, hp, ?_⟩
  rw [hv]
  simp [hss]

theorem collectSets_pairwise : ∀ (ps : List KeyPath) (prev : Option Val) (d : Val),
    pairwiseUnrelatedK ps = true →
    pairwiseUnrelated (collectSets prev d ps) = true
  | [], _, _, _ => rfl
  | p :: tl, prev, d, h => by
    cases hv : valueForKeyPath p (some d) with
    | none =>
      rw [collectSets_cons_none tl hv]
      exact collectSets_pairwise tl prev d (pairwiseK_tail h)
    | some w =>
      cases hss : shouldSet (some w) (valueForKeyPath p prev) with
      | false =>
        rw [collectSets_cons_skip tl hv hss]
        exact collectSets_pairwise tl prev d (pairwiseK_tail h)
      | true =>
        rw [collectSets_cons_some tl hv hss]
        show ((collectSets prev d tl).all (fun e2 => pathUnrelated p e2.1) &&
          pairwiseUnrelated (collectSets prev d tl)) = true
        rw [List.all_eq_true.mpr
            (fun e2 hm => pairwiseK_head h e2.1 (collectSets_mem hm).1),
          collectSets_pairwise tl prev d (pairwiseK_tail h)]
        rfl

theorem forwardList_eq (A B : Val) (hoB : isObjV B = true) :
    forwardList (some A) (some B) [] = collectSets (some A) B (keyPathsVal false B) := by
  show (if truthy B = true
      then collectSets (some A) B (filteredKeyPaths (keyPathsVal false B) []) else []) = _
  rw [if_pos (truthy_objV hoB), filteredKeyPaths_nil]

theorem topNoDollar_obj {B : Val} (h : topNoDollar B = true) : isObjV B = true := by
  cases B with
  | vobj fs => rfl
  | varr xs => cases (show false = true from h)
  | vnull => cases (show false = true from h)
  | vbool b => cases (show false = true from h)
  | vnum n => cases (show false = true from h)
  | vstr s => cases (show false = true from h)
  | vdate t => cases (show false = true from h)

theorem rtSafe_parts {A B : Val} (h : rtSafe A B = true) :
    isObjV A = true ∧ wfVal A = true ∧ wfVal B = true ∧ topNoDollar B = true ∧
    newDocOk A B = true ∧ oldPathsOk A B = true := by
  have h1 := Bool.and_elim_left h
  have h2 := Bool.and_elim_right h
  refine ⟨Bool.and_elim_left (Bool.and_elim_left (Bool.and_elim_left
    (Bool.and_elim_left h1))), ?_, ?_, ?_, ?_, h2⟩
  · exact Bool.and_elim_right (Bool.and_elim_left (Bool.and_elim_left
      (Bool.and_elim_left h1)))
  · exact Bool.and_elim_right (Bool.and_elim_left (Bool.and_elim_left h1))
  · exact Bool.and_elim_right (Bool.and_elim_left h1)
  · exact Bool.and_elim_right h1

theorem newDocOk_at {A B : Val} (h : newDocOk A B = true) {q : KeyPath}
    (hq : q ∈ keyPathsVal true B) :
    (match valueForKeyPath q (some B) with
      | some b =>
        if isBranch b then !arrRead (valueForKeyPath q (some A))
        else
          decide (b ≠ .vobj .nil) &&
            (isNumV b || truthy b || isEqualOpt (valueForKeyPath q (some A)) (some b))
      | none => true) = true :=
  List.all_eq_true.mp h q hq

theorem oldPathsOk_at {A B : Val} (h : oldPathsOk A B = true) {r : KeyPath}
    (hr : r ∈ keyPathsVal true A) :
    (match valueForKeyPath r (some B) with
      | none => truthyNum (valueForKeyPath r (some A))
      | some b =>
        if isNumV b || truthy b then
          !(typeofObjectOpt (valueForKeyPath r (some A)) && decide (jsKeyCount b = 0))
        else isEqualOpt (valueForKeyPath r (some A)) (some b)) = true :=
  List.all_eq_true.mp h r hr

/-! ### Path and observation utilities for the round-trip proof -/

theorem read_single (k : String) (x : Val) :
    valueForKeyPath [k] (some x) = getKey k x := rfl

theorem prefix_comparable : ∀ (a b q : KeyPath), pathIsPrefix a q = true →
    pathIsPrefix b q = true → pathIsPrefix a b = true ∨ pathIsPrefix b a = true
  | [], _, _, _, _ => .inl rfl
  | _, [], _, _, _ => .inr rfl
  | _ :: _, _ :: _, [], h1, _ => by cases (show false = true from h1)
  | ka :: a', kb :: b', kq :: q', h1, h2 => by
    have e1 : ka = kq := by simpa using (Bool.and_elim_left h1)
    have e2 : kb = kq := by simpa using (Bool.and_elim_left h2)
    rcases prefix_comparable a' b' q' (Bool.and_elim_right h1) (Bool.and_elim_right h2)
      with h | h
    · left
      show ((ka == kb) && pathIsPrefix a' b') = true
      rw [h, show (ka == kb) = true by rw [e1, e2]; simp]
      rfl
    · right
      show ((kb == ka) && pathIsPrefix b' a') = true
      rw [h, show (kb == ka) = true by rw [e1, e2]; simp]
      rfl

theorem pathIsPrefix_of_take : ∀ (r v : KeyPath), r.length ≤ v.length →
    v.take r.length = r → pathIsPrefix r v = true
  | [], _, _, _ => rfl
  | _ :: r', [], hl, _ => by cases (Nat.not_succ_le_zero _ hl)
  | k :: r', k2 :: v', hl, ht => by
    have ht' : k2 :: v'.take r'.length = k :: r' := ht
    have e1 : k2 = k := ((List.cons.injEq _ _ _ _).mp ht').1
    have ht2 : v'.take r'.length = r' := ((List.cons.injEq _ _ _ _).mp ht').2
    show ((k == k2) && pathIsPrefix r' v') = true
    rw [pathIsPrefix_of_take r' v' (Nat.le_of_succ_le_succ hl) ht2,
      show (k == k2) = true by rw [e1]; simp]
    rfl

theorem prefix_append_cancel : ∀ (q a b : KeyPath),
    pathIsPrefix (q ++ a) (q ++ b) = pathIsPrefix a b
  | [], _, _ => rfl
  | k :: q', a, b => by
    show ((k == k) && pathIsPrefix (q' ++ a) (q' ++ b)) = _
    rw [prefix_append_cancel q' a b, show (k == k) = true by simp]
    simp

theorem mem_prefixList : ∀ (r q : KeyPath), r ∈ prefixList q ↔ pathIsPrefix r q = true
  | r, [] => by
    constructor
    · intro h
      simp only [prefixList, List.mem_singleton] at h
      subst h
      rfl
    · intro h
      cases r with
      | nil => simp [prefixList]
      | cons k r' => cases (show false = true from h)
  | r, k :: q' => by
    constructor
    · intro h
      rcases List.mem_cons.mp h with h1 | h1
      · subst h1
        rfl
      · rcases List.mem_map.mp h1 with ⟨r', hr', he⟩
        subst he
        show ((k == k) && pathIsPrefix r' q') = true
        rw [(mem_prefixList r' q').mp hr', show (k == k) = true by simp]
        rfl
    · intro h
      cases r with
      | nil => simp [prefixList]
      | cons kr r' =>
        have e1 : kr = k := by simpa using (Bool.and_elim_left h)
        subst e1
        apply List.mem_cons_of_mem
        exact List.mem_map.mpr ⟨r', (mem_prefixList r' q').mpr (Bool.and_elim_right h), rfl⟩

theorem unrelated_of_head_ne {k k2 : String} (h : k ≠ k2) (p q : KeyPath) :
    pathUnrelated (k :: p) (k2 :: q) = true := by
  show (!pathIsPrefix (k :: p) (k2 :: q) && !pathIsPrefix (k2 :: q) (k :: p)) = true
  rw [show pathIsPrefix (k :: p) (k2 :: q) = false by
      show ((k == k2) && pathIsPrefix p q) = false
      rw [show (k == k2) = false by rw [beq_eq_false_iff_ne]; exact h]
      rfl,
    show pathIsPrefix (k2 :: q) (k :: p) = false by
      show ((k2 == k) && pathIsPrefix q p) = false
      rw [show (k2 == k) = false by rw [beq_eq_false_iff_ne]; exact fun hx => h hx.symm]
      rfl]
  rfl

theorem exists_concat : ∀ (l : KeyPath), l ≠ [] → ∃ l' a, l = l' ++ [a]
  | [], h => absurd rfl h
  | [a], _ => ⟨[], a, rfl⟩
  | a :: b :: t, _ => by
    obtain ⟨l', x, he⟩ := exists_concat (b :: t) (by simp)
    exact ⟨a :: l', x, by rw [List.cons_append, ← he]⟩

theorem read_prefix_some {X : Val} {q r : KeyPath} {w : Val}
    (hq : valueForKeyPath q (some X) = some w) (hr : pathIsPrefix r q = true) :
    (valueForKeyPath r (some X)).isSome = true := by
  obtain ⟨ext, he⟩ := pathIsPrefix_exists r q hr
  subst he
  rw [read_append] at hq
  cases hx : valueForKeyPath r (some X) with
  | none =>
    rw [hx, valueForKeyPath_none] at hq
    cases hq
  | some c => rfl

theorem obs_absent_none : ∀ {o : Option Val}, obs o = .absent → o = none
  | none, _ => rfl
  | some v, h => by
    cases v with
    | vobj fs => cases (show Obs.oobj = Obs.absent from h)
    | varr xs => cases (show Obs.oarr = Obs.absent from h)
    | vnull => cases (show Obs.oscal .vnull = Obs.absent from h)
    | vbool b => cases (show Obs.oscal (.vbool b) = Obs.absent from h)
    | vnum n => cases (show Obs.oscal (.vnum n) = Obs.absent from h)
    | vstr s => cases (show Obs.oscal (.vstr s) = Obs.absent from h)
    | vdate t => cases (show Obs.oscal (.vdate t) = Obs.absent from h)

theorem obs_oobj_of_branchRead : ∀ {o : Option Val}, branchRead o = true → obs o = .oobj
  | none, h => by cases (show false = true from h)
  | some v, h => by
    cases v with
    | vobj fs => rfl
    | varr xs => cases (show false = true from h)
    | vnull => cases (show false = true from h)
    | vbool b => cases (show false = true from h)
    | vnum n => cases (show false = true from h)
    | vstr s => cases (show false = true from h)
    | vdate t => cases (show false = true from h)

theorem branchRead_of_strict_prefix {X : Val} {q r : KeyPath} {w : Val}
    (hq : valueForKeyPath q (some X) = some w) (hr : pathIsPrefix r q = true)
    (hne : r ≠ q) (hnarr : arrRead (valueForKeyPath r (some X)) = false) :
    branchRead (valueForKeyPath r (some X)) = true := by
  obtain ⟨ext, he⟩ := pathIsPrefix_exists r q hr
  subst he
  cases ext with
  | nil => exact absurd (List.append_nil r).symm hne
  | cons k ext' =>
    rw [read_append] at hq
    cases hx : valueForKeyPath r (some X) with
    | none =>
      rw [hx, valueForKeyPath_none] at hq
      cases hq
    | some c =>
      rw [hx] at hq hnarr
      rw [valueForKeyPath_cons] at hq
      cases c with
      | vobj g =>
        show isBranch (Val.vobj g) = true
        cases g with
        | nil =>
          rw [show getKey k (Val.vobj .nil) = none from rfl, valueForKeyPath_none] at hq
          cases hq
        | cons a b c2 => rfl
      | varr xs => cases (show true = false from hnarr)
      | vnull =>
        rw [show getKey k Val.vnull = none from rfl, valueForKeyPath_none] at hq
        cases hq
      | vbool bb =>
        rw [show getKey k (Val.vbool bb) = none from rfl, valueForKeyPath_none] at hq
        cases hq
      | vnum n =>
        rw [show getKey k (Val.vnum n) = none from rfl, valueForKeyPath_none] at hq
        cases hq
      | vstr s =>
        rw [show getKey k (Val.vstr s) = none from rfl, valueForKeyPath_none] at hq
        cases hq
      | vdate t =>
        rw [show getKey k (Val.vdate t) = none from rfl, valueForKeyPath_none] at hq
        cases hq

theorem isEqual_noncontainer_eq : ∀ (a b : Val), isContainer b = false →
    isEqual a b = true → a = b := by
  intro a b hb h
  have h2 : beqVal a b = true := by
    cases b with
    | varr xs => cases (show true = false from hb)
    | vobj fs => cases (show true = false from hb)
    | vnull => cases a <;> exact h
    | vbool x => cases a <;> exact h
    | vnum x => cases a <;> exact h
    | vstr x => cases a <;> exact h
    | vdate x => cases a <;> exact h
  exact (beqVal_iff a b).mp h2

/-! ### Decomposition of the two modifier passes -/

theorem dollarSet_decomp (dest : Val) (m : Modifier) :
    dollarSet dest m = junkUnsetObj m.unset (junkSet m.set (flatSetOf m.set dest)) := by
  cases m with
  | mk s u => cases s <;> cases u <;> rfl

theorem dollarUnset_decomp (dest : Val) (m : Modifier) :
    dollarUnset dest m =
      junkDropUnset m.unset (junkDropSet m.set (flatUnsetOf m.unset dest)) := by
  cases m with
  | mk s u => cases s <;> cases u <;> rfl

theorem flatSetOf_modOf (s : List (KeyPath × Val)) (u : List KeyPath) (x : Val) :
    flatSetOf (modOf s u).set x = dollarSetFlat x s := by
  cases s with
  | nil => rfl
  | cons e tl => rfl

theorem flatUnsetOf_modOf (s : List (KeyPath × Val)) (u : List KeyPath) (x : Val) :
    flatUnsetOf (modOf s u).unset x =
      dollarUnsetFlat x (u.map (fun p => (p, some (Val.vbool true)))) := by
  cases u with
  | nil => rfl
  | cons p tl => rfl

theorem setVKP_single_reads_other {k kq : String} (hne : k ≠ kq) (v x : Val)
    (hx : isObjV x = true) (q' : KeyPath) :
    valueForKeyPath (kq :: q') (some (setValueForKeyPath v [k] x)) =
      valueForKeyPath (kq :: q') (some x) := by
  cases x with
  | vobj fs =>
    rw [setVKP_obj_single, valueForKeyPath_cons, valueForKeyPath_cons, getKey_obj,
      getKey_obj, lookup_setField_other fs k kq v (Ne.symm hne)]
  | varr xs => cases (show false = true from hx)
  | vnull => cases (show false = true from hx)
  | vbool b => cases (show false = true from hx)
  | vnum n => cases (show false = true from hx)
  | vstr s => cases (show false = true from hx)
  | vdate t => cases (show false = true from hx)

theorem unsetKP_single_reads_other {k kq : String} (hne : k ≠ kq) (x : Val)
    (hx : isObjV x = true) (q' : KeyPath) :
    valueForKeyPath (kq :: q') (some (unsetKeyPath [k] x)) =
      valueForKeyPath (kq :: q') (some x) := by
  cases x with
  | vobj fs =>
    rw [unsetKP_obj_single, valueForKeyPath_cons, valueForKeyPath_cons, getKey_obj,
      getKey_obj, lookup_removeField_other fs k kq (Ne.symm hne)]
  | varr xs => cases (show false = true from hx)
  | vnull => cases (show false = true from hx)
  | vbool b => cases (show false = true from hx)
  | vnum n => cases (show false = true from hx)
  | vstr s => cases (show false = true from hx)
  | vdate t => cases (show false = true from hx)

theorem rootOk_objV {x : Val} (h : rootOk x = true) : isObjV x = true := by
  cases x with
  | vobj fs => rfl
  | varr xs => cases (show false = true from h)
  | vnull => cases (show false = true from h)
  | vbool b => cases (show false = true from h)
  | vnum n => cases (show false = true from h)
  | vstr s => cases (show false = true from h)
  | vdate t => cases (show false = true from h)

theorem rootOk_set_exempt {k : String} (v x : Val) (hk : dollarExempt k = true)
    (hr : rootOk x = true) : rootOk (setValueForKeyPath v [k] x) = true := by
  cases x with
  | vobj fs =>
    rw [setVKP_obj_single]
    show (nodupKeys (setField k v fs) && allNonDollarWf (setField k v fs)) = true
    rw [nodup_setField fs k v (Bool.and_elim_left hr),
      allNonDollarWf_setField fs k v (Bool.and_elim_right hr) (by rw [hk]; rfl)]
    rfl
  | varr xs => cases (show false = true from hr)
  | vnull => cases (show false = true from hr)
  | vbool b => cases (show false = true from hr)
  | vnum n => cases (show false = true from hr)
  | vstr s => cases (show false = true from hr)
  | vdate t => cases (show false = true from hr)

theorem junkSet_reads (o : Option (List (KeyPath × Val))) (x : Val)
    (hx : isObjV x = true) {kq : String} (hne : "$set" ≠ kq) (q' : KeyPath) :
    valueForKeyPath (kq :: q') (some (junkSet o x)) =
      valueForKeyPath (kq :: q') (some x) := by
  cases o with
  | none => rfl
  | some s => exact setVKP_single_reads_other hne _ x hx q'

theorem junkUnsetObj_reads (o : Option (List (KeyPath × Option Val))) (x : Val)
    (hx : isObjV x = true) {kq : String} (hne : "$unset" ≠ kq) (q' : KeyPath) :
    valueForKeyPath (kq :: q') (some (junkUnsetObj o x)) =
      valueForKeyPath (kq :: q') (some x) := by
  cases o with
  | none => rfl
  | some u => exact setVKP_single_reads_other hne _ x hx q'

theorem junkDropSet_reads (o : Option (List (KeyPath × Val))) (x : Val)
    (hx : isObjV x = true) {kq : String} (hne : "$set" ≠ kq) (q' : KeyPath) :
    valueForKeyPath (kq :: q') (some (junkDropSet o x)) =
      valueForKeyPath (kq :: q') (some x) := by
  cases o with
  | none => rfl
  | some s => exact unsetKP_single_reads_other hne x hx q'

theorem junkDropUnset_reads (o : Option (List (KeyPath × Option Val))) (x : Val)
    (hx : isObjV x = true) {kq : String} (hne : "$unset" ≠ kq) (q' : KeyPath) :
    valueForKeyPath (kq :: q') (some (junkDropUnset o x)) =
      valueForKeyPath (kq :: q') (some x) := by
  cases o with
  | none => rfl
  | some u => exact unsetKP_single_reads_other hne x hx q'

theorem junkSet_rootOk (o : Option (List (KeyPath × Val))) (x : Val)
    (hr : rootOk x = true) : rootOk (junkSet o x) = true := by
  cases o with
  | none => exact hr
  | some s => exact rootOk_set_exempt _ x (by decide) hr

theorem junkUnsetObj_rootOk (o : Option (List (KeyPath × Option Val))) (x : Val)
    (hr : rootOk x = true) : rootOk (junkUnsetObj o x) = true := by
  cases o with
  | none => exact hr
  | some u => exact rootOk_set_exempt _ x (by decide) hr

theorem junkDropSet_rootOk (o : Option (List (KeyPath × Val))) (x : Val)
    (hr : rootOk x = true) : rootOk (junkDropSet o x) = true := by
  cases o with
  | none => exact hr
  | some s => exact rootOk_unset _ x hr

theorem junkDropUnset_rootOk (o : Option (List (KeyPath × Option Val))) (x : Val)
    (hr : rootOk x = true) : rootOk (junkDropUnset o x) = true := by
  cases o with
  | none => exact hr
  | some u => exact rootOk_unset _ x hr

/-! ### The diff lists on the round-trip-safe domain -/

theorem rt_backward (A B : Val) (h : rtSafe A B = true) :
    backwardList (some A) (some B) [] = .ok (subsume (unsetPathsOf A B)) := by
  obtain ⟨hoA, hwA, _, _, _, hop⟩ := rtSafe_parts h
  apply backwardList_char A B hoA
  intro r hr
  apply shouldUnset_char
  have hcond := oldPathsOk_at hop hr
  cases hb : valueForKeyPath r (some B) with
  | none =>
    rw [hb] at hcond
    exact hcond
  | some bb =>
    rw [hb] at hcond
    show if (isNumV bb || truthy bb) = true
        then (!(typeofObjectOpt (valueForKeyPath r (some A)) &&
          decide (jsKeyCount bb = 0))) = true
        else isEqualOpt (valueForKeyPath r (some A)) (some bb) = true
    have hcond2 : (if (isNumV bb || truthy bb) = true
        then !(typeofObjectOpt (valueForKeyPath r (some A)) &&
          decide (jsKeyCount bb = 0))
        else isEqualOpt (valueForKeyPath r (some A)) (some bb)) = true := hcond
    by_cases htn : (isNumV bb || truthy bb) = true
    · rw [if_pos htn] at hcond2
      rw [if_pos htn]
      exact hcond2
    · rw [if_neg htn] at hcond2
      rw [if_neg htn]
      exact hcond2

theorem rt_B_head (A B : Val) (h : rtSafe A B = true) {p : KeyPath}
    (hp : p ∈ keyPathsVal true B) :
    ∃ k' p', p = k' :: p' ∧ k' ≠ "$set" ∧ k' ≠ "$unset" := by
  obtain ⟨_, _, _, htB, _, _⟩ := rtSafe_parts h
  cases B with
  | vobj bfs =>
    obtain ⟨k', p', he, hm⟩ := enum_head_mem bfs true p hp
    have hsome := keys_lookup_isSome bfs hm
    refine ⟨k', p', he, ?_, ?_⟩
    · intro hk
      subst hk
      have h1 : (bfs.lookup "$set").isNone = true := Bool.and_elim_left htB
      rw [Option.isNone_iff_eq_none.mp h1] at hsome
      cases hsome
    · intro hk
      subst hk
      have h1 : (bfs.lookup "$unset").isNone = true := Bool.and_elim_right htB
      rw [Option.isNone_iff_eq_none.mp h1] at hsome
      cases hsome
  | varr xs => cases (show false = true from htB)
  | vnull => cases (show false = true from htB)
  | vbool b => cases (show false = true from htB)
  | vnum n => cases (show false = true from htB)
  | vstr s => cases (show false = true from htB)
  | vdate t => cases (show false = true from htB)

theorem rt_SL_mem (A B : Val) (h : rtSafe A B = true) {p : KeyPath} {w : Val}
    (hm : (p, w) ∈ forwardList (some A) (some B) []) :
    p ∈ keyPathsVal false B ∧ valueForKeyPath p (some B) = some w ∧
      shouldSet (some w) (valueForKeyPath p (some A)) = true := by
  obtain ⟨_, _, _, htB, _, _⟩ := rtSafe_parts h
  rw [forwardList_eq A B (topNoDollar_obj htB)] at hm
  exact collectSets_mem hm

theorem rt_SL_complete (A B : Val) (h : rtSafe A B = true) {p : KeyPath} {w : Val}
    (hp : p ∈ keyPathsVal false B) (hv : valueForKeyPath p (some B) = some w)
    (hss : shouldSet (some w) (valueForKeyPath p (some A)) = true) :
    (p, w) ∈ forwardList (some A) (some B) [] := by
  obtain ⟨_, _, _, htB, _, _⟩ := rtSafe_parts h
  rw [forwardList_eq A B (topNoDollar_obj htB)]
  exact collectSets_complete hp hv hss

theorem rt_SL_pairwise (A B : Val) (h : rtSafe A B = true) :
    pairwiseUnrelated (forwardList (some A) (some B) []) = true := by
  obtain ⟨_, _, hwB, htB, _, _⟩ := rtSafe_parts h
  rw [forwardList_eq A B (topNoDollar_obj htB)]
  apply collectSets_pairwise
  apply pairwiseK_of_forall _ (enum_nodup_val B false hwB)
  intro p hp q hq hne
  exact enum_false_unrelated hwB hp hq hne

theorem rt_objWalk (A B : Val) (h : rtSafe A B = true) {p : KeyPath}
    (hp : p ∈ keyPathsVal false B) : objWalk p A = true := by
  obtain ⟨hoA, _, hwB, htB, hnd, _⟩ := rtSafe_parts h
  have hoB := topNoDollar_obj htB
  have hpt := enum_false_sub_true hwB hoB hp
  obtain ⟨_, hne, hpre, _⟩ := enum_sound_val B false p hwB hp
  apply objWalk_of_reads p A hne hoA
  intro r hr hne1 hne2
  have hrt := enum_prefix_mem hwB hoB hpt hr hne1 hne2
  have hbr := hpre r hr hne1 hne2
  have hcond := newDocOk_at hnd hrt
  cases hrb : valueForKeyPath r (some B) with
  | none =>
    rw [hrb] at hbr
    cases (show false = true from hbr)
  | some br =>
    rw [hrb] at hbr hcond
    have hib : isBranch br = true := hbr
    have hcond2 : (if isBranch br = true
        then !arrRead (valueForKeyPath r (some A))
        else decide (br ≠ .vobj .nil) && (isNumV br || truthy br ||
          isEqualOpt (valueForKeyPath r (some A)) (some br))) = true := hcond
    rw [if_pos hib] at hcond2
    simpa using hcond2

theorem mem_unsetPathsOf {A B : Val} {r : KeyPath} :
    r ∈ unsetPathsOf A B ↔
      r ∈ keyPathsVal true A ∧ (valueForKeyPath r (some B)).isNone = true := by
  unfold unsetPathsOf
  exact List.mem_filter

theorem subsume_nodup {us : List KeyPath} (h : us.Nodup) : (subsume us).Nodup := by
  unfold subsume
  exact h.filter _

theorem rt_VL_mem (A B : Val) {v : KeyPath}
    (hv : v ∈ subsume (unsetPathsOf A B)) :
    v ∈ keyPathsVal true A ∧ valueForKeyPath v (some B) = none := by
  have h1 := (mem_subsume hv).1
  have h2 := mem_unsetPathsOf.mp h1
  exact ⟨h2.1, Option.isNone_iff_eq_none.mp h2.2⟩

theorem rt_VL_pairwise (A B : Val) (h : rtSafe A B = true) :
    pairwiseUnrelatedK (subsume (unsetPathsOf A B)) = true := by
  obtain ⟨_, hwA, _, _, _, _⟩ := rtSafe_parts h
  apply pairwiseK_of_forall _ (subsume_nodup ((enum_nodup_val A true hwA).filter _))
  intro p hp q hq hne
  show (!pathIsPrefix p q && !pathIsPrefix q p) = true
  have h1 : pathIsPrefix p q = false := by
    cases hc : pathIsPrefix p q with
    | false => rfl
    | true => exact (subsume_minimal hq (mem_subsume hp).1 hc hne).elim
  have h2 : pathIsPrefix q p = false := by
    cases hc : pathIsPrefix q p with
    | false => rfl
    | true => exact (subsume_minimal hp (mem_subsume hq).1 hc (fun hx => hne hx.symm)).elim
  rw [h1, h2]
  rfl

theorem rt_VL_minimal (A B : Val) (h : rtSafe A B = true) {v r : KeyPath}
    (hv : v ∈ subsume (unsetPathsOf A B)) (hr : pathIsPrefix r v = true)
    (hrne : r ≠ []) (hrv : r ≠ v) : (valueForKeyPath r (some B)).isSome = true := by
  obtain ⟨hoA, hwA, _, _, _, _⟩ := rtSafe_parts h
  have hvA := (rt_VL_mem A B hv).1
  have hrA := enum_prefix_mem hwA hoA hvA hr hrne hrv
  cases hrb : valueForKeyPath r (some B) with
  | some c => rfl
  | none =>
    exact (subsume_minimal hv (mem_unsetPathsOf.mpr ⟨hrA, by rw [hrb]; rfl⟩) hr hrv).elim

theorem rt_VL_pnSafe (A B : Val) (h : rtSafe A B = true) {v : KeyPath}
    (hv : v ∈ subsume (unsetPathsOf A B)) : pnSafe v = true := by
  obtain ⟨hoA, hwA, hwB, htB, _, _⟩ := rtSafe_parts h
  have hvA := (rt_VL_mem A B hv).1
  obtain ⟨_, hne, _, _⟩ := enum_sound_val A true v hwA hvA
  cases v with
  | nil => exact absurd rfl hne
  | cons k v' =>
    cases v' with
    | nil => rfl
    | cons k2 rest =>
      show (!dollarExempt k) = true
      cases hd : dollarExempt k with
      | false => rfl
      | true =>
        have hBk : valueForKeyPath [k] (some B) = none := by
          cases B with
          | vobj bfs =>
            rw [read_single, getKey_obj]
            rcases Bool.or_eq_true_iff.mp hd with h1 | h1
            · rw [show k = "$set" by simpa using h1]
              exact Option.isNone_iff_eq_none.mp (Bool.and_elim_left htB)
            · rw [show k = "$unset" by simpa using h1]
              exact Option.isNone_iff_eq_none.mp (Bool.and_elim_right htB)
          | varr xs => cases (show false = true from htB)
          | vnull => cases (show false = true from htB)
          | vbool b => cases (show false = true from htB)
          | vnum n => cases (show false = true from htB)
          | vstr s => cases (show false = true from htB)
          | vdate t => cases (show false = true from htB)
        have hpre1 : pathIsPrefix [k] (k :: k2 :: rest) = true := by
          show ((k == k) && pathIsPrefix [] (k2 :: rest)) = true
          rw [show (k == k) = true by simp]
          rfl
        have hne1 : [k] ≠ k :: k2 :: rest :=
          fun hx => List.noConfusion (((List.cons.injEq k [] k (k2 :: rest)).mp hx).2)
        have hkA : [k] ∈ keyPathsVal true A :=
          enum_prefix_mem hwA hoA hvA hpre1 (by simp) hne1
        exact (subsume_minimal hv (mem_unsetPathsOf.mpr ⟨hkA, by rw [hBk]; rfl⟩)
          hpre1 hne1).elim

theorem rt_single_VL (A B : Val) (h : rtSafe A B = true) {k : String}
    (hA : (valueForKeyPath [k] (some A)).isSome = true)
    (hB : valueForKeyPath [k] (some B) = none) :
    [k] ∈ subsume (unsetPathsOf A B) := by
  obtain ⟨hoA, hwA, _, _, _, _⟩ := rtSafe_parts h
  have hkA : [k] ∈ keyPathsVal true A := by
    apply (enum_complete_val A [k] hoA hA (by simp) ?_).1
    intro q hq h1 h2
    cases q with
    | nil => exact absurd rfl h1
    | cons kq q' =>
      cases q' with
      | nil =>
        have : kq = k := by simpa using (Bool.and_elim_left hq)
        subst this
        exact absurd rfl h2
      | cons k3 q3 => cases (show false = true from (Bool.and_elim_right hq))
  unfold subsume
  apply List.mem_filter.mpr
  refine ⟨mem_unsetPathsOf.mpr ⟨hkA, by rw [hB]; rfl⟩, ?_⟩
  simp only [Bool.not_eq_true']
  apply List.any_eq_false.mpr
  intro b hb
  have hbe := mem_unsetPathsOf.mp hb
  obtain ⟨_, hbne, _, _⟩ := enum_sound_val A true b hwA hbe.1
  have hnl : ¬(b.length < 1) := by
    intro hlt
    exact hbne (List.length_eq_zero.mp (Nat.lt_one_iff.mp hlt))
  simp [keyPathContainsPathStrict, hnl]

/-- Among the prefixes of a keypath satisfying a test, there is a minimal
one (all of whose proper prefixes fail the test). -/
theorem exists_min_prefix (P : KeyPath → Bool) (q : KeyPath)
    (hex : ∃ r, pathIsPrefix r q = true ∧ P r = true) :
    ∃ m, pathIsPrefix m q = true ∧ P m = true ∧
      ∀ r, pathIsPrefix r m = true → r ≠ m → P r = false := by
  obtain ⟨r, hr, hP⟩ := hex
  have hmem : r ∈ (prefixList q).filter P :=
    List.mem_filter.mpr ⟨(mem_prefixList r q).mpr hr, hP⟩
  have hfne : (prefixList q).filter P ≠ [] := by
    intro he
    rw [he] at hmem
    cases hmem
  obtain ⟨m, hm, hmin⟩ := exists_min_len ((prefixList q).filter P) hfne
  have hm2 := List.mem_filter.mp hm
  refine ⟨m, (mem_prefixList m q).mp hm2.1, hm2.2, ?_⟩
  intro r2 hr2 hne2
  cases hP2 : P r2 with
  | false => rfl
  | true =>
    have hr2q : pathIsPrefix r2 q :=
      pathIsPrefix_trans r2 m q hr2 ((mem_prefixList m q).mp hm2.1)
    have hmem2 : r2 ∈ (prefixList q).filter P :=
      List.mem_filter.mpr ⟨(mem_prefixList r2 q).mpr hr2q, hP2⟩
    have hlen := hmin r2 hmem2
    obtain ⟨ht, hl⟩ := pathIsPrefix_take r2 m hr2
    have hlt : r2.length < m.length :=
      Nat.lt_of_le_of_ne hl (fun he => hne2 (by rw [← ht, he, List.take_length]))
    exact absurd hlen (Nat.not_le.mpr hlt)

/-- A leaf of the new document the forward pass did not record is already
deeply equal in the old document. -/
theorem rt_kept_leaf (A B : Val) (h : rtSafe A B = true) {q : KeyPath} {b : Val}
    (hq : q ∈ keyPathsVal false B) (hv : valueForKeyPath q (some B) = some b)
    (hns : shouldSet (some b) (valueForKeyPath q (some A)) = false) :
    isEqualOpt (valueForKeyPath q (some A)) (some b) = true := by
  obtain ⟨_, _, hwB, htB, hnd, _⟩ := rtSafe_parts h
  have hoB := topNoDollar_obj htB
  have hqt := enum_false_sub_true hwB hoB hq
  obtain ⟨_, _, _, hal⟩ := enum_sound_val B false q hwB hq
  have hnb : isBranch b = true → False := by
    intro hib
    have := hal rfl
    rw [hv] at this
    rw [show branchRead (some b) = true from hib] at this
    cases this
  have hcond := newDocOk_at hnd hqt
  rw [hv] at hcond
  have hcond2 : (if isBranch b = true
      then !arrRead (valueForKeyPath q (some A))
      else decide (b ≠ .vobj .nil) && (isNumV b || truthy b ||
        isEqualOpt (valueForKeyPath q (some A)) (some b))) = true := hcond
  rw [if_neg (fun hx => hnb hx)] at hcond2
  have hleaf := Bool.and_elim_right hcond2
  cases b with
  | varr xs =>
    have : (!isEqualOpt (valueForKeyPath q (some A)) (some (Val.varr xs))) = false := hns
    simpa using this
  | vobj fs =>
    have : (!isEqualOpt (valueForKeyPath q (some A)) (some (Val.vobj fs))) = false := hns
    simpa using this
  | vdate t =>
    cases hp : valueForKeyPath q (some A) with
    | none => rw [hp] at hns; cases (show true = false from hns)
    | some pv =>
      rw [hp] at hns
      cases pv with
      | vdate t2 =>
        have : decide (t ≠ t2) = false := hns
        have ht : t = t2 := by simpa using this
        subst ht
        show isEqual (Val.vdate t) (Val.vdate t) = true
        simp [isEqual, beqVal]
      | vnull => cases (show true = false from hns)
      | vbool x => cases (show true = false from hns)
      | vnum x => cases (show true = false from hns)
      | vstr x => cases (show true = false from hns)
      | varr x => cases (show true = false from hns)
      | vobj x => cases (show true = false from hns)
  | vnum n =>
    have hns2 : (decide (valueForKeyPath q (some A) ≠ some (Val.vnum n)) ||
        !isNumOpt (valueForKeyPath q (some A))) = false := hns
    have h1 := (Bool.or_eq_false_iff.mp hns2).1
    have h2 : valueForKeyPath q (some A) = some (Val.vnum n) := by simpa using h1
    rw [h2]
    show isEqual (Val.vnum n) (Val.vnum n) = true
    simp [isEqual, beqVal]
  | vnull =>
    rcases Bool.or_eq_true_iff.mp hleaf with h1 | h1
    · rcases Bool.or_eq_true_iff.mp h1 with h2 | h2
      · cases (show false = true from h2)
      · cases (show false = true from h2)
    · exact h1
  | vbool bb =>
    cases bb with
    | true =>
      have hns2 : (if truthy (Val.vbool true) = true
          then decide (valueForKeyPath q (some A) ≠ some (Val.vbool true))
          else false) = false := hns
      rw [if_pos (show truthy (Val.vbool true) = true from rfl)] at hns2
      have h2 : valueForKeyPath q (some A) = some (Val.vbool true) := by simpa using hns2
      rw [h2]
      show isEqual (Val.vbool true) (Val.vbool true) = true
      simp [isEqual, beqVal]
    | false =>
      rcases Bool.or_eq_true_iff.mp hleaf with h1 | h1
      · rcases Bool.or_eq_true_iff.mp h1 with h2 | h2
        · cases (show false = true from h2)
        · cases (show false = true from h2)
      · exact h1
  | vstr s =>
    cases hts : truthy (Val.vstr s) with
    | true =>
      have hns2 : (if truthy (Val.vstr s) = true
          then decide (valueForKeyPath q (some A) ≠ some (Val.vstr s))
          else false) = false := hns
      rw [if_pos hts] at hns2
      have h2 : valueForKeyPath q (some A) = some (Val.vstr s) := by simpa using hns2
      rw [h2]
      show isEqual (Val.vstr s) (Val.vstr s) = true
      simp [isEqual, beqVal]
    | false =>
      rcases Bool.or_eq_true_iff.mp hleaf with h1 | h1
      · rcases Bool.or_eq_true_iff.mp h1 with h2 | h2
        · cases (show false = true from h2)
        · rw [hts] at h2
          cases h2
      · exact h1

mutual

theorem noEmptyVal_of_reads : ∀ (v : Val), wfVal v = true →
    (∀ p ∈ keyPathsVal false v, valueForKeyPath p (some v) ≠ some (.vobj .nil)) →
    v ≠ .vobj .nil → noEmptyChainVal v = true
  | .vobj .nil, _, _, hne => absurd rfl hne
  | .vobj (.cons k w tl), hw, hr, _ => by
    show (!(Fields.cons k w tl).isEmpty && noEmptyChainFields (.cons k w tl)) = true
    rw [noEmptyFields_of_reads (.cons k w tl) hw hr]
    rfl
  | .varr xs, _, _, _ => rfl
  | .vnull, _, _, _ => rfl
  | .vbool b, _, _, _ => rfl
  | .vnum n, _, _, _ => rfl
  | .vstr s, _, _, _ => rfl
  | .vdate t, _, _, _ => rfl

theorem noEmptyFields_of_reads : ∀ (fs : Fields), wfVal (.vobj fs) = true →
    (∀ p ∈ keyPathsFields false fs,
      valueForKeyPath p (some (.vobj fs)) ≠ some (.vobj .nil)) →
    noEmptyChainFields fs = true
  | .nil, _, _ => rfl
  | .cons k v tl, hw, hr => by
    have hnd : nodupKeys (Fields.cons k v tl) = true := Bool.and_elim_left hw
    have hwf : wfFields (Fields.cons k v tl) = true := Bool.and_elim_right hw
    have hwv : wfVal v = true := Bool.and_elim_left hwf
    have hktl : k ∉ tl.keys := by simpa using (Bool.and_elim_left hnd)
    have hwtl : wfVal (.vobj tl) = true := by
      show (nodupKeys tl && wfFields tl) = true
      rw [Bool.and_elim_right hnd, Bool.and_elim_right hwf]
      rfl
    show (noEmptyChainVal v && noEmptyChainFields tl) = true
    have hv : noEmptyChainVal v = true := by
      by_cases hb : isBranch v = true
      · apply noEmptyVal_of_reads v hwv ?_ ?_
        · intro p hp hcontra
          apply hr (k :: p) ?_ ?_
          · unfold keyPathsFields
            apply List.mem_append_left
            rw [if_pos hb]
            apply List.mem_append_right
            exact List.mem_map.mpr ⟨p, hp, rfl⟩
          · rw [valueForKeyPath_cons, getKey_obj, lookup_cons_self]
            exact hcontra
        · intro he
          subst he
          cases (show false = true from hb)
      · cases v with
        | vobj g =>
          cases g with
          | nil =>
            exact absurd (show valueForKeyPath [k]
                (some (Val.vobj (Fields.cons k (Val.vobj .nil) tl))) =
                  some (Val.vobj .nil) by
                rw [read_single, getKey_obj, lookup_cons_self])
              (hr [k] (by
                unfold keyPathsFields
                apply List.mem_append_left
                rw [if_neg hb]
                simp))
          | cons a b c =>
            exact absurd (show isBranch (Val.vobj (.cons a b c)) = true from rfl) hb
        | varr xs => rfl
        | vnull => rfl
        | vbool bb => rfl
        | vnum n => rfl
        | vstr s => rfl
        | vdate t => rfl
    rw [hv, noEmptyFields_of_reads tl hwtl ?_]
    · rfl
    · intro p hp hcontra
      obtain ⟨k', p', he, hm⟩ := enum_head_mem tl false p hp
      subst he
      apply hr (k' :: p') ?_ ?_
      · unfold keyPathsFields
        exact List.mem_append_right _ hp
      · rw [reads_cons_ne (fun hx => hktl (by rw [hx]; exact hm)) v tl]
        exact hcontra

end

theorem rt_noEmptyB (A B : Val) (h : rtSafe A B = true) : noEmptyChain B = true := by
  obtain ⟨_, _, hwB, htB, hnd, _⟩ := rtSafe_parts h
  have hoB := topNoDollar_obj htB
  cases B with
  | vobj bfs =>
    show noEmptyChainFields bfs = true
    apply noEmptyFields_of_reads bfs hwB
    intro p hp hcontra
    have hpt := enum_false_sub_true hwB hoB (show p ∈ keyPathsVal false (.vobj bfs) from hp)
    have hcond := newDocOk_at hnd hpt
    rw [show valueForKeyPath p (some (Val.vobj bfs)) = some (.vobj .nil) from hcontra]
      at hcond
    have hcond2 : (if isBranch (Val.vobj .nil) = true
        then !arrRead (valueForKeyPath p (some A))
        else decide ((Val.vobj .nil) ≠ .vobj .nil) && (isNumV (Val.vobj .nil) ||
          truthy (Val.vobj .nil) ||
          isEqualOpt (valueForKeyPath p (some A)) (some (.vobj .nil)))) = true := hcond
    rw [if_neg (by intro hx; cases (show false = true from hx))] at hcond2
    have := Bool.and_elim_left hcond2
    simp at this
  | varr xs => cases (show false = true from htB)
  | vnull => cases (show false = true from htB)
  | vbool b => cases (show false = true from htB)
  | vnum n => cases (show false = true from htB)
  | vstr s => cases (show false = true from htB)
  | vdate t => cases (show false = true from htB)

theorem assembleModifier_none {setL : List (KeyPath × Val)} {unsetL : List KeyPath}
    (h : assembleModifier setL unsetL = none) : setL = [] ∧ unsetL = [] := by
  by_cases hs : setL.isEmpty = true <;> by_cases hu : unsetL.isEmpty = true
  · exact ⟨List.isEmpty_iff.mp hs, List.isEmpty_iff.mp hu⟩
  · unfold assembleModifier at h
    simp [hs, hu] at h
  · unfold assembleModifier at h
    simp [hs, hu] at h
  · unfold assembleModifier at h
    simp [hs, hu] at h

theorem assembleModifier_some_eq {setL : List (KeyPath × Val)} {unsetL : List KeyPath}
    {m : Modifier} (h : assembleModifier setL unsetL = some m) :
    m = modOf setL unsetL := by
  have h2 := assembleModifier_inv h
  cases m with
  | mk ms mu =>
    show Modifier.mk ms mu = modOf setL unsetL
    rw [show ms = (if setL.isEmpty then none else some setL) from h2.1,
      show mu = (if unsetL.isEmpty then none
        else some (unsetL.map (fun p => (p, some (Val.vbool true))))) from h2.2]
    rfl

theorem assembleModifier_not_both {setL : List (KeyPath × Val)} {unsetL : List KeyPath}
    {m : Modifier} (h : assembleModifier setL unsetL = some m) :
    ¬(setL = [] ∧ unsetL = []) := by
  rintro ⟨h1, h2⟩
  subst h1
  subst h2
  cases (show (none : Option Modifier) = some m from h)

theorem modOf_flag {s : List (KeyPath × Val)} {u : List KeyPath}
    (h : ¬(s = [] ∧ u = [])) :
    ((modOf s u).set.isSome || (modOf s u).unset.isSome) = true := by
  cases s with
  | cons e tl => rfl
  | nil =>
    cases u with
    | cons p tl => rfl
    | nil => exact absurd ⟨rfl, rfl⟩ h

/-! ### The working document through the round-trip passes -/

theorem midState_decomp (A B : Val) :
    midState A B =
      junkDropUnset
        (modOf (forwardList (some A) (some B) []) (subsume (unsetPathsOf A B))).unset
        (junkDropSet
          (modOf (forwardList (some A) (some B) []) (subsume (unsetPathsOf A B))).set
          (rtX4 A B)) := by
  unfold midState rtX4 rtX3 rtX1
  rw [dollarSet_decomp, dollarUnset_decomp, flatSetOf_modOf, flatUnsetOf_modOf]

theorem rt_SL_facts (A B : Val) (h : rtSafe A B = true) :
    ∀ e ∈ forwardList (some A) (some B) [],
      e.1 ∈ keyPathsVal false B ∧ valueForKeyPath e.1 (some B) = some e.2 ∧
      shouldSet (some e.2) (valueForKeyPath e.1 (some A)) = true ∧
      objWalk e.1 A = true ∧ pathWritable e.1 A = true ∧ guardSet e.2 = true ∧
      e.1 ≠ [] ∧ wfVal e.2 = true := by
  intro e hm
  obtain ⟨p, w⟩ := e
  obtain ⟨h1, h2, h3⟩ := rt_SL_mem A B h hm
  obtain ⟨_, _, hwB, _, _, _⟩ := rtSafe_parts h
  have how := rt_objWalk A B h h1
  obtain ⟨_, hne, _, _⟩ := enum_sound_val B false p hwB h1
  exact ⟨h1, h2, h3, how, objWalk_writable p A how, guard_of_shouldSet w _ h3, hne,
    wf_read p B hwB h2⟩

theorem rt_SL_writable (A B : Val) (h : rtSafe A B = true) :
    ∀ e ∈ forwardList (some A) (some B) [], pathWritable e.1 A = true :=
  fun e hm => (rt_SL_facts A B h e hm).2.2.2.2.1

theorem rt_SL_objWalk (A B : Val) (h : rtSafe A B = true) :
    ∀ e ∈ forwardList (some A) (some B) [], objWalk e.1 A = true :=
  fun e hm => (rt_SL_facts A B h e hm).2.2.2.1

theorem rt_SL_guard (A B : Val) (h : rtSafe A B = true) :
    ∀ e ∈ forwardList (some A) (some B) [], guardSet e.2 = true :=
  fun e hm => (rt_SL_facts A B h e hm).2.2.2.2.2.1

theorem rt_UL_mem {A B : Val} {e : KeyPath × Option Val}
    (hm : e ∈ (subsume (unsetPathsOf A B)).map (fun p => (p, some (Val.vbool true)))) :
    e.1 ∈ subsume (unsetPathsOf A B) := by
  rcases List.mem_map.mp hm with ⟨p, hp, he⟩
  subst he
  exact hp

theorem rt_UL_fst (A B : Val) :
    ((subsume (unsetPathsOf A B)).map
      (fun p => (p, some (Val.vbool true)))).map Prod.fst =
      subsume (unsetPathsOf A B) := by
  rw [List.map_map]
  exact List.map_id'' (fun x => rfl) _

theorem rtX1_rootOk (A B : Val) (h : rtSafe A B = true) : rootOk (rtX1 A B) = true := by
  obtain ⟨hoA, hwA, _, _, _, _⟩ := rtSafe_parts h
  have hrA : rootOk A = true := by
    cases A with
    | vobj afs => exact rootOk_of_wf hwA
    | varr xs => cases (show false = true from hoA)
    | vnull => cases (show false = true from hoA)
    | vbool b => cases (show false = true from hoA)
    | vnum n => cases (show false = true from hoA)
    | vstr s => cases (show false = true from hoA)
    | vdate t => cases (show false = true from hoA)
  exact sfold_rootOk _ A hrA (fun e hm =>
    ⟨(rt_SL_facts A B h e hm).2.2.2.2.2.2.1, (rt_SL_facts A B h e hm).2.2.2.2.2.2.2⟩)

theorem rtX3_rootOk (A B : Val) (h : rtSafe A B = true) : rootOk (rtX3 A B) = true :=
  junkUnsetObj_rootOk _ _ (junkSet_rootOk _ _ (rtX1_rootOk A B h))

theorem rtX4_rootOk (A B : Val) (h : rtSafe A B = true) : rootOk (rtX4 A B) = true :=
  uflat_rootOk _ _ (rtX3_rootOk A B h)

theorem rt_mid_rootOk (A B : Val) (h : rtSafe A B = true) :
    rootOk (midState A B) = true := by
  rw [midState_decomp]
  exact junkDropUnset_rootOk _ _ (junkDropSet_rootOk _ _ (rtX4_rootOk A B h))

theorem rtX3_reads (A B : Val) (h : rtSafe A B = true) {kq : String}
    (hkq : dollarExempt kq = false) (q' : KeyPath) :
    valueForKeyPath (kq :: q') (some (rtX3 A B)) =
      valueForKeyPath (kq :: q') (some (rtX1 A B)) := by
  have hne1 : "$set" ≠ kq := by
    intro he
    rw [← he] at hkq
    simp [dollarExempt] at hkq
  have hne2 : "$unset" ≠ kq := by
    intro he
    rw [← he] at hkq
    simp [dollarExempt] at hkq
  unfold rtX3
  rw [junkUnsetObj_reads _ _ (rootOk_objV (junkSet_rootOk _ _ (rtX1_rootOk A B h)))
      hne2 q',
    junkSet_reads _ _ (rootOk_objV (rtX1_rootOk A B h)) hne1 q']

theorem rtM_reads (A B : Val) (h : rtSafe A B = true) {kq : String}
    (hkq : dollarExempt kq = false) (q' : KeyPath) :
    valueForKeyPath (kq :: q') (some (midState A B)) =
      valueForKeyPath (kq :: q') (some (rtX4 A B)) := by
  have hne1 : "$set" ≠ kq := by
    intro he
    rw [← he] at hkq
    simp [dollarExempt] at hkq
  have hne2 : "$unset" ≠ kq := by
    intro he
    rw [← he] at hkq
    simp [dollarExempt] at hkq
  rw [midState_decomp]
  rw [junkDropUnset_reads _ _ (rootOk_objV (junkDropSet_rootOk _ _ (rtX4_rootOk A B h)))
      hne2 q',
    junkDropSet_reads _ _ (rootOk_objV (rtX4_rootOk A B h)) hne1 q']

theorem rtX1_frame (A B : Val) (h : rtSafe A B = true) {q : KeyPath}
    (hu : ∀ e ∈ forwardList (some A) (some B) [], pathUnrelated e.1 q = true) :
    valueForKeyPath q (some (rtX1 A B)) = valueForKeyPath q (some A) :=
  dollarSetFlat_frame _ A q (rt_SL_writable A B h) (rt_SL_pairwise A B h) hu

theorem rtX1_entry (A B : Val) (h : rtSafe A B = true) {p : KeyPath} {w : Val}
    (hm : (p, w) ∈ forwardList (some A) (some B) []) :
    valueForKeyPath p (some (rtX1 A B)) = some w :=
  dollarSetFlat_entry _ A p w (rt_SL_writable A B h) (rt_SL_pairwise A B h) hm
    (rt_SL_guard A B h (p, w) hm)

theorem rtX1_spine (A B : Val) (h : rtSafe A B = true) {q : KeyPath}
    (hex : ∃ e, e ∈ forwardList (some A) (some B) [] ∧
      pathIsPrefix q e.1 = true ∧ q ≠ e.1) :
    obs (valueForKeyPath q (some (rtX1 A B))) = .oobj := by
  obtain ⟨e, hm, h1, h2⟩ := hex
  exact sfold_prefix_obj _ A q (rt_SL_writable A B h) (rt_SL_objWalk A B h)
    (rt_SL_pairwise A B h) ⟨e, hm, h1, h2, rt_SL_guard A B h e hm⟩

theorem rtX1_oobj_pres (A B : Val) (h : rtSafe A B = true) {r : KeyPath}
    (hnp : ∀ e ∈ forwardList (some A) (some B) [], pathIsPrefix e.1 r = false)
    (hA : obs (valueForKeyPath r (some A)) = .oobj) :
    obs (valueForKeyPath r (some (rtX1 A B))) = .oobj :=
  sfold_obs_oobj_pres _ A r (rt_SL_writable A B h) (rt_SL_pairwise A B h) hnp hA

theorem rtX4_frame (A B : Val) (h : rtSafe A B = true) {q : KeyPath}
    (hc : ∀ e ∈ (subsume (unsetPathsOf A B)).map (fun p => (p, some (Val.vbool true))),
      pathUnrelated e.1 q = true ∨ valueForKeyPath e.1 (some (rtX3 A B)) = none) :
    valueForKeyPath q (some (rtX4 A B)) = valueForKeyPath q (some (rtX3 A B)) :=
  uflat_frame _ _ q (rtX3_rootOk A B h)
    (fun e hm => rt_VL_pnSafe A B h (rt_UL_mem hm)) hc

theorem rtX4_obs (A B : Val) (h : rtSafe A B = true) {q : KeyPath}
    (hc : ∀ e ∈ (subsume (unsetPathsOf A B)).map (fun p => (p, some (Val.vbool true))),
      pathIsPrefix e.1 q = false ∨ valueForKeyPath e.1 (some (rtX3 A B)) = none) :
    obs (valueForKeyPath q (some (rtX4 A B))) =
      obs (valueForKeyPath q (some (rtX3 A B))) :=
  uflat_obs _ _ q (rtX3_rootOk A B h)
    (fun e hm => rt_VL_pnSafe A B h (rt_UL_mem hm)) hc

theorem rtX4_none (A B : Val) (h : rtSafe A B = true) {q : KeyPath}
    (hq : valueForKeyPath q (some (rtX3 A B)) = none) :
    valueForKeyPath q (some (rtX4 A B)) = none :=
  uflat_none_pres _ _ q (rtX3_rootOk A B h)
    (fun e hm => rt_VL_pnSafe A B h (rt_UL_mem hm)) hq

theorem rtX4_kill (A B : Val) (h : rtSafe A B = true) {q : KeyPath}
    (hex : ∃ e, e ∈ (subsume (unsetPathsOf A B)).map
      (fun p => (p, some (Val.vbool true))) ∧ pathIsPrefix e.1 q = true)
    (hc : ∀ e ∈ (subsume (unsetPathsOf A B)).map (fun p => (p, some (Val.vbool true))),
      pathIsPrefix e.1 q = true →
      (∀ r, pathIsPrefix r e.1 = true → r ≠ e.1 →
        obs (valueForKeyPath r (some (rtX3 A B))) = .oobj) ∨
      valueForKeyPath e.1 (some (rtX3 A B)) = none) :
    valueForKeyPath q (some (rtX4 A B)) = none := by
  apply uflat_kill _ _ q (rtX3_rootOk A B h)
    (fun e hm => rt_VL_pnSafe A B h (rt_UL_mem hm)) ?_ hex hc
  rw [rt_UL_fst]
  exact rt_VL_pairwise A B h

theorem junkDropUnset_none (x : Val) : junkDropUnset none x = x := rfl

theorem junkDropUnset_some (u : List (KeyPath × Option Val)) (x : Val) :
    junkDropUnset (some u) x = unsetKeyPath ["$unset"] x := rfl

theorem junkDropSet_none (x : Val) : junkDropSet none x = x := rfl

theorem junkDropSet_some (s : List (KeyPath × Val)) (x : Val) :
    junkDropSet (some s) x = unsetKeyPath ["$set"] x := rfl

theorem obs_some_obj {x : Val} (h : isObjV x = true) : obs (some x) = .oobj := by
  cases x with
  | vobj fs => rfl
  | varr xs => cases (show false = true from h)
  | vnull => cases (show false = true from h)
  | vbool b => cases (show false = true from h)
  | vnum n => cases (show false = true from h)
  | vstr s => cases (show false = true from h)
  | vdate t => cases (show false = true from h)

theorem unset_single_self_none (k : String) (x : Val) (hr : rootOk x = true) :
    valueForKeyPath [k] (some (unsetKeyPath [k] x)) = none := by
  cases x with
  | vobj fs =>
    rw [unsetKP_obj_single, read_single, getKey_obj,
      lookup_removeField_self fs k (Bool.and_elim_left hr)]
  | varr xs => cases (show false = true from hr)
  | vnull => cases (show false = true from hr)
  | vbool b => cases (show false = true from hr)
  | vnum n => cases (show false = true from hr)
  | vstr s => cases (show false = true from hr)
  | vdate t => cases (show false = true from hr)

theorem topNoDollar_read_set {B : Val} (h : topNoDollar B = true) :
    valueForKeyPath ["$set"] (some B) = none := by
  cases B with
  | vobj bfs =>
    rw [read_single, getKey_obj]
    exact Option.isNone_iff_eq_none.mp (Bool.and_elim_left h)
  | varr xs => cases (show false = true from h)
  | vnull => cases (show false = true from h)
  | vbool b => cases (show false = true from h)
  | vnum n => cases (show false = true from h)
  | vstr s => cases (show false = true from h)
  | vdate t => cases (show false = true from h)

theorem topNoDollar_read_unset {B : Val} (h : topNoDollar B = true) :
    valueForKeyPath ["$unset"] (some B) = none := by
  cases B with
  | vobj bfs =>
    rw [read_single, getKey_obj]
    exact Option.isNone_iff_eq_none.mp (Bool.and_elim_right h)
  | varr xs => cases (show false = true from h)
  | vnull => cases (show false = true from h)
  | vbool b => cases (show false = true from h)
  | vnum n => cases (show false = true from h)
  | vstr s => cases (show false = true from h)
  | vdate t => cases (show false = true from h)

theorem read_cons_none {k : String} {x : Val}
    (h : valueForKeyPath [k] (some x) = none) (q' : KeyPath) :
    valueForKeyPath (k :: q') (some x) = none := by
  rw [valueForKeyPath_cons, show getKey k x = none from h]
  exact valueForKeyPath_none q'

/-- A listed path of the backward pass that is a prefix of a one-segment
path is that path itself. -/
theorem rt_VL_prefix_single (A B : Val) (h : rtSafe A B = true) {v : KeyPath}
    {k : String} (hv : v ∈ subsume (unsetPathsOf A B))
    (hp : pathIsPrefix v [k] = true) : v = [k] := by
  obtain ⟨_, hwA, _, _, _, _⟩ := rtSafe_parts h
  obtain ⟨_, hne, _, _⟩ := enum_sound_val A true v hwA (rt_VL_mem A B hv).1
  cases v with
  | nil => exact absurd rfl hne
  | cons kv v' =>
    have e1 : kv = k := by simpa using (Bool.and_elim_left hp)
    subst e1
    cases v' with
    | nil => rfl
    | cons k2 rest => cases (show false = true from (Bool.and_elim_right hp))

theorem modOf_set_nil (u : List KeyPath) : (modOf [] u).set = none := rfl

theorem modOf_set_cons (e : KeyPath × Val) (tl : List (KeyPath × Val))
    (u : List KeyPath) : (modOf (e :: tl) u).set = some (e :: tl) := rfl

theorem modOf_unset_nil (s : List (KeyPath × Val)) : (modOf s []).unset = none := rfl

theorem modOf_unset_cons (s : List (KeyPath × Val)) (v : KeyPath) (tl : List KeyPath) :
    (modOf s (v :: tl)).unset =
      some ((v :: tl).map (fun p => (p, some (Val.vbool true)))) := rfl

/-- The final document owns no literal `$set`/`$unset` path. -/
theorem rt_dollar_none (A B : Val) (h : rtSafe A B = true) :
    valueForKeyPath ["$set"] (some (midState A B)) = none ∧
    valueForKeyPath ["$unset"] (some (midState A B)) = none := by
  obtain ⟨hoA, hwA, hwB, htB, _, _⟩ := rtSafe_parts h
  constructor
  · rw [midState_decomp]
    cases hs : forwardList (some A) (some B) [] with
    | cons e tl =>
      rw [modOf_set_cons, junkDropSet_some]
      cases hu : (modOf (e :: tl) (subsume (unsetPathsOf A B))).unset with
      | none =>
        rw [junkDropUnset_none]
        exact unset_single_self_none "$set" _ (rtX4_rootOk A B h)
      | some u =>
        rw [junkDropUnset_some]
        rw [unsetKP_single_reads_other (show "$unset" ≠ "$set" by decide) _
          (rootOk_objV (rootOk_unset _ _ (rtX4_rootOk A B h))) []]
        exact unset_single_self_none "$set" _ (rtX4_rootOk A B h)
    | nil =>
      rw [modOf_set_nil, junkDropSet_none]
      have hX1 : rtX1 A B = A := by
        unfold rtX1
        rw [hs]
        rfl
      have hX3read : valueForKeyPath ["$set"] (some (rtX3 A B)) =
          valueForKeyPath ["$set"] (some A) := by
        unfold rtX3
        rw [hs, modOf_set_nil]
        show valueForKeyPath ["$set"] (some (junkUnsetObj _ (junkSet none (rtX1 A B)))) = _
        rw [show junkSet none (rtX1 A B) = rtX1 A B from rfl]
        rw [junkUnsetObj_reads _ _ (by rw [hX1]; exact hoA)
          (show "$unset" ≠ "$set" by decide) [], hX1]
      have hX4none : valueForKeyPath ["$set"] (some (rtX4 A B)) = none := by
        cases hA : valueForKeyPath ["$set"] (some A) with
        | none =>
          apply rtX4_none A B h
          rw [hX3read, hA]
        | some c =>
          have hmemVL : ["$set"] ∈ subsume (unsetPathsOf A B) :=
            rt_single_VL A B h (by rw [hA]; rfl) (topNoDollar_read_set htB)
          apply rtX4_kill A B h
          · exact ⟨(["$set"], some (Val.vbool true)),
              List.mem_map.mpr ⟨["$set"], hmemVL, rfl⟩, pathIsPrefix_refl _⟩
          · intro e hm hpre
            left
            intro r hrp hrne
            have he1 : e.1 = ["$set"] := rt_VL_prefix_single A B h (rt_UL_mem hm) hpre
            rw [he1] at hrp hrne
            cases r with
            | nil => exact obs_some_obj (rootOk_objV (rtX3_rootOk A B h))
            | cons kr r' =>
              have e1 : kr = "$set" := by simpa using (Bool.and_elim_left hrp)
              subst e1
              cases r' with
              | nil => exact absurd rfl hrne
              | cons k3 r3 =>
                cases (show false = true from (Bool.and_elim_right hrp))
      cases hu : (modOf ([] : List (KeyPath × Val))
          (subsume (unsetPathsOf A B))).unset with
      | none =>
        rw [junkDropUnset_none]
        exact hX4none
      | some u =>
        rw [junkDropUnset_some]
        rw [unsetKP_single_reads_other (show "$unset" ≠ "$set" by decide) _
          (rootOk_objV (rtX4_rootOk A B h)) []]
        exact hX4none
  · rw [midState_decomp]
    cases hv : subsume (unsetPathsOf A B) with
    | cons v tl =>
      rw [modOf_unset_cons, junkDropUnset_some]
      exact unset_single_self_none "$unset" _
        (junkDropSet_rootOk _ _ (rtX4_rootOk A B h))
    | nil =>
      rw [modOf_unset_nil, junkDropUnset_none]
      have hX4 : rtX4 A B = rtX3 A B := by
        unfold rtX4
        rw [hv]
        rfl
      have hAnone : valueForKeyPath ["$unset"] (some A) = none := by
        cases hA : valueForKeyPath ["$unset"] (some A) with
        | none => rfl
        | some c =>
          have hmemVL : ["$unset"] ∈ subsume (unsetPathsOf A B) :=
            rt_single_VL A B h (by rw [hA]; rfl) (topNoDollar_read_unset htB)
          rw [hv] at hmemVL
          cases hmemVL
      have hX1none : valueForKeyPath ["$unset"] (some (rtX1 A B)) = none := by
        rw [rtX1_frame A B h ?_, hAnone]
        intro e hm
        obtain ⟨k2, p2, he, hk1, hk2⟩ :=
          rt_B_head A B h (enum_false_sub_true hwB (topNoDollar_obj htB)
            (rt_SL_facts A B h e hm).1)
        rw [he]
        exact unrelated_of_head_ne hk2 p2 []
      have hgoal : valueForKeyPath ["$unset"] (some (rtX3 A B)) = none := by
        unfold rtX3
        rw [hv, modOf_unset_nil]
        show valueForKeyPath ["$unset"]
          (some (junkUnsetObj none (junkSet _ (rtX1 A B)))) = none
        rw [show ∀ y, junkUnsetObj none y = y from fun y => rfl]
        rw [junkSet_reads _ _ (rootOk_objV (rtX1_rootOk A B h))
          (show "$set" ≠ "$unset" by decide) []]
        exact hX1none
      cases hst : (modOf (forwardList (some A) (some B) [])
          ([] : List KeyPath)).set with
      | none =>
        rw [junkDropSet_none, hX4]
        exact hgoal
      | some s2 =>
        rw [junkDropSet_some]
        rw [unsetKP_single_reads_other (show "$set" ≠ "$unset" by decide) _
          (rootOk_objV (rtX4_rootOk A B h)) []]
        rw [hX4]
        exact hgoal

/-- Exact preservation through all passes at paths disjoint from every write
and (effectively) every removal. -/
theorem rt_frame_exact (A B : Val) (h : rtSafe A B = true) {kq : String}
    {q' : KeyPath} (hdol : dollarExempt kq = false)
    (hSLu : ∀ e ∈ forwardList (some A) (some B) [],
      pathUnrelated e.1 (kq :: q') = true)
    (hVLu : ∀ e ∈ (subsume (unsetPathsOf A B)).map (fun p => (p, some (Val.vbool true))),
      pathUnrelated e.1 (kq :: q') = true ∨
        valueForKeyPath e.1 (some (rtX3 A B)) = none) :
    valueForKeyPath (kq :: q') (some (midState A B)) =
      valueForKeyPath (kq :: q') (some A) := by
  rw [rtM_reads A B h hdol q', rtX4_frame A B h hVLu, rtX3_reads A B h hdol q',
    rtX1_frame A B h hSLu]

/-- After the `$set` pass, a path below which something fires reads as an
object: created by the writes below it, or inherited from the old document. -/
theorem rt_spine_obs_X3 (A B : Val) (h : rtSafe A B = true) {kq : String}
    {q' : KeyPath} (hdol : dollarExempt kq = false)
    (hnof : ¬∃ e, e ∈ forwardList (some A) (some B) [] ∧
      pathIsPrefix e.1 (kq :: q') = true)
    (hcond : branchRead (valueForKeyPath (kq :: q') (some A)) = true ∨
      (∃ e, e ∈ forwardList (some A) (some B) [] ∧
        pathIsPrefix (kq :: q') e.1 = true ∧ (kq :: q') ≠ e.1)) :
    obs (valueForKeyPath (kq :: q') (some (rtX3 A B))) = .oobj := by
  rw [rtX3_reads A B h hdol q']
  by_cases hdeep : ∃ e, e ∈ forwardList (some A) (some B) [] ∧
      pathIsPrefix (kq :: q') e.1 = true ∧ (kq :: q') ≠ e.1
  · exact rtX1_spine A B h hdeep
  · rcases hcond with hbr | hdeep2
    · rw [rtX1_frame A B h ?_]
      · exact obs_oobj_of_branchRead hbr
      · intro e hm
        show (!pathIsPrefix e.1 (kq :: q') && !pathIsPrefix (kq :: q') e.1) = true
        have hc1 : pathIsPrefix e.1 (kq :: q') = false := by
          cases hc : pathIsPrefix e.1 (kq :: q') with
          | false => rfl
          | true => exact absurd ⟨e, hm, hc⟩ hnof
        have hc2 : pathIsPrefix (kq :: q') e.1 = false := by
          cases hc : pathIsPrefix (kq :: q') e.1 with
          | false => rfl
          | true =>
            by_cases he : (kq :: q') = e.1
            · exact absurd ⟨e, hm, by rw [← he]; exact pathIsPrefix_refl _⟩ hnof
            · exact absurd ⟨e, hm, hc, he⟩ hdeep
        rw [hc1, hc2]
        rfl
    · exact absurd hdeep2 hdeep

/-- A kept leaf of the new document survives all passes unchanged (and equal
to the new document's value). -/
theorem rt_leaf_exact (A B : Val) (h : rtSafe A B = true) {kq : String}
    {q' : KeyPath} {b : Val} (hdol : dollarExempt kq = false)
    (hnof : ¬∃ e, e ∈ forwardList (some A) (some B) [] ∧
      pathIsPrefix e.1 (kq :: q') = true)
    (hq : (kq :: q') ∈ keyPathsVal false B)
    (hb : valueForKeyPath (kq :: q') (some B) = some b)
    (hcont : isContainer b = false) :
    valueForKeyPath (kq :: q') (some (midState A B)) = some b := by
  obtain ⟨hoA, hwA, hwB, htB, hnd, hop⟩ := rtSafe_parts h
  have hbrB : branchRead (some b) = false := by
    obtain ⟨_, _, _, hal⟩ := enum_sound_val B false (kq :: q') hwB hq
    have := hal rfl
    rw [hb] at this
    exact this
  have hns : shouldSet (some b) (valueForKeyPath (kq :: q') (some A)) = false := by
    cases hss : shouldSet (some b) (valueForKeyPath (kq :: q') (some A)) with
    | false => rfl
    | true =>
      exact absurd ⟨((kq :: q'), b), rt_SL_complete A B h hq hb hss,
        pathIsPrefix_refl _⟩ hnof
  have heq := rt_kept_leaf A B h hq hb hns
  have hA : valueForKeyPath (kq :: q') (some A) = some b := by
    cases ha : valueForKeyPath (kq :: q') (some A) with
    | none =>
      rw [ha] at heq
      cases (show false = true from heq)
    | some a =>
      rw [ha] at heq
      rw [isEqual_noncontainer_eq a b hcont heq]
  rw [rt_frame_exact A B h hdol ?_ ?_, hA]
  · intro e hm
    show (!pathIsPrefix e.1 (kq :: q') && !pathIsPrefix (kq :: q') e.1) = true
    have hc1 : pathIsPrefix e.1 (kq :: q') = false := by
      cases hc : pathIsPrefix e.1 (kq :: q') with
      | false => rfl
      | true => exact absurd ⟨e, hm, hc⟩ hnof
    have hc2 : pathIsPrefix (kq :: q') e.1 = false := by
      cases hc : pathIsPrefix (kq :: q') e.1 with
      | false => rfl
      | true =>
        by_cases he : (kq :: q') = e.1
        · exact absurd ⟨e, hm, by rw [← he]; exact pathIsPrefix_refl _⟩ hnof
        · obtain ⟨_, hneE, hpreE, _⟩ :=
            enum_sound_val B false e.1 hwB (rt_SL_facts A B h e hm).1
          have := hpreE (kq :: q') hc (by simp) he
          rw [hb] at this
          rw [hbrB] at this
          cases this
    rw [hc1, hc2]
    rfl
  · intro e hm
    left
    have hvm := rt_VL_mem A B (rt_UL_mem hm)
    show (!pathIsPrefix e.1 (kq :: q') && !pathIsPrefix (kq :: q') e.1) = true
    have hc1 : pathIsPrefix e.1 (kq :: q') = false := by
      cases hc : pathIsPrefix e.1 (kq :: q') with
      | false => rfl
      | true =>
        have := read_prefix_some hb hc
        rw [hvm.2] at this
        cases this
    have hc2 : pathIsPrefix (kq :: q') e.1 = false := by
      cases hc : pathIsPrefix (kq :: q') e.1 with
      | false => rfl
      | true =>
        by_cases he : (kq :: q') = e.1
        · rw [← he] at hvm
          rw [hb] at hvm
          cases hvm.2
        · obtain ⟨_, hneE, hpreE, _⟩ := enum_sound_val A true e.1 hwA hvm.1
          have := hpreE (kq :: q') hc (by simp) he
          rw [hA] at this
          rw [hbrB] at this
          cases this
    rw [hc1, hc2]
    rfl

/-- Below a fired write, the final document reads exactly as the new one. -/
theorem rt_case_payload (A B : Val) (h : rtSafe A B = true) {kq : String}
    {q' : KeyPath} (hdol : dollarExempt kq = false)
    (hfired : ∃ e, e ∈ forwardList (some A) (some B) [] ∧
      pathIsPrefix e.1 (kq :: q') = true) :
    valueForKeyPath (kq :: q') (some (midState A B)) =
      valueForKeyPath (kq :: q') (some B) := by
  obtain ⟨⟨p, w⟩, hmem, hpre⟩ := hfired
  have hfacts := rt_SL_facts A B h (p, w) hmem
  obtain ⟨ext, hext⟩ := pathIsPrefix_exists p (kq :: q') hpre
  have hX1p : valueForKeyPath p (some (rtX1 A B)) = some w := rtX1_entry A B h hmem
  obtain ⟨p'', hp''⟩ : ∃ p'', p = kq :: p'' := by
    cases p with
    | nil => exact absurd rfl hfacts.2.2.2.2.2.2.1
    | cons kp p'' =>
      have h2 : kq :: q' = kp :: (p'' ++ ext) := by rw [hext]; rfl
      have hk := ((List.cons.injEq kq q' kp (p'' ++ ext)).mp h2).1
      exact ⟨p'', by rw [hk]⟩
  have hVLc : ∀ e ∈ (subsume (unsetPathsOf A B)).map
      (fun p => (p, some (Val.vbool true))),
      pathUnrelated e.1 (kq :: q') = true ∨
        valueForKeyPath e.1 (some (rtX3 A B)) = none := by
    intro e2 hm2
    have hvm := rt_VL_mem A B (rt_UL_mem hm2)
    have hnone_of : pathIsPrefix p e2.1 = true →
        valueForKeyPath e2.1 (some (rtX3 A B)) = none := by
      intro hpv
      obtain ⟨ext2, hext2⟩ := pathIsPrefix_exists p e2.1 hpv
      obtain ⟨v', hv'⟩ : ∃ v', e2.1 = kq :: v' := by
        rw [hext2, hp'']
        exact ⟨p'' ++ ext2, rfl⟩
      have hBv : valueForKeyPath ext2 (some w) = none := by
        have h3 : valueForKeyPath e2.1 (some B) = valueForKeyPath ext2 (some w) := by
          rw [hext2, read_append, hfacts.2.1]
        rw [← h3, hvm.2]
      rw [hv', rtX3_reads A B h hdol v', ← hv']
      rw [hext2, read_append, hX1p]
      exact hBv
    cases hc1 : pathIsPrefix e2.1 (kq :: q') with
    | true =>
      right
      rcases prefix_comparable p e2.1 (kq :: q') hpre hc1 with hpv | hvp
      · exact hnone_of hpv
      · obtain ⟨e3, he3⟩ := pathIsPrefix_exists e2.1 p hvp
        have h3 : valueForKeyPath p (some B) = none := by
          rw [he3, read_append, hvm.2, valueForKeyPath_none]
        rw [hfacts.2.1] at h3
        cases h3
    | false =>
      cases hc2 : pathIsPrefix (kq :: q') e2.1 with
      | true =>
        right
        exact hnone_of (pathIsPrefix_trans p (kq :: q') e2.1 hpre hc2)
      | false =>
        left
        show (!pathIsPrefix e2.1 (kq :: q') && !pathIsPrefix (kq :: q') e2.1) = true
        rw [hc1, hc2]
        rfl
  rw [rtM_reads A B h hdol q', rtX4_frame A B h hVLc, rtX3_reads A B h hdol q']
  rw [hext, read_append, read_append, hX1p, hfacts.2.1]

/-- Inside an array region of the new document (and outside every fired
write), the final document is deeply equal to the new one. -/
theorem rt_case_array (A B : Val) (h : rtSafe A B = true) {kq : String}
    {q' : KeyPath} (hdol : dollarExempt kq = false)
    (hnof : ¬∃ e, e ∈ forwardList (some A) (some B) [] ∧
      pathIsPrefix e.1 (kq :: q') = true)
    (harr : ∃ r, pathIsPrefix r (kq :: q') = true ∧
      arrRead (valueForKeyPath r (some B)) = true) :
    isEqualOpt (valueForKeyPath (kq :: q') (some (midState A B)))
      (valueForKeyPath (kq :: q') (some B)) = true := by
  obtain ⟨hoA, hwA, hwB, htB, hnd, hop⟩ := rtSafe_parts h
  have hoB := topNoDollar_obj htB
  obtain ⟨q₀, hq₀pre, hq₀arr, hq₀min⟩ :=
    exists_min_prefix (fun r => arrRead (valueForKeyPath r (some B))) (kq :: q') harr
  obtain ⟨ys₀, hq₀B⟩ : ∃ ys₀, valueForKeyPath q₀ (some B) = some (.varr ys₀) := by
    cases hb : valueForKeyPath q₀ (some B) with
    | none =>
      rw [hb] at hq₀arr
      cases (show false = true from hq₀arr)
    | some c =>
      rw [hb] at hq₀arr
      cases c with
      | varr xs => exact ⟨xs, rfl⟩
      | vobj fs => cases (show false = true from hq₀arr)
      | vnull => cases (show false = true from hq₀arr)
      | vbool bb => cases (show false = true from hq₀arr)
      | vnum n => cases (show false = true from hq₀arr)
      | vstr s => cases (show false = true from hq₀arr)
      | vdate t => cases (show false = true from hq₀arr)
  have hq₀ne : q₀ ≠ [] := by
    intro he
    subst he
    have h2 : arrRead (some B) = true := hq₀arr
    cases B with
    | vobj bfs => cases (show false = true from h2)
    | varr xs => cases (show false = true from hoB)
    | vnull => cases (show false = true from hoB)
    | vbool b => cases (show false = true from hoB)
    | vnum n => cases (show false = true from hoB)
    | vstr s => cases (show false = true from hoB)
    | vdate t => cases (show false = true from hoB)
  have hq₀leaf : q₀ ∈ keyPathsVal false B := by
    apply (enum_complete_val B q₀ hoB (by rw [hq₀B]; rfl) hq₀ne ?_).2 ?_
    · intro r hr h1 h2
      exact branchRead_of_strict_prefix hq₀B hr h2 (hq₀min r hr h2)
    · rw [hq₀B]
      rfl
  have hq₀ns : shouldSet (some (.varr ys₀)) (valueForKeyPath q₀ (some A)) = false := by
    cases hss : shouldSet (some (.varr ys₀)) (valueForKeyPath q₀ (some A)) with
    | false => rfl
    | true => exact absurd ⟨(q₀, .varr ys₀),
        rt_SL_complete A B h hq₀leaf hq₀B hss, hq₀pre⟩ hnof
  have hq₀eq := rt_kept_leaf A B h hq₀leaf hq₀B hq₀ns
  obtain ⟨xs₀, hq₀A⟩ : ∃ xs₀, valueForKeyPath q₀ (some A) = some (.varr xs₀) := by
    cases ha : valueForKeyPath q₀ (some A) with
    | none =>
      rw [ha] at hq₀eq
      cases (show false = true from hq₀eq)
    | some a₀ =>
      rw [ha] at hq₀eq
      cases a₀ with
      | varr xs => exact ⟨xs, rfl⟩
      | vobj fs => cases (show false = true from hq₀eq)
      | vnull => cases (show false = true from hq₀eq)
      | vbool bb => cases (show false = true from hq₀eq)
      | vnum n => cases (show false = true from hq₀eq)
      | vstr s => cases (show false = true from hq₀eq)
      | vdate t => cases (show false = true from hq₀eq)
  have hauxB : ∀ v, pathIsPrefix q₀ v = true → v ∈ keyPathsVal true A →
      valueForKeyPath v (some B) = none → False := by
    intro v hq₀v hvA hvB
    by_cases he : q₀ = v
    · rw [← he, hq₀B] at hvB
      cases hvB
    · obtain ⟨_, _, hpreE, _⟩ := enum_sound_val A true v hwA hvA
      have h3 := hpreE q₀ hq₀v hq₀ne he
      rw [hq₀A] at h3
      cases (show false = true from h3)
  have hauxS : ∀ (e : KeyPath × Val), e ∈ forwardList (some A) (some B) [] →
      pathIsPrefix q₀ e.1 = true → False := by
    intro e hm hq₀e
    by_cases he : q₀ = e.1
    · exact absurd ⟨e, hm, by rw [← he]; exact hq₀pre⟩ hnof
    · obtain ⟨_, _, hpreE, _⟩ :=
        enum_sound_val B false e.1 hwB (rt_SL_facts A B h e hm).1
      have h3 := hpreE q₀ hq₀e hq₀ne he
      rw [hq₀B] at h3
      cases (show false = true from h3)
  have hfr : valueForKeyPath (kq :: q') (some (midState A B)) =
      valueForKeyPath (kq :: q') (some A) := by
    apply rt_frame_exact A B h hdol ?_ ?_
    · intro e hm
      show (!pathIsPrefix e.1 (kq :: q') && !pathIsPrefix (kq :: q') e.1) = true
      have hc1 : pathIsPrefix e.1 (kq :: q') = false := by
        cases hc : pathIsPrefix e.1 (kq :: q') with
        | false => rfl
        | true => exact absurd ⟨e, hm, hc⟩ hnof
      have hc2 : pathIsPrefix (kq :: q') e.1 = false := by
        cases hc : pathIsPrefix (kq :: q') e.1 with
        | false => rfl
        | true =>
          exact (hauxS e hm (pathIsPrefix_trans q₀ (kq :: q') e.1 hq₀pre hc)).elim
      rw [hc1, hc2]
      rfl
    · intro e hm
      left
      have hvm := rt_VL_mem A B (rt_UL_mem hm)
      show (!pathIsPrefix e.1 (kq :: q') && !pathIsPrefix (kq :: q') e.1) = true
      have hc1 : pathIsPrefix e.1 (kq :: q') = false := by
        cases hc : pathIsPrefix e.1 (kq :: q') with
        | false => rfl
        | true =>
          rcases prefix_comparable e.1 q₀ (kq :: q') hc hq₀pre with h1 | h1
          · have h2 := read_prefix_some hq₀B h1
            rw [hvm.2] at h2
            cases h2
          · exact (hauxB e.1 h1 hvm.1 hvm.2).elim
      have hc2 : pathIsPrefix (kq :: q') e.1 = false := by
        cases hc : pathIsPrefix (kq :: q') e.1 with
        | false => rfl
        | true =>
          exact (hauxB e.1 (pathIsPrefix_trans q₀ (kq :: q') e.1 hq₀pre hc)
            hvm.1 hvm.2).elim
      rw [hc1, hc2]
      rfl
  rw [hfr]
  obtain ⟨ext, hextq⟩ := pathIsPrefix_exists q₀ (kq :: q') hq₀pre
  rw [hextq, read_append, read_append]
  apply isEqual_read_rel ext
  rw [hq₀A, hq₀B]
  rw [hq₀A] at hq₀eq
  exact hq₀eq

/-- At a present path of the new document outside every fired write and
array region, the final document observes the same kind (spine) or the very
same value (leaf). -/
theorem rt_case_kept (A B : Val) (h : rtSafe A B = true) {kq : String}
    {q' : KeyPath} {b : Val} (hdol : dollarExempt kq = false)
    (hnof : ¬∃ e, e ∈ forwardList (some A) (some B) [] ∧
      pathIsPrefix e.1 (kq :: q') = true)
    (hnoarr : ¬∃ r, pathIsPrefix r (kq :: q') = true ∧
      arrRead (valueForKeyPath r (some B)) = true)
    (hb : valueForKeyPath (kq :: q') (some B) = some b) :
    obs (valueForKeyPath (kq :: q') (some (midState A B))) =
      obs (valueForKeyPath (kq :: q') (some B)) ∧
    (∀ xs ys, valueForKeyPath (kq :: q') (some (midState A B)) = some (.varr xs) →
      valueForKeyPath (kq :: q') (some B) = some (.varr ys) →
      isEqualList xs ys = true) := by
  obtain ⟨hoA, hwA, hwB, htB, hnd, hop⟩ := rtSafe_parts h
  have hoB := topNoDollar_obj htB
  have hnarr : ∀ r, pathIsPrefix r (kq :: q') = true →
      arrRead (valueForKeyPath r (some B)) = false := by
    intro r hr
    cases hc : arrRead (valueForKeyPath r (some B)) with
    | false => rfl
    | true => exact absurd ⟨r, hr, hc⟩ hnoarr
  have hprefB : ∀ r, pathIsPrefix r (kq :: q') = true → r ≠ [] → r ≠ (kq :: q') →
      branchRead (valueForKeyPath r (some B)) = true :=
    fun r hr h1 h2 => branchRead_of_strict_prefix hb hr h2 (hnarr r hr)
  have hqB : (kq :: q') ∈ keyPathsVal true B :=
    (enum_complete_val B (kq :: q') hoB (by rw [hb]; rfl) (by simp) hprefB).1
  have hbarr : arrRead (some b) = false := by
    have h2 := hnarr (kq :: q') (pathIsPrefix_refl _)
    rw [hb] at h2
    exact h2
  by_cases hbr : isBranch b = true
  · have hnoarrA : arrRead (valueForKeyPath (kq :: q') (some A)) = false := by
      have hcond := newDocOk_at hnd hqB
      rw [hb] at hcond
      have hcond2 : (if isBranch b = true
          then !arrRead (valueForKeyPath (kq :: q') (some A))
          else decide (b ≠ .vobj .nil) && (isNumV b || truthy b ||
            isEqualOpt (valueForKeyPath (kq :: q') (some A)) (some b))) = true := hcond
      rw [if_pos hbr] at hcond2
      simpa using hcond2
    have hVLnp : ∀ e ∈ (subsume (unsetPathsOf A B)).map
        (fun p => (p, some (Val.vbool true))),
        pathIsPrefix e.1 (kq :: q') = false ∨
          valueForKeyPath e.1 (some (rtX3 A B)) = none := by
      intro e hm
      left
      cases hc : pathIsPrefix e.1 (kq :: q') with
      | false => rfl
      | true =>
        have h2 := read_prefix_some hb hc
        rw [(rt_VL_mem A B (rt_UL_mem hm)).2] at h2
        cases h2
    have hX3o : obs (valueForKeyPath (kq :: q') (some (rtX3 A B))) = .oobj := by
      apply rt_spine_obs_X3 A B h hdol hnof
      by_cases hdeep : ∃ e, e ∈ forwardList (some A) (some B) [] ∧
          pathIsPrefix (kq :: q') e.1 = true ∧ (kq :: q') ≠ e.1
      · exact .inr hdeep
      · left
        obtain ⟨lext, hlext⟩ := enum_false_nonempty b hbr
        have hwb : wfVal b = true := wf_read (kq :: q') B hwB hb
        obtain ⟨hsE, hneE, hpreE, halE⟩ := enum_sound_val b false lext hwb hlext
        have hqlne : (kq :: q') ≠ (kq :: q') ++ lext := by
          intro he
          apply hneE
          have h2 := congrArg List.length he
          rw [List.length_append] at h2
          exact List.eq_nil_of_length_eq_zero (by omega)
        have hql : (kq :: q') ++ lext ∈ keyPathsVal false B := by
          apply (enum_complete_val B ((kq :: q') ++ lext) hoB ?_ (by simp) ?_).2 ?_
          · rw [read_append, hb]
            exact hsE
          · intro r hr h1 h2
            rcases prefix_comparable r (kq :: q') ((kq :: q') ++ lext) hr
              (pathIsPrefix_append _ _) with hrq | hqr
            · by_cases hre : r = (kq :: q')
              · rw [hre, hb]
                exact hbr
              · exact hprefB r hrq h1 hre
            · obtain ⟨r', hr'⟩ := pathIsPrefix_exists (kq :: q') r hqr
              subst hr'
              cases hr'e : decide (r' = []) with
              | true =>
                have h3 : r' = [] := by simpa using hr'e
                subst h3
                rw [List.append_nil, hb]
                exact hbr
              | false =>
                have hr'ne : r' ≠ [] := by simpa using hr'e
                have hr'E : pathIsPrefix r' lext = true := by
                  rw [← prefix_append_cancel (kq :: q') r' lext]
                  exact hr
                have hr'nE : r' ≠ lext := by
                  intro he
                  exact h2 (by rw [he])
                rw [read_append, hb]
                exact hpreE r' hr'E hr'ne hr'nE
          · rw [read_append, hb]
            exact halE rfl
        obtain ⟨lv, hlv⟩ : ∃ lv,
            valueForKeyPath ((kq :: q') ++ lext) (some B) = some lv := by
          cases hx : valueForKeyPath ((kq :: q') ++ lext) (some B) with
          | none =>
            rw [read_append, hb] at hx
            rw [hx] at hsE
            cases hsE
          | some c => exact ⟨c, rfl⟩
        have hnsl : shouldSet (some lv)
            (valueForKeyPath ((kq :: q') ++ lext) (some A)) = false := by
          cases hss : shouldSet (some lv)
              (valueForKeyPath ((kq :: q') ++ lext) (some A)) with
          | false => rfl
          | true =>
            exact absurd ⟨((kq :: q') ++ lext, lv),
              rt_SL_complete A B h hql hlv hss, pathIsPrefix_append _ _, hqlne⟩ hdeep
        have hleq := rt_kept_leaf A B h hql hlv hnsl
        obtain ⟨av, hav⟩ : ∃ av,
            valueForKeyPath ((kq :: q') ++ lext) (some A) = some av := by
          cases hx : valueForKeyPath ((kq :: q') ++ lext) (some A) with
          | none =>
            rw [hx] at hleq
            cases (show false = true from hleq)
          | some c => exact ⟨c, rfl⟩
        exact branchRead_of_strict_prefix hav (pathIsPrefix_append _ _) hqlne hnoarrA
    constructor
    · rw [rtM_reads A B h hdol q', rtX4_obs A B h hVLnp, hX3o, hb,
        obs_oobj_of_branchRead (show branchRead (some b) = true from hbr)]
    · intro xs ys hxs hys
      rw [hb] at hys
      have h3 : b = .varr ys := by injection hys
      rw [h3] at hbr
      cases (show false = true from hbr)
  · have hbf : isBranch b = false := by simpa using hbr
    have hqleaf : (kq :: q') ∈ keyPathsVal false B := by
      apply (enum_complete_val B (kq :: q') hoB (by rw [hb]; rfl) (by simp) hprefB).2
      rw [hb]
      exact hbf
    have hcont : isContainer b = false := by
      cases b with
      | varr xs => cases (show true = false from hbarr)
      | vobj g =>
        cases g with
        | cons a bb c => cases (show true = false from hbf)
        | nil =>
          have hcond := newDocOk_at hnd hqB
          rw [hb] at hcond
          have hcond2 : (if isBranch (Val.vobj .nil) = true
              then !arrRead (valueForKeyPath (kq :: q') (some A))
              else decide ((Val.vobj .nil) ≠ Val.vobj .nil) &&
                (isNumV (Val.vobj .nil) || truthy (Val.vobj .nil) ||
                  isEqualOpt (valueForKeyPath (kq :: q') (some A))
                    (some (.vobj .nil)))) = true := hcond
          rw [if_neg (by intro hx; cases (show false = true from hx))] at hcond2
          have h3 := Bool.and_elim_left hcond2
          simp at h3
      | vnull => rfl
      | vbool bb => rfl
      | vnum n => rfl
      | vstr s => rfl
      | vdate t => rfl
    have hfin := rt_leaf_exact A B h hdol hnof hqleaf hb hcont
    constructor
    · rw [hfin, hb]
    · intro xs ys hxs hys
      rw [hfin] at hxs
      have h3 : b = .varr xs := by injection hxs
      rw [h3] at hcont
      cases (show true = false from hcont)

theorem prefix_concat_cases : ∀ (r qa : KeyPath) (k : String),
    pathIsPrefix r (qa ++ [k]) = true → r = qa ++ [k] ∨ pathIsPrefix r qa = true
  | [], _, _, _ => .inr rfl
  | kr :: r', [], k, h => by
    have hk : kr = k := by simpa using (Bool.and_elim_left h)
    cases r' with
    | nil => exact .inl (by rw [hk]; rfl)
    | cons a b => cases (show false = true from (Bool.and_elim_right h))
  | kr :: r', kqa :: qa', k, h => by
    have hk : kr = kqa := by simpa using (Bool.and_elim_left h)
    subst hk
    rcases prefix_concat_cases r' qa' k (Bool.and_elim_right h) with he | hp
    · exact .inl (by rw [he]; rfl)
    · right
      show ((kr == kr) && pathIsPrefix r' qa') = true
      rw [hp, show (kr == kr) = true by simp]
      rfl

/-- A path absent from the new document reads as absent in the middle state:
either its minimal failing prefix is unset by a fired `$unset`, or the old
document never had it and no pass creates it. -/
theorem rt_case_none (A B : Val) (h : rtSafe A B = true) {kq : String}
    {q' : KeyPath} (hdol : dollarExempt kq = false)
    (hnof : ¬∃ e, e ∈ forwardList (some A) (some B) [] ∧
      pathIsPrefix e.1 (kq :: q') = true)
    (hnoarr : ¬∃ r, pathIsPrefix r (kq :: q') = true ∧
      arrRead (valueForKeyPath r (some B)) = true)
    (hqnone : valueForKeyPath (kq :: q') (some B) = none) :
    valueForKeyPath (kq :: q') (some (midState A B)) = none := by
  obtain ⟨hoA, hwA, hwB, htB, hnd, hop⟩ := rtSafe_parts h
  have hoB := topNoDollar_obj htB
  obtain ⟨qF, hqFpre, hqFP, hqFmin⟩ :=
    exists_min_prefix (fun r => (valueForKeyPath r (some B)).isNone) (kq :: q')
      ⟨kq :: q', pathIsPrefix_refl _, by
        show (valueForKeyPath (kq :: q') (some B)).isNone = true
        rw [hqnone]
        rfl⟩
  have hqFnone : valueForKeyPath qF (some B) = none :=
    Option.isNone_iff_eq_none.mp hqFP
  have hqFne : qF ≠ [] := by
    intro he
    rw [he] at hqFP
    cases (show false = true from hqFP)
  obtain ⟨qa, kF, hqFeq⟩ := exists_concat qF hqFne
  subst hqFeq
  have hqapre : pathIsPrefix qa (qa ++ [kF]) = true := pathIsPrefix_append qa [kF]
  have hqane : qa ≠ qa ++ [kF] := by
    intro he
    have h2 := congrArg List.length he
    rw [List.length_append, show ([kF] : KeyPath).length = 1 from rfl] at h2
    omega
  have hqaq : pathIsPrefix qa (kq :: q') = true :=
    pathIsPrefix_trans qa (qa ++ [kF]) (kq :: q') hqapre hqFpre
  obtain ⟨ba, hba⟩ : ∃ ba, valueForKeyPath qa (some B) = some ba := by
    have h2 := hqFmin qa hqapre hqane
    cases hx : valueForKeyPath qa (some B) with
    | none =>
      rw [hx] at h2
      cases (show true = false from h2)
    | some c => exact ⟨c, rfl⟩
  have hprefa : ∀ r, pathIsPrefix r qa = true →
      (valueForKeyPath r (some B)).isSome = true :=
    fun r hr => read_prefix_some hba hr
  suffices hMF : valueForKeyPath (qa ++ [kF]) (some (midState A B)) = none by
    obtain ⟨extF, hextF⟩ := pathIsPrefix_exists (qa ++ [kF]) (kq :: q') hqFpre
    rw [hextF, read_append, hMF, valueForKeyPath_none]
  obtain ⟨qT, hqT⟩ : ∃ qT, qa ++ [kF] = kq :: qT := by
    cases qa with
    | nil =>
      have hck : kF = kq := by simpa using (Bool.and_elim_left hqFpre)
      exact ⟨[], by rw [hck]; rfl⟩
    | cons c cs =>
      have hck : c = kq := by simpa using (Bool.and_elim_left hqFpre)
      exact ⟨cs ++ [kF], by rw [hck]; rfl⟩
  by_cases hbarr2 : arrRead (some ba) = true
  · exact absurd ⟨qa, hqaq, by rw [hba]; exact hbarr2⟩ hnoarr
  by_cases hbobj : isObjV ba = true
  · -- the failing prefix's parent is an object in `B`, missing the key `kF`
    obtain ⟨g, hge⟩ : ∃ g, ba = .vobj g := by
      cases ba with
      | vobj g => exact ⟨g, rfl⟩
      | varr xs => cases (show false = true from hbobj)
      | vnull => cases (show false = true from hbobj)
      | vbool bb => cases (show false = true from hbobj)
      | vnum n => cases (show false = true from hbobj)
      | vstr s => cases (show false = true from hbobj)
      | vdate t => cases (show false = true from hbobj)
    subst hge
    have hqaBmem : qa ≠ [] → qa ∈ keyPathsVal true B := by
      intro h1
      refine (enum_complete_val B qa hoB (by rw [hba]; rfl) h1 ?_).1
      intro r hr hr1 hr2
      apply branchRead_of_strict_prefix hba hr hr2
      cases hc2 : arrRead (valueForKeyPath r (some B)) with
      | false => rfl
      | true =>
        exact absurd ⟨r, pathIsPrefix_trans r qa (kq :: q') hr hqaq, hc2⟩ hnoarr
    have hprefbr : ∀ r, pathIsPrefix r qa = true → r ≠ [] →
        branchRead (valueForKeyPath r (some B)) = true := by
      intro r hr h1
      by_cases hre : r = qa
      · subst hre
        rw [hba]
        show isBranch (Val.vobj g) = true
        cases hgg : g with
        | cons a bb c => rfl
        | nil =>
          have hmem := hqaBmem h1
          have hcond := newDocOk_at hnd hmem
          rw [hba, hgg] at hcond
          have hcond2 : (decide (Val.vobj Fields.nil ≠ Val.vobj Fields.nil) &&
              (isNumV (Val.vobj Fields.nil) || truthy (Val.vobj Fields.nil) ||
               isEqualOpt (valueForKeyPath r (some A))
                 (some (Val.vobj Fields.nil)))) = true := hcond
          rw [show decide (Val.vobj Fields.nil ≠ Val.vobj Fields.nil) = false
            by decide] at hcond2
          cases (show false = true from hcond2)
      · apply branchRead_of_strict_prefix hba hr hre
        cases hc2 : arrRead (valueForKeyPath r (some B)) with
        | false => rfl
        | true =>
          exact absurd ⟨r, pathIsPrefix_trans r qa (kq :: q') hr hqaq, hc2⟩ hnoarr
    cases hAF : valueForKeyPath (qa ++ [kF]) (some A) with
    | none =>
      -- the old document misses the path too, and every pass leaves it alone
      have hSLu : ∀ e ∈ forwardList (some A) (some B) [],
          pathUnrelated e.1 (qa ++ [kF]) = true := by
        intro e hm
        show (!pathIsPrefix e.1 (qa ++ [kF]) && !pathIsPrefix (qa ++ [kF]) e.1) = true
        have hc1 : pathIsPrefix e.1 (qa ++ [kF]) = false := by
          cases hc : pathIsPrefix e.1 (qa ++ [kF]) with
          | false => rfl
          | true =>
            exact absurd
              ⟨e, hm, pathIsPrefix_trans e.1 (qa ++ [kF]) (kq :: q') hc hqFpre⟩ hnof
        have hc2 : pathIsPrefix (qa ++ [kF]) e.1 = false := by
          cases hc : pathIsPrefix (qa ++ [kF]) e.1 with
          | false => rfl
          | true =>
            have hBe := (rt_SL_facts A B h e hm).2.1
            obtain ⟨ext2, hext2⟩ := pathIsPrefix_exists (qa ++ [kF]) e.1 hc
            rw [hext2, read_append, hqFnone, valueForKeyPath_none] at hBe
            cases hBe
        rw [hc1, hc2]
        rfl
      have hVLu : ∀ e ∈ (subsume (unsetPathsOf A B)).map
          (fun p => (p, some (Val.vbool true))),
          pathUnrelated e.1 (qa ++ [kF]) = true ∨
            valueForKeyPath e.1 (some (rtX3 A B)) = none := by
        intro e hm
        left
        have hvm := rt_VL_mem A B (rt_UL_mem hm)
        show (!pathIsPrefix e.1 (qa ++ [kF]) && !pathIsPrefix (qa ++ [kF]) e.1) = true
        have hc1 : pathIsPrefix e.1 (qa ++ [kF]) = false := by
          cases hc : pathIsPrefix e.1 (qa ++ [kF]) with
          | false => rfl
          | true =>
            rcases prefix_concat_cases e.1 qa kF hc with he | hrqa
            · have hs := (enum_sound_val A true e.1 hwA hvm.1).1
              rw [he, hAF] at hs
              cases (show false = true from hs)
            · have h2 := hprefa e.1 hrqa
              rw [hvm.2] at h2
              cases (show false = true from h2)
        have hc2 : pathIsPrefix (qa ++ [kF]) e.1 = false := by
          cases hc : pathIsPrefix (qa ++ [kF]) e.1 with
          | false => rfl
          | true =>
            have hs := (enum_sound_val A true e.1 hwA hvm.1).1
            obtain ⟨ext2, hext2⟩ := pathIsPrefix_exists (qa ++ [kF]) e.1 hc
            rw [hext2, read_append, hAF, valueForKeyPath_none] at hs
            cases (show false = true from hs)
        rw [hc1, hc2]
        rfl
      rw [hqT] at hSLu hVLu ⊢
      rw [rt_frame_exact A B h hdol hSLu hVLu, ← hqT]
      exact hAF
    | some aw =>
      -- the old document has the path: its unset survives subsumption and kills it
      have hqFneF : (qa ++ [kF]) ≠ [] := by
        intro he
        simp at he
      have hprefbrA : ∀ r, pathIsPrefix r qa = true → r ≠ [] →
          branchRead (valueForKeyPath r (some A)) = true := by
        intro r hr h1
        have hrmem : r ∈ keyPathsVal true B := by
          refine (enum_complete_val B r hoB (hprefa r hr) h1 ?_).1
          intro s hs hs1 hs2
          exact hprefbr s (pathIsPrefix_trans s r qa hs hr) hs1
        have hcond := newDocOk_at hnd hrmem
        obtain ⟨br2, hbr2⟩ : ∃ c, valueForKeyPath r (some B) = some c := by
          have h2 := hprefa r hr
          cases hx : valueForKeyPath r (some B) with
          | none =>
            rw [hx] at h2
            cases (show false = true from h2)
          | some c => exact ⟨c, rfl⟩
        have hbrr := hprefbr r hr h1
        rw [hbr2] at hcond hbrr
        have hbrr2 : isBranch br2 = true := hbrr
        have hcond2 : (if isBranch br2 = true then
            !arrRead (valueForKeyPath r (some A)) else
            decide (br2 ≠ .vobj .nil) && (isNumV br2 || truthy br2 ||
              isEqualOpt (valueForKeyPath r (some A)) (some br2))) = true := hcond
        rw [if_pos hbrr2] at hcond2
        have hnarrA : arrRead (valueForKeyPath r (some A)) = false := by
          cases hc : arrRead (valueForKeyPath r (some A)) with
          | false => rfl
          | true =>
            rw [hc] at hcond2
            cases (show false = true from hcond2)
        have hrne2 : r ≠ qa ++ [kF] := by
          intro he
          rw [he] at hr
          have h2 := (pathIsPrefix_take (qa ++ [kF]) qa hr).2
          rw [List.length_append, show ([kF] : KeyPath).length = 1 from rfl] at h2
          omega
        exact branchRead_of_strict_prefix hAF
          (pathIsPrefix_trans r qa (qa ++ [kF]) hr hqapre) hrne2 hnarrA
      have hqFA : (qa ++ [kF]) ∈ keyPathsVal true A := by
        refine (enum_complete_val A (qa ++ [kF]) hoA (by rw [hAF]; rfl) hqFneF ?_).1
        intro r hr hr1 hr2
        rcases prefix_concat_cases r qa kF hr with he | hrqa
        · exact absurd he hr2
        · exact hprefbrA r hrqa hr1
      have hqFVL : (qa ++ [kF]) ∈ subsume (unsetPathsOf A B) := by
        unfold subsume
        refine List.mem_filter.mpr
          ⟨mem_unsetPathsOf.mpr ⟨hqFA, by rw [hqFnone]; rfl⟩, ?_⟩
        simp only [Bool.not_eq_true']
        apply List.any_eq_false.mpr
        intro b2 hb2
        have hb2e := mem_unsetPathsOf.mp hb2
        simp only [Bool.not_eq_true]
        show (decide (b2.length < (qa ++ [kF]).length) &&
          decide ((qa ++ [kF]).take b2.length = b2)) = false
        cases hd1 : decide (b2.length < (qa ++ [kF]).length) with
        | false => rfl
        | true =>
          cases hd2 : decide ((qa ++ [kF]).take b2.length = b2) with
          | false => rfl
          | true =>
            have hlt : b2.length < (qa ++ [kF]).length := of_decide_eq_true hd1
            have hte : (qa ++ [kF]).take b2.length = b2 := of_decide_eq_true hd2
            have hpre2 : pathIsPrefix b2 (qa ++ [kF]) = true :=
              pathIsPrefix_of_take b2 (qa ++ [kF]) (Nat.le_of_lt hlt) hte
            have hne2 : b2 ≠ qa ++ [kF] := by
              intro he
              rw [he] at hlt
              exact Nat.lt_irrefl _ hlt
            have h2 := hqFmin b2 hpre2 hne2
            have h3 := hb2e.2
            rw [h2] at h3
            cases h3
      have hX4n : valueForKeyPath (qa ++ [kF]) (some (rtX4 A B)) = none := by
        apply rtX4_kill A B h
        · exact ⟨((qa ++ [kF]), some (Val.vbool true)),
            List.mem_map.mpr ⟨qa ++ [kF], hqFVL, rfl⟩, pathIsPrefix_refl _⟩
        · intro e hm hpree
          have hvm := rt_VL_mem A B (rt_UL_mem hm)
          have he1 : e.1 = qa ++ [kF] := by
            rcases prefix_concat_cases e.1 qa kF hpree with he | hrqa
            · exact he
            · have h2 := hprefa e.1 hrqa
              rw [hvm.2] at h2
              cases (show false = true from h2)
          left
          intro r hrp hrne
          rw [he1] at hrp hrne
          rcases prefix_concat_cases r qa kF hrp with he2 | hrqa
          · exact absurd he2 hrne
          · cases hrc : r with
            | nil => exact obs_some_obj (rootOk_objV (rtX3_rootOk A B h))
            | cons kr r' =>
              rw [hrc] at hrqa
              have hkr : kr = kq := by
                have h2 : pathIsPrefix (kr :: r') (kq :: q') = true :=
                  pathIsPrefix_trans (kr :: r') qa (kq :: q') hrqa hqaq
                simpa using (Bool.and_elim_left h2)
              rw [hkr]
              rw [hkr] at hrqa
              apply rt_spine_obs_X3 A B h hdol ?_ ?_
              · rintro ⟨e2, hm2, hp2⟩
                exact hnof ⟨e2, hm2, pathIsPrefix_trans e2.1 (kq :: r') (kq :: q') hp2
                  (pathIsPrefix_trans (kq :: r') qa (kq :: q') hrqa hqaq)⟩
              · left
                exact hprefbrA (kq :: r') hrqa (by simp)
      rw [hqT] at hX4n ⊢
      rw [rtM_reads A B h hdol qT]
      exact hX4n
  · -- the failing prefix's parent is a kept scalar leaf: reading through it
    -- yields nothing in the middle state as well
    have hcont : isContainer ba = false := by
      cases ba with
      | vobj g => exact absurd rfl hbobj
      | varr xs => exact absurd rfl hbarr2
      | vnull => rfl
      | vbool bb => rfl
      | vnum n => rfl
      | vstr s => rfl
      | vdate t => rfl
    have hbnb : isBranch ba = false := by
      cases ba with
      | vobj g => exact absurd rfl hbobj
      | varr xs => exact absurd rfl hbarr2
      | vnull => rfl
      | vbool bb => rfl
      | vnum n => rfl
      | vstr s => rfl
      | vdate t => rfl
    have hqanil : qa ≠ [] := by
      intro he
      rw [he] at hba
      have h4 : B = ba := Option.some.inj hba
      rw [← h4] at hbobj
      exact hbobj hoB
    obtain ⟨qa', hqa'⟩ : ∃ qa', qa = kq :: qa' := by
      cases qa with
      | nil => exact absurd rfl hqanil
      | cons c cs =>
        have hck : c = kq := by simpa using (Bool.and_elim_left hqaq)
        exact ⟨cs, by rw [hck]⟩
    have hqaleaf : qa ∈ keyPathsVal false B := by
      have hpre : ∀ r, pathIsPrefix r qa = true → r ≠ [] → r ≠ qa →
          branchRead (valueForKeyPath r (some B)) = true := by
        intro r hr h1 h2
        apply branchRead_of_strict_prefix hba hr h2
        cases hc2 : arrRead (valueForKeyPath r (some B)) with
        | false => rfl
        | true =>
          exact absurd ⟨r, pathIsPrefix_trans r qa (kq :: q') hr hqaq, hc2⟩ hnoarr
      apply (enum_complete_val B qa hoB (by rw [hba]; rfl) hqanil hpre).2
      rw [hba]
      exact hbnb
    have hnof_a : ¬∃ e, e ∈ forwardList (some A) (some B) [] ∧
        pathIsPrefix e.1 qa = true := by
      rintro ⟨e, hm, hp⟩
      exact hnof ⟨e, hm, pathIsPrefix_trans e.1 qa (kq :: q') hp hqaq⟩
    have hMa : valueForKeyPath qa (some (midState A B)) = some ba := by
      rw [hqa']
      rw [hqa'] at hnof_a hqaleaf hba
      exact rt_leaf_exact A B h hdol hnof_a hqaleaf hba hcont
    rw [read_append, hMa]
    cases ba with
    | vobj g => exact absurd rfl hbobj
    | varr xs => exact absurd rfl hbarr2
    | vnull => rfl
    | vbool bb => rfl
    | vnum n => rfl
    | vstr s => rfl
    | vdate t => rfl

/-- At every keypath, the document produced by the middle passes of `apply`
observes like the new document, and array payloads agree elementwise. -/
theorem rt_mid_reads (A B : Val) (h : rtSafe A B = true) (q : KeyPath) :
    obs (valueForKeyPath q (some (midState A B))) =
      obs (valueForKeyPath q (some B)) ∧
    (∀ xs ys, valueForKeyPath q (some (midState A B)) = some (.varr xs) →
      valueForKeyPath q (some B) = some (.varr ys) → isEqualList xs ys = true) := by
  obtain ⟨hoA, hwA, hwB, htB, hnd, hop⟩ := rtSafe_parts h
  have hoB := topNoDollar_obj htB
  cases q with
  | nil =>
    constructor
    · show obs (some (midState A B)) = obs (some B)
      rw [obs_some_obj (rootOk_objV (rt_mid_rootOk A B h)), obs_some_obj hoB]
    · intro xs ys hM hB
      have hM2 : midState A B = Val.varr xs := Option.some.inj hM
      have h2 := rootOk_objV (rt_mid_rootOk A B h)
      rw [hM2] at h2
      cases (show false = true from h2)
  | cons kq q' =>
    cases hdol : dollarExempt kq with
    | true =>
      have hks : kq = "$set" ∨ kq = "$unset" := by
        have h3 : ((kq == "$set") || (kq == "$unset")) = true := hdol
        cases hc : (kq == "$set") with
        | true => exact .inl (by simpa using hc)
        | false =>
          rw [hc] at h3
          exact .inr (by simpa using h3)
      have hdl := rt_dollar_none A B h
      have hMread : valueForKeyPath (kq :: q') (some (midState A B)) = none := by
        rcases hks with he | he
        · rw [he]; exact read_cons_none hdl.1 q'
        · rw [he]; exact read_cons_none hdl.2 q'
      have hBread : valueForKeyPath (kq :: q') (some B) = none := by
        rcases hks with he | he
        · rw [he]; exact read_cons_none (topNoDollar_read_set htB) q'
        · rw [he]; exact read_cons_none (topNoDollar_read_unset htB) q'
      refine ⟨by rw [hMread, hBread], ?_⟩
      intro xs ys hM hB
      rw [hMread] at hM
      cases hM
    | false =>
      by_cases hfired : ∃ e, e ∈ forwardList (some A) (some B) [] ∧
          pathIsPrefix e.1 (kq :: q') = true
      · have hMB := rt_case_payload A B h hdol hfired
        refine ⟨by rw [hMB], ?_⟩
        intro xs ys hM hB
        rw [hMB, hB] at hM
        have h2 : Val.varr ys = Val.varr xs := Option.some.inj hM
        have h3 : ys = xs := Val.varr.inj h2
        have hwys : wfVal (Val.varr ys) = true := wf_read _ B hwB hB
        rw [h3] at hwys
        rw [h3]
        exact isEqualList_refl xs hwys
      · by_cases harr : ∃ r, pathIsPrefix r (kq :: q') = true ∧
            arrRead (valueForKeyPath r (some B)) = true
        · have hMB := rt_case_array A B h hdol hfired harr
          refine ⟨obs_of_isEqualOpt _ _ hMB, ?_⟩
          intro xs ys hM hB
          rw [hM, hB] at hMB
          exact hMB
        · cases hq : valueForKeyPath (kq :: q') (some B) with
          | some b =>
            have hk := rt_case_kept A B h hdol hfired harr hq
            rw [hq] at hk
            exact hk
          | none =>
            have hn := rt_case_none A B h hdol hfired harr hq
            refine ⟨by rw [hn], ?_⟩
            intro xs ys hM hB
            cases hB

/-- C1 fails as stated: a falsy, non-numeric old leaf absent from the new
document is neither set (`shouldSet` only fires on numbers, truthy values or
keyed containers) nor unset (`shouldUnset` reports `false` for a falsy old
value), so `diffToModifier {a: false} {}` is empty and applying it leaves
`{a: false}` unchanged, not deeply equal to `{}`. -/
theorem claim1_counterexample :
    diffToModifier (some (Val.vobj (Fields.cons "a" (Val.vbool false) Fields.nil)))
        (some (Val.vobj Fields.nil)) [] false = .ok none ∧
      isEqual (apply (Val.vobj (Fields.cons "a" (Val.vbool false) Fields.nil)) none)
        (Val.vobj Fields.nil) = false :=
  ⟨rfl, rfl⟩

/-- C1 (amended): the round trip holds on the round-trip-safe domain
`rtSafe A B` — both documents are well-formed objects, the new document's
top level carries no literal `$set`/`$unset` key, every kept value of the
new document satisfies the forward classifier's conditions (`newDocOk`:
branches never sit over an array of the old document, leaves are non-empty
and numeric/truthy unless already deeply equal in the old document), and
every enumerated keypath of the old document satisfies the backward
classifier's conditions (`oldPathsOk`): an old value missing from the new
document is truthy-or-numeric so its unset fires; a numeric-or-truthy kept
new value never pairs an object-typed old value (object, array, date or
null) with a keyless new one, which would land the path in both tables; and
a falsy non-numeric kept new value is already deeply equal to the old one.
There `diffToModifier A B` succeeds and applying its modifier to `A` yields
a document deeply equal to `B`. -/
theorem claim1_round_trip_amended (A B : Val) (h : rtSafe A B = true) :
    ∃ r, diffToModifier (some A) (some B) [] false = .ok r ∧
      isEqual (apply A r) B = true := by
  obtain ⟨hoA, hwA, hwB, htB, hnd, hop⟩ := rtSafe_parts h
  have hoB := topNoDollar_obj htB
  have hdiff : diffToModifier (some A) (some B) [] false =
      .ok (assembleModifier (forwardList (some A) (some B) [])
        (subsume (unsetPathsOf A B))) := by
    rw [diffToModifier_eq_diffCore]
    unfold diffCore
    rw [rt_backward A B h]
  refine ⟨_, hdiff, ?_⟩
  obtain ⟨fs, hM⟩ : ∃ fs, midState A B = .vobj fs := by
    have h2 := rootOk_objV (rt_mid_rootOk A B h)
    cases hMx : midState A B with
    | vobj fs => exact ⟨fs, rfl⟩
    | varr xs => rw [hMx] at h2; cases (show false = true from h2)
    | vnull => rw [hMx] at h2; cases (show false = true from h2)
    | vbool b => rw [hMx] at h2; cases (show false = true from h2)
    | vnum n => rw [hMx] at h2; cases (show false = true from h2)
    | vstr s => rw [hMx] at h2; cases (show false = true from h2)
    | vdate t => rw [hMx] at h2; cases (show false = true from h2)
  have hwM : wfVal (midState A B) = true := by
    have hdl := rt_dollar_none A B h
    rw [hM] at hdl
    rw [hM]
    apply rootOk_wf (by rw [← hM]; exact rt_mid_rootOk A B h)
    · have h2 := hdl.1
      rw [read_single, getKey_obj] at h2
      exact h2
    · have h2 := hdl.2
      rw [read_single, getKey_obj] at h2
      exact h2
  have hmid : isEqual (midState A B) B = true :=
    bridgeVal (midState A B) B hwM hwB
      (fun q => (rt_mid_reads A B h q).1) (fun q => (rt_mid_reads A B h q).2)
  have hnB : noEmptyChain B = true := rt_noEmptyB A B h
  cases hasm : assembleModifier (forwardList (some A) (some B) [])
      (subsume (unsetPathsOf A B)) with
  | none =>
    obtain ⟨hsl, hul⟩ := assembleModifier_none hasm
    have hMA : midState A B = A := by
      unfold midState
      rw [hsl, hul]
      rfl
    rw [hMA] at hmid
    exact hmid
  | some m =>
    have hm := assembleModifier_some_eq hasm
    subst hm
    have hflag := modOf_flag (assembleModifier_not_both hasm)
    have happ : apply A (some (modOf (forwardList (some A) (some B) [])
          (subsume (unsetPathsOf A B)))) = prune (midState A B) := by
      show (if ((modOf (forwardList (some A) (some B) [])
              (subsume (unsetPathsOf A B))).set.isSome ||
            (modOf (forwardList (some A) (some B) [])
              (subsume (unsetPathsOf A B))).unset.isSome) = true
          then prune (dollarUnset (dollarSet A (modOf (forwardList (some A) (some B) [])
            (subsume (unsetPathsOf A B)))) (modOf (forwardList (some A) (some B) [])
            (subsume (unsetPathsOf A B))))
          else prune A) = prune (midState A B)
      rw [if_pos hflag]
      rfl
    have hnM : noEmptyChain (midState A B) = true := by
      obtain ⟨gs, hBo⟩ : ∃ gs, B = .vobj gs := by
        cases B with
        | vobj gs => exact ⟨gs, rfl⟩
        | varr xs => cases (show false = true from hoB)
        | vnull => cases (show false = true from hoB)
        | vbool b => cases (show false = true from hoB)
        | vnum n => cases (show false = true from hoB)
        | vstr s => cases (show false = true from hoB)
        | vdate t => cases (show false = true from hoB)
      have hmid2 := hmid
      rw [hM, hBo] at hmid2
      have hfi : fieldsIncluded fs gs = true := Bool.and_elim_left hmid2
      rw [hBo] at hnB
      rw [hM]
      show noEmptyChainFields fs = true
      exact noEmptyFields_of_isEqual fs gs hfi hnB
    rw [happ, prune_noop _ hnM]
    exact hmid

/-- Witness for the amended round trip at `A = {a: 1}`, `B = {a: 2}`. -/
theorem claim1_round_trip_amended_witness :
    rtSafe (Val.vobj (Fields.cons "a" (Val.vnum 1) Fields.nil))
        (Val.vobj (Fields.cons "a" (Val.vnum 2) Fields.nil)) = true ∧
      ∃ r, diffToModifier (some (Val.vobj (Fields.cons "a" (Val.vnum 1) Fields.nil)))
          (some (Val.vobj (Fields.cons "a" (Val.vnum 2) Fields.nil))) [] false = .ok r ∧
        isEqual (apply (Val.vobj (Fields.cons "a" (Val.vnum 1) Fields.nil)) r)
          (Val.vobj (Fields.cons "a" (Val.vnum 2) Fields.nil)) = true :=
  ⟨by decide, claim1_round_trip_amended _ _ (by decide)⟩

/-! ### Story fold basics -/

theorem unsetKP_obj_shape : ∀ (p : KeyPath) (fs : Fields),
    ∃ gs, unsetKeyPath p (.vobj fs) = .vobj gs
  | [], fs => ⟨fs, rfl⟩
  | [k], fs => ⟨removeField k fs, rfl⟩
  | k :: k2 :: rest, fs => by
    rw [unsetKP_obj_cons]
    cases fs.lookup k with
    | some c => exact ⟨_, rfl⟩
    | none => exact ⟨fs, rfl⟩

theorem unsetKP_arr_shape : ∀ (p : KeyPath) (xs : ValList),
    ∃ ys, unsetKeyPath p (.varr xs) = .varr ys
  | [], xs => ⟨xs, rfl⟩
  | [k], xs => by
    cases h : jsIndex k with
    | some i =>
      rw [unsetKP_arr_single_idx xs h]
      by_cases hl : i < xs.length
      · rw [if_pos hl]
        exact ⟨_, rfl⟩
      · rw [if_neg hl]
        exact ⟨xs, rfl⟩
    | none => exact ⟨xs, unsetKP_arr_single_nidx xs h⟩
  | k :: k2 :: rest, xs => by
    cases h : jsIndex k with
    | some i =>
      rw [unsetKP_arr_cons_idx k2 rest xs h]
      cases xs.get i with
      | some c => exact ⟨_, rfl⟩
      | none => exact ⟨xs, rfl⟩
    | none => exact ⟨xs, unsetKP_arr_cons_nidx k2 rest xs h⟩

theorem pruneOptC_obj (gs : Fields) :
    pruneOptC (some (.vobj gs)) =
      (match pruneFields gs with
       | .nil => none
       | pg => some (.vobj pg)) := rfl

theorem pruneFields_cons (k : String) (v : Val) (tl : Fields) :
    pruneFields (.cons k v tl) =
      (match pruneOptC (some v) with
       | some w => .cons k w (pruneFields tl)
       | none => pruneFields tl) := by
  cases v with
  | vobj gs =>
    rw [pruneOptC_obj]
    show (match pruneFields gs with
      | .nil => pruneFields tl
      | pg => .cons k (.vobj pg) (pruneFields tl)) =
      (match (match pruneFields gs with
        | .nil => (none : Option Val)
        | pg => some (.vobj pg)) with
       | some w => .cons k w (pruneFields tl)
       | none => pruneFields tl)
    cases pruneFields gs with
    | nil => rfl
    | cons a b c => rfl
  | varr xs => rfl
  | vnull => rfl
  | vbool b => rfl
  | vnum n => rfl
  | vstr t => rfl
  | vdate t => rfl

mutual

theorem prune_fix : ∀ (v w : Val), pruneOptC (some v) = some w →
    pruneOptC (some w) = some w
  | .vobj gs, w, hv => by
    rw [pruneOptC_obj] at hv
    cases hp : pruneFields gs with
    | nil =>
      rw [hp] at hv
      cases hv
    | cons a b c =>
      rw [hp] at hv
      have hw : Val.vobj (Fields.cons a b c) = w := Option.some.inj hv
      rw [← hw, pruneOptC_obj, ← hp, pruneFields_idem gs, hp]
  | .varr xs, w, hv => by
    have hw : Val.varr xs = w := Option.some.inj hv
    rw [← hw]
    rfl
  | .vnull, w, hv => by
    have hw : Val.vnull = w := Option.some.inj hv
    rw [← hw]
    rfl
  | .vbool b, w, hv => by
    have hw : Val.vbool b = w := Option.some.inj hv
    rw [← hw]
    rfl
  | .vnum n, w, hv => by
    have hw : Val.vnum n = w := Option.some.inj hv
    rw [← hw]
    rfl
  | .vstr t, w, hv => by
    have hw : Val.vstr t = w := Option.some.inj hv
    rw [← hw]
    rfl
  | .vdate t, w, hv => by
    have hw : Val.vdate t = w := Option.some.inj hv
    rw [← hw]
    rfl

theorem pruneFields_idem : ∀ (fs : Fields),
    pruneFields (pruneFields fs) = pruneFields fs
  | .nil => rfl
  | .cons k v tl => by
    rw [pruneFields_cons]
    cases hv : pruneOptC (some v) with
    | none => exact pruneFields_idem tl
    | some w =>
      rw [pruneFields_cons, prune_fix v w hv, pruneFields_idem tl]

end

theorem fAppend_nil (gs : Fields) : fAppend .nil gs = gs := rfl

theorem fAppend_cons (k : String) (v : Val) (tl gs : Fields) :
    fAppend (.cons k v tl) gs = .cons k v (fAppend tl gs) := rfl

theorem lookup_fAppend : ∀ (as bs : Fields) (k : String),
    (fAppend as bs).lookup k =
      (match as.lookup k with
       | some v => some v
       | none => bs.lookup k)
  | .nil, bs, k => rfl
  | .cons k2 v tl, bs, k => by
    rw [fAppend_cons]
    show (if k2 = k then some v else (fAppend tl bs).lookup k) = _
    show _ = (match (if k2 = k then some v else tl.lookup k) with
       | some v => some v
       | none => bs.lookup k)
    by_cases he : k2 = k
    · rw [if_pos he, if_pos he]
    · rw [if_neg he, if_neg he]
      exact lookup_fAppend tl bs k

theorem fieldsAll_dead_prune : ∀ (hs : Fields),
    fieldsAll (fun _ v => pruneOptC (some v) = none) hs → pruneFields hs = .nil
  | .nil, _ => rfl
  | .cons k v tl, h => by
    rw [pruneFields_cons, h.1]
    exact fieldsAll_dead_prune tl h.2

theorem prune_dead_fieldsAll : ∀ (hs : Fields), pruneFields hs = .nil →
    fieldsAll (fun _ v => pruneOptC (some v) = none) hs
  | .nil, _ => trivial
  | .cons k v tl, h => by
    rw [pruneFields_cons] at h
    cases hv : pruneOptC (some v) with
    | none =>
      rw [hv] at h
      exact ⟨hv, prune_dead_fieldsAll tl h⟩
    | some w =>
      rw [hv] at h
      cases h

/-! ### Child extraction and story basics -/

theorem childU_nil (k : String) : childU k [] = [] := rfl

theorem elemU_nil (i : Nat) : elemU i [] = [] := rfl

theorem arrUApply_nil (w : Option Val) : arrUApply [] w = w := rfl

theorem sSize_nil : opSize [] [] = 0 := rfl

theorem entryMem_fAppend_right : ∀ (as : Fields) {bs : Fields} {k : String}
    {v : Val}, EntryMem k v bs → EntryMem k v (fAppend as bs)
  | .nil, _, _, _, h => h
  | .cons k2 w tl, bs, k, v, h => by
    rw [fAppend_cons]
    exact EntryMem.tail _ _ _ (entryMem_fAppend_right tl h)

theorem entryMem_mem_keys {k : String} {v : Val} {gs : Fields}
    (h : EntryMem k v gs) : k ∈ gs.keys := by
  induction h with
  | head tl => exact List.mem_cons_self _ _
  | tail k2 w tl hm ih => exact List.mem_cons_of_mem _ ih

theorem fieldsAll_of_entry (P : String → Val → Prop) : ∀ (gs : Fields),
    (∀ k v, EntryMem k v gs → P k v) → fieldsAll P gs
  | .nil, _ => trivial
  | .cons k2 v2 tl, h =>
    ⟨h k2 v2 (EntryMem.head tl),
     fieldsAll_of_entry P tl (fun k v hm => h k v (EntryMem.tail _ _ _ hm))⟩

theorem mem_keys_pruneFields : ∀ (gs : Fields) {k : String},
    k ∈ (pruneFields gs).keys → k ∈ gs.keys
  | .nil, _, h => by cases h
  | .cons k2 v2 tl, k, h => by
    rw [pruneFields_cons] at h
    show k ∈ k2 :: tl.keys
    cases hv : pruneOptC (some v2) with
    | some w =>
      rw [hv] at h
      cases List.mem_cons.mp h with
      | inl he => exact he ▸ List.mem_cons_self _ _
      | inr he => exact List.mem_cons_of_mem _ (mem_keys_pruneFields tl he)
    | none =>
      rw [hv] at h
      exact List.mem_cons_of_mem _ (mem_keys_pruneFields tl h)

theorem nodup_pruneFields : ∀ (gs : Fields), nodupKeys gs = true →
    nodupKeys (pruneFields gs) = true
  | .nil, _ => rfl
  | .cons k2 v2 tl, h => by
    have h1 : k2 ∉ tl.keys := by simpa using (Bool.and_elim_left h)
    have h2 := nodup_pruneFields tl (Bool.and_elim_right h)
    rw [pruneFields_cons]
    cases hv : pruneOptC (some v2) with
    | some w =>
      show ((!((pruneFields tl).keys.contains k2)) && nodupKeys (pruneFields tl)) = true
      have h3 : k2 ∉ (pruneFields tl).keys :=
        fun hm => h1 (mem_keys_pruneFields tl hm)
      have h4 : (!((pruneFields tl).keys.contains k2)) = true := by simpa using h3
      rw [h4, h2]
      rfl
    | none => exact h2

mutual

theorem wf_pruneOptC : ∀ (v : Val) {w : Val}, wfVal v = true →
    pruneOptC (some v) = some w → wfVal w = true
  | .vobj gs, w, hv, hp => by
    rw [pruneOptC_obj] at hp
    cases hq : pruneFields gs with
    | nil =>
      rw [hq] at hp
      cases hp
    | cons k3 v3 tl3 =>
      rw [hq] at hp
      have hw := Option.some.inj hp
      rw [← hw, ← hq]
      show (nodupKeys (pruneFields gs) && wfFields (pruneFields gs)) = true
      rw [nodup_pruneFields gs (Bool.and_elim_left hv),
        wfFields_pruneFields gs (Bool.and_elim_right hv)]
      rfl
  | .varr xs, w, hv, hp => by
    have hw : Val.varr xs = w := Option.some.inj hp
    rw [← hw]
    exact hv
  | .vnull, w, hv, hp => by
    have hw : Val.vnull = w := Option.some.inj hp
    rw [← hw]
    exact hv
  | .vbool b, w, hv, hp => by
    have hw : Val.vbool b = w := Option.some.inj hp
    rw [← hw]
    exact hv
  | .vnum q, w, hv, hp => by
    have hw : Val.vnum q = w := Option.some.inj hp
    rw [← hw]
    exact hv
  | .vstr s2, w, hv, hp => by
    have hw : Val.vstr s2 = w := Option.some.inj hp
    rw [← hw]
    exact hv
  | .vdate d, w, hv, hp => by
    have hw : Val.vdate d = w := Option.some.inj hp
    rw [← hw]
    exact hv

theorem wfFields_pruneFields : ∀ (fs : Fields), wfFields fs = true →
    wfFields (pruneFields fs) = true
  | .nil, _ => rfl
  | .cons k v tl, h => by
    have hv : wfVal v = true := Bool.and_elim_left h
    have ht := wfFields_pruneFields tl (Bool.and_elim_right h)
    rw [pruneFields_cons]
    cases hp : pruneOptC (some v) with
    | none => exact ht
    | some w =>
      show (wfVal w && wfFields (pruneFields tl)) = true
      rw [wf_pruneOptC v hv hp, ht]
      rfl

end

theorem isContainer_unsetKP (p : KeyPath) {d : Val}
    (hd : isContainer d = true) :
    isContainer (unsetKeyPath p d) = true := by
  cases d with
  | vobj fs =>
    obtain ⟨gs, hg⟩ := unsetKP_obj_shape p fs
    rw [hg]
    rfl
  | varr xs =>
    obtain ⟨ys, hg⟩ := unsetKP_arr_shape p xs
    rw [hg]
    rfl
  | vnull => cases (show false = true from hd)
  | vbool b => cases (show false = true from hd)
  | vnum q => cases (show false = true from hd)
  | vstr s2 => cases (show false = true from hd)
  | vdate t => cases (show false = true from hd)

theorem isContainer_dollarUnsetFlat : ∀ (u : List (KeyPath × Option Val))
    {d : Val}, isContainer d = true → isContainer (dollarUnsetFlat d u) = true
  | [], _, hd => hd
  | e :: u', d, hd => by
    show isContainer (dollarUnsetFlat (unsetKeyPath e.1 d) u') = true
    exact isContainer_dollarUnsetFlat u' (isContainer_unsetKP e.1 hd)

end JsDiff
